import Mathlib

/-!
# sq: record writers, SLQ preprocessing, configuration and sheet import

A shallow embedding of parts of the `sq` command line tool:

* `cli/output/jsonw/encode.go`: the JSON scalar encoders
  (`encodeString`, `encodeBytes`, `monoEncoder.encodeAny`);
* `cli/output/markdownw/markdownw.go`: the Markdown record writer;
* `cli/cmd_slq.go`: `preprocessUserSLQ` and `execSLQ`;
* `cli/cmd_src.go`: `execSrc`;
* `cli/config/config.go`: `New`, `initCfg` and `Format.UnmarshalText`;
* `drivers/xlsx/import.go`: `buildTblDefForSheet`, `rowToRecord`,
  `getKindsFromCells`, `getColNames`, `getColTypes`, `getRowsMaxCellCount`
  and `importSheetToTable`;
* the source set and the row ranges of the AST, whose code is known by its
  tests only and is modelled from the specification.

Go strings and byte slices are lists of byte values (naturals below 256).
Command line arguments, which are text, are lists of characters.
-/

namespace Sq

/-! ## Bytes and text -/

deriving instance DecidableEq for Except

/-- ASCII text as the list of its byte values. -/
def str (s : String) : List Nat := s.toList.map Char.toNat

/-- The Go slice expression `s[i:j]` on a string. -/
def slice (s : List Nat) (i j : Nat) : List Nat := (s.drop i).take (j - i)

/-! ## unicode/utf8 -/

/-- The constant `utf8.RuneError`, U+FFFD. -/
def RuneError : Nat := 0xFFFD

/-- The width in bytes announced by a lead byte `0xC2..0xF4`: the low three
bits of its entry in the table `first` of Go `unicode/utf8`. -/
def leadSize (s0 : Nat) : Nat := if s0 < 0xE0 then 2 else if s0 < 0xF0 then 3 else 4

/-- The lower bound `acceptRanges[first[s0]>>4].lo` for the second byte. -/
def acceptLo (s0 : Nat) : Nat := if s0 = 0xE0 then 0xA0 else if s0 = 0xF0 then 0x90 else 0x80

/-- The upper bound `acceptRanges[first[s0]>>4].hi` for the second byte. -/
def acceptHi (s0 : Nat) : Nat := if s0 = 0xED then 0x9F else if s0 = 0xF4 then 0x8F else 0xBF

/-- Go `utf8.DecodeRuneInString`: the first rune of `s` and its width in bytes.
The table `first` of the Go implementation is rendered as ranges of the lead
byte: below `0x80` is ASCII, `0x80..0xC1` and `0xF5..0xFF` are invalid, the
others give the width `leadSize` and the accepted range of the second byte.
Masks and shifts are written as `%` and `*`. -/
def DecodeRuneInString (s : List Nat) : Nat × Nat :=
  match s with
  | [] => (RuneError, 0)
  | s0 :: _ =>
    if s0 < 0x80 then (s0, 1)
    else if s0 < 0xC2 ∨ 0xF4 < s0 then (RuneError, 1)
    else if s.length < leadSize s0 then (RuneError, 1)
    else if s.getD 1 0 < acceptLo s0 ∨ acceptHi s0 < s.getD 1 0 then (RuneError, 1)
    else if leadSize s0 ≤ 2 then ((s0 % 32) * 64 + s.getD 1 0 % 64, 2)
    else if s.getD 2 0 < 0x80 ∨ 0xBF < s.getD 2 0 then (RuneError, 1)
    else if leadSize s0 ≤ 3 then
      ((s0 % 16) * 4096 + (s.getD 1 0 % 64) * 64 + s.getD 2 0 % 64, 3)
    else if s.getD 3 0 < 0x80 ∨ 0xBF < s.getD 3 0 then (RuneError, 1)
    else
      ((s0 % 8) * 262144 + (s.getD 1 0 % 64) * 4096 + (s.getD 2 0 % 64) * 64
        + s.getD 3 0 % 64, 4)

/-- A rune decoded from a non-empty string is at least one byte wide. -/
theorem DecodeRuneInString_size_pos (s : List Nat) (h : s ≠ []) :
    1 ≤ (DecodeRuneInString s).2 := by
  cases s with
  | nil => exact absurd rfl h
  | cons s0 t =>
    simp only [DecodeRuneInString]
    split_ifs <;> simp

/-! ## cli/output/jsonw/encode.go -/

/-- The constant `hex` of `encodeString`. -/
def hex : List Nat := str "0123456789abcdef"

/-- The loop `for j < len(s)` of `encodeString`, on the state `(b, i, j)`. It
returns `b` and `i` at loop exit. The bound `fuel` counts the iterations left;
it is at least `len(s) - j`, so the loop only ever ends by its own test. -/
def encodeStringLoop (s : List Nat) (escapeHTML : Bool) :
    (fuel : Nat) → (b : List Nat) → (i j : Nat) → s.length - j ≤ fuel → List Nat × Nat
  | 0, b, i, _, _ => (b, i)
  | fuel + 1, b, i, j, h =>
    if hj : j < s.length then
      let c := s.getD j 0
      if 0x20 ≤ c ∧ c ≤ 0x7f ∧ c ≠ 0x5c ∧ c ≠ 0x22 ∧
          (escapeHTML = false ∨ (c ≠ 0x3c ∧ c ≠ 0x3e ∧ c ≠ 0x26)) then
        -- fast path: printable ascii
        encodeStringLoop s escapeHTML fuel b i (j + 1) (by omega)
      else if c = 0x5c ∨ c = 0x22 then
        encodeStringLoop s escapeHTML fuel (b ++ slice s i j ++ [0x5c, c])
          (j + 1) (j + 1) (by omega)
      else if c = 0x0a then
        encodeStringLoop s escapeHTML fuel (b ++ slice s i j ++ str "\\n")
          (j + 1) (j + 1) (by omega)
      else if c = 0x0d then
        encodeStringLoop s escapeHTML fuel (b ++ slice s i j ++ str "\\r")
          (j + 1) (j + 1) (by omega)
      else if c = 0x09 then
        encodeStringLoop s escapeHTML fuel (b ++ slice s i j ++ str "\\t")
          (j + 1) (j + 1) (by omega)
      else if c = 0x3c ∨ c = 0x3e ∨ c = 0x26 then
        encodeStringLoop s escapeHTML fuel
          (b ++ slice s i j ++ str "\\u00" ++ [hex.getD (c / 16) 0, hex.getD (c % 16) 0])
          (j + 1) (j + 1) (by omega)
      else if c < 0x20 then
        encodeStringLoop s escapeHTML fuel
          (b ++ slice s i j ++ str "\\u00" ++ [hex.getD (c / 16) 0, hex.getD (c % 16) 0])
          (j + 1) (j + 1) (by omega)
      else
        let rs := DecodeRuneInString (s.drop j)
        have hsz : 1 ≤ rs.2 :=
          DecodeRuneInString_size_pos (s.drop j) (by simp [List.drop_eq_nil_iff]; omega)
        if rs.1 = RuneError ∧ rs.2 = 1 then
          encodeStringLoop s escapeHTML fuel (b ++ slice s i j ++ str "\\ufffd")
            (j + rs.2) (j + rs.2) (by omega)
        else if rs.1 = 0x2028 ∨ rs.1 = 0x2029 then
          encodeStringLoop s escapeHTML fuel
            (b ++ slice s i j ++ str "\\u202" ++ [hex.getD (rs.1 % 16) 0])
            (j + rs.2) (j + rs.2) (by omega)
        else
          encodeStringLoop s escapeHTML fuel b i (j + rs.2) (by omega)
    else (b, i)

/-- Go `encodeString`: appends the JSON encoding of `s` to `b`. The error
result is always nil. -/
def encodeString (b s : List Nat) (escapeHTML : Bool) : Except String (List Nat) :=
  let b := b ++ [0x22]
  let r := encodeStringLoop s escapeHTML s.length b 0 0 (by omega)
  let b := r.1 ++ s.drop r.2
  .ok (b ++ [0x22])

/-! ### encoding/base64 -/

/-- The alphabet of `base64.StdEncoding`. -/
def encodeStd : List Nat :=
  str "ABCDEFGHIJKLMNOPQRSTUVWXYZabcdefghijklmnopqrstuvwxyz0123456789+/"

/-- Go `base64.StdEncoding.EncodedLen(n)`, for the padded encoding. -/
def EncodedLen (n : Nat) : Nat := (n + 2) / 3 * 4

/-- The bytes written by Go `base64.StdEncoding.Encode(dst, src)`: every three
source bytes give four alphabet characters, and a last group of one or two
bytes is completed with the padding character `=`. -/
def base64Encode : List Nat → List Nat
  | [] => []
  | [a] => [encodeStd.getD (a / 4) 0, encodeStd.getD (a % 4 * 16) 0, 0x3d, 0x3d]
  | [a, b] =>
    [encodeStd.getD (a / 4) 0, encodeStd.getD (a % 4 * 16 + b / 16) 0,
      encodeStd.getD (b % 16 * 4) 0, 0x3d]
  | a :: b :: c :: rest =>
    [encodeStd.getD (a / 4) 0, encodeStd.getD (a % 4 * 16 + b / 16) 0,
      encodeStd.getD (b % 16 * 4 + c / 64) 0, encodeStd.getD (c % 64) 0]
      ++ base64Encode rest

/-! ### Byte slices with capacity -/

/-- A Go `[]byte`: `arr` is the backing array from the start of the slice to
its capacity, `len` the length of the slice. -/
structure Slice where
  arr : List Nat
  len : Nat
deriving DecidableEq, Repr

/-- The elements of a slice, `b[0:len(b)]`. -/
def Slice.toList (b : Slice) : List Nat := b.arr.take b.len

/-- The capacity `cap(b)`. -/
def Slice.cap (b : Slice) : Nat := b.arr.length

/-- A slice without spare capacity holding `l`. -/
def Slice.ofList (l : List Nat) : Slice := ⟨l, l.length⟩

/-- The list `l` with `src` written over it from index `i` on. -/
def overwrite (l : List Nat) (i : Nat) (src : List Nat) : List Nat :=
  l.take i ++ src ++ l.drop (i + src.length)

/-- Go `append(b, x...)`: in place when the capacity allows it, else into a
new array (whose spare capacity, if any, is not observable here). -/
def Slice.append (b : Slice) (x : List Nat) : Slice :=
  if b.len + x.length ≤ b.cap then ⟨overwrite b.arr b.len x, b.len + x.length⟩
  else ⟨b.toList ++ x, b.len + x.length⟩

/-- Go `encodeBytes`: appends the base64 encoding of `v`, in quotes, to `b`;
`v = none` is the nil slice. The error result is always nil. -/
def encodeBytes (b : Slice) (v : Option (List Nat)) : Except String Slice :=
  match v with
  | none => .ok (b.append (str "null"))
  | some v =>
    let n := EncodedLen v.length + 2
    let avail := b.cap - b.len
    let b : Slice :=
      if avail < n then
        -- newB := make([]byte, cap(b)+(n-avail)); copy(newB, b); b = newB[:len(b)]
        let newB := List.replicate (b.cap + (n - avail)) 0
        let newB := overwrite newB 0 b.toList
        ⟨newB, b.len⟩
      else b
    let i := b.len
    let j := b.len + n
    let b : Slice := ⟨b.arr, j⟩
    let b : Slice := ⟨b.arr.set i 0x22, b.len⟩
    let b : Slice := ⟨overwrite b.arr (i + 1) (base64Encode v), b.len⟩
    let b : Slice := ⟨b.arr.set (j - 1) 0x22, b.len⟩
    .ok b

/-! ### strconv -/

/-- The decimal digits of `n`, most significant first, put in front of `ds`;
`fuel` bounds the number of digits. -/
def decimalDigits : Nat → Nat → List Nat → List Nat
  | 0, _, ds => ds
  | fuel + 1, n, ds =>
    if n / 10 = 0 then (0x30 + n % 10) :: ds
    else decimalDigits fuel (n / 10) ((0x30 + n % 10) :: ds)

/-- Go `strconv.FormatUint(n, 10)`. -/
def FormatUint (n : Nat) : List Nat := decimalDigits (n + 1) n []

/-- Go `strconv.FormatInt(v, 10)`. -/
def FormatInt (v : Int) : List Nat :=
  if v < 0 then 0x2d :: FormatUint (-v).toNat else FormatUint v.toNat

/-- Go `strconv.FormatBool`. -/
def FormatBool (v : Bool) : List Nat := if v then str "true" else str "false"

/-! ### Record values -/

/-- The layouts `stringz.TimeFormat`, `stringz.DatetimeFormat` and
`stringz.DateFormat` passed to `time.Time.Format`. -/
inductive Layout where
  | TimeFormat
  | DatetimeFormat
  | DateFormat
deriving DecidableEq, Repr

/-- A field of an `sqlz.Record`, by its dynamic type. The formatting of floats
(`stringz.FormatFloat`), of times (`time.Time.Format`) and of values of
other types (`fmt.Sprintf("%v")`) is outside this development: such a value is
given by the text these functions return for it. -/
inductive Value where
  | nil
  | int64 (v : Int)
  | float64 (formatFloat : List Nat)
  | bool (v : Bool)
  | bytes (v : Option (List Nat))
  | string (v : List Nat)
  | time (format : Layout → List Nat)
  | other (sprintf : List Nat)

/-- Go `monoEncoder.encodeAny`. The message of the error is kept up to the
formatted value (`%T: %#v`), whose formatting is outside this development. -/
def monoEncoder.encodeAny (b : List Nat) (v : Value) : Except String (List Nat) :=
  match v with
  | .other _ => .error "unexpected record field type"
  | .nil => .ok (b ++ str "null")
  | .int64 v => .ok (b ++ FormatInt v)
  | .float64 f => .ok (b ++ f)
  | .bool v => .ok (b ++ FormatBool v)
  | .bytes v =>
    match encodeBytes (Slice.ofList b) v with
    | .error err => .error err
    | .ok b => .ok b.toList
  | .string v =>
    match encodeString b v false with
    | .error err => .error err
    | .ok b => .ok b
  | .time format => .ok (b ++ [0x22] ++ format .DatetimeFormat ++ [0x22])

/-- One entry of `internal.Colors`: the terminal codes put around a value. -/
structure Color where
  Prefix : List Nat
  Suffix : List Nat

/-- The colors of `internal.Colors` used by the encoders. `AppendNull` is a
method of that type; its code is not part of this development. -/
structure Colors where
  Number : Color
  Bool : Color
  Bytes : Color
  String : Color
  Time : Color
  AppendNull : List Nat → List Nat

/-- Go `colorEncoder.encodeAny`. -/
def colorEncoder.encodeAny (clrs : Colors) (b : List Nat) (v : Value) :
    Except String (List Nat) :=
  match v with
  | .other _ => .error "unexpected record field type"
  | .nil => .ok (clrs.AppendNull b)
  | .int64 v => .ok (b ++ clrs.Number.Prefix ++ FormatInt v ++ clrs.Number.Suffix)
  | .float64 f => .ok (b ++ clrs.Number.Prefix ++ f ++ clrs.Number.Suffix)
  | .bool v => .ok (b ++ clrs.Bool.Prefix ++ FormatBool v ++ clrs.Bool.Suffix)
  | .bytes v =>
    match encodeBytes (Slice.ofList (b ++ clrs.Bytes.Prefix)) v with
    | .error err => .error err
    | .ok b => .ok (b.toList ++ clrs.Bytes.Suffix)
  | .string v =>
    match encodeString (b ++ clrs.String.Prefix) v false with
    | .error err => .error err
    | .ok b => .ok (b ++ clrs.String.Suffix)
  | .time format =>
    .ok (b ++ clrs.Time.Prefix ++ [0x22] ++ format .DatetimeFormat ++ [0x22]
      ++ clrs.Time.Suffix)

/-! ## cli/output/markdownw/markdownw.go -/

/-- Go `html.EscapeString`: the five characters `&`, `'`, `<`, `>`, `"` are
replaced by their entities. -/
def htmlEscapeString (s : List Nat) : List Nat :=
  s.flatMap fun c =>
    if c = 0x26 then str "&amp;"
    else if c = 0x27 then str "&#39;"
    else if c = 0x3c then str "&lt;"
    else if c = 0x3e then str "&gt;"
    else if c = 0x22 then str "&#34;"
    else [c]

/-- The scan of Go `strings.Replace(s, old, new, -1)` for a non-empty `old`:
occurrences of `old` are replaced from left to right without overlap. `skip`
counts the bytes of the current occurrence still to be passed over. -/
def replaceScan (old new : List Nat) : Nat → List Nat → List Nat
  | _, [] => []
  | skip + 1, _ :: rest => replaceScan old new skip rest
  | 0, c :: rest =>
    if old.isPrefixOf (c :: rest) then new ++ replaceScan old new (old.length - 1) rest
    else c :: replaceScan old new 0 rest

/-- Go `strings.Replace(s, old, new, -1)`, for a non-empty `old`. -/
def Replace (s old new : List Nat) : List Nat := replaceScan old new 0 s

/-- Go `escapeMarkdown`. -/
def escapeMarkdown (s : List Nat) : List Nat :=
  let s := htmlEscapeString s
  let s := Replace s (str "|") (str "&vert;")
  let s := Replace s (str "\r\n") (str "<br/>")
  let s := Replace s (str "\n") (str "<br/>")
  s

/-- Modelled from the spec: the enumeration `kind.Kind` of logical types, whose
declaration is not among the sources (spec section 3: Null, Text, Int, Float,
Decimal, Bool, Bytes, Datetime, Date, Time). -/
inductive Kind where
  | Null | Text | Int | Float | Decimal | Bool | Bytes | Datetime | Date | Time
deriving DecidableEq, Repr

/-- One entry of `sqlz.RecordMeta`: what `Name()` and `Kind()` return. -/
structure FieldMeta where
  Name : List Nat
  Kind : Kind
deriving DecidableEq, Repr

/-- The Markdown `RecordWriter`. `out` holds the bytes that the `io.Writer`
has taken so far; `buf` is the `*bytes.Buffer`, `none` while it is nil (before
`Open`). -/
structure RecordWriter where
  recMeta : List FieldMeta
  out : List Nat
  buf : Option (List Nat)

/-- Go `NewRecordWriter`, on a stream that already holds `out`. -/
def NewRecordWriter (out : List Nat) : RecordWriter :=
  { recMeta := [], out := out, buf := none }

/-- The first loop of `Open`, `for i, field := range recMeta`, from index `i`
on; `n` is `len(recMeta)`. -/
def openHeaderLoop (n : Nat) : List FieldMeta → Nat → List Nat → List Nat
  | [], _, buf => buf
  | field :: rest, i, buf =>
    let buf := buf ++ str "| "
    let buf := buf ++ (field.Name ++ str " ")
    let buf := if i = n - 1 then buf ++ str "|\n" else buf
    openHeaderLoop n rest (i + 1) buf

/-- The second loop of `Open`, `for i := range recMeta`, from index `i` on. -/
def openSeparatorLoop (n : Nat) : List FieldMeta → Nat → List Nat → List Nat
  | [], _, buf => buf
  | _ :: rest, i, buf =>
    let buf := buf ++ str "| --- "
    let buf := if i = n - 1 then buf ++ str "|\n" else buf
    openSeparatorLoop n rest (i + 1) buf

/-- Go `RecordWriter.Open`. It returns a nil error. -/
def RecordWriter.Open (w : RecordWriter) (recMeta : List FieldMeta) : RecordWriter :=
  let buf := openHeaderLoop recMeta.length recMeta 0 []
  let buf := openSeparatorLoop recMeta.length recMeta 0 buf
  { recMeta := recMeta, out := w.out, buf := some buf }

/-- The errors that `bytes.Buffer.WriteTo` returns: the error of the `Write`
of the `io.Writer`, or `io.ErrShortWrite`. -/
inductive WriteError where
  | failed
  | short
deriving DecidableEq, Repr

/-- An `io.Writer`, by what a call `Write(p)` does when the stream holds
`out`: the number of bytes of `p` that it takes, which come after `out` on the
stream, and whether it returns an error. -/
structure Sink where
  Write : List Nat → List Nat → Nat × Bool

/-- Go `bytes.Buffer.WriteTo(w)` on a buffer that holds `buf`, with the stream
holding `out`: the bytes left in the buffer, the stream, and the error
returned. A buffer without bytes is reset without a call of `Write`. The
result `none` is the panic on a count of bytes taken above `len(p)`. -/
def WriteTo (sink : Sink) (buf out : List Nat) :
    Option (List Nat × List Nat × Option WriteError) :=
  if buf.length > 0 then
    let r := sink.Write out buf
    if r.1 > buf.length then none
    else if r.2 then some (buf.drop r.1, out ++ buf.take r.1, some .failed)
    else if r.1 ≠ buf.length then some (buf.drop r.1, out ++ buf.take r.1, some .short)
    else some ([], out ++ buf.take r.1, none)
  else some ([], out, none)

/-- Go `RecordWriter.Flush`: `w.buf.WriteTo(w.out)`, whose error is returned.
`none` is a run-time failure (a nil buffer, or the panic of `WriteTo`). -/
def RecordWriter.Flush (w : RecordWriter) (sink : Sink) :
    Option (RecordWriter × Option WriteError) :=
  match w.buf with
  | none => none
  | some buf =>
    match WriteTo sink buf w.out with
    | none => none
    | some (buf, out, err) => some ({ w with out := out, buf := some buf }, err)

/-- Go `RecordWriter.Close`. -/
def RecordWriter.Close (w : RecordWriter) (sink : Sink) :
    Option (RecordWriter × Option WriteError) := w.Flush sink

/-- The loop `for i, field := range rec` of `writeRecord`, from index `i` on.
The variable `s` is declared before the loop and is carried from one field to
the next. `none` is a run-time failure (`w.recMeta[i]` out of range). -/
def writeRecordLoop (recMeta : List FieldMeta) :
    List Value → Nat → List Nat → List Nat → Option (List Nat)
  | [], _, _, buf => some buf
  | field :: rest, i, s, buf =>
    let buf := buf ++ str "| "
    let s' : Option (List Nat) :=
      match field with
      | .other val => some (escapeMarkdown val)
      | .nil => some s
      | .int64 val => some (FormatInt val)
      | .string val => some (escapeMarkdown val)
      | .bool val => some (FormatBool val)
      | .float64 val => some val
      | .bytes val => some (base64Encode (val.getD []))
      | .time format =>
        match recMeta.get? i with
        | none => none
        | some m =>
          match m.Kind with
          | .Time => some (format .TimeFormat)
          | .Date => some (format .DateFormat)
          | _ => some (format .DatetimeFormat)
    match s' with
    | none => none
    | some s => writeRecordLoop recMeta rest (i + 1) s (buf ++ (s ++ str " "))

/-- Go `RecordWriter.writeRecord`. It returns a nil error; `none` is a
run-time failure. -/
def RecordWriter.writeRecord (w : RecordWriter) (rec : List Value) : Option RecordWriter :=
  match w.buf with
  | none => none
  | some buf =>
    match writeRecordLoop w.recMeta rec 0 [] buf with
    | none => none
    | some buf => some { w with buf := some (buf ++ str "|\n") }

/-- Go `RecordWriter.WriteRecords`. -/
def RecordWriter.WriteRecords (w : RecordWriter) : List (List Value) → Option RecordWriter
  | [] => some w
  | rec :: recs =>
    match w.writeRecord rec with
    | none => none
    | some w => RecordWriter.WriteRecords w recs

/-- A call made on a writer between `Open` and `Close`. -/
inductive WriterCall where
  | WriteRecords (recs : List (List Value))
  | Flush

/-- The writer after a sequence of calls, and the errors that the calls of
`Flush` returned, in order (`WriteRecords` returns none). -/
def RecordWriter.run (w : RecordWriter) (sink : Sink) :
    List WriterCall → Option (RecordWriter × List WriteError)
  | [] => some (w, [])
  | .WriteRecords recs :: calls =>
    match w.WriteRecords recs with
    | none => none
    | some w => RecordWriter.run w sink calls
  | .Flush :: calls =>
    match w.Flush sink with
    | none => none
    | some (w, err) =>
      match RecordWriter.run w sink calls with
      | none => none
      | some (w, errs) => some (w, err.toList ++ errs)

/-- The records passed by a sequence of calls, in the order they were passed. -/
def recordsOf : List WriterCall → List (List Value)
  | [] => []
  | .WriteRecords recs :: calls => recs ++ recordsOf calls
  | .Flush :: calls => recordsOf calls

/-- The header and separator lines as the spec gives them: each name between
`| ` and a space, closed by `|` and a newline, then one `| --- ` per field,
closed likewise. Empty when there is no field. -/
def headerLines (recMeta : List FieldMeta) : List Nat :=
  if recMeta = [] then []
  else
    (recMeta.flatMap fun f => str "| " ++ f.Name ++ str " ") ++ str "|\n"
      ++ (recMeta.flatMap fun _ => str "| --- ") ++ str "|\n"

/-! ## cli/cmd_slq.go -/

/-- Go `unicode.IsSpace`. -/
def IsSpace (r : Char) : Bool :=
  let n := r.toNat
  (0x09 ≤ n ∧ n ≤ 0x0d) ∨ n = 0x20 ∨ n = 0x85 ∨ n = 0xA0 ∨ n = 0x1680 ∨
    (0x2000 ≤ n ∧ n ≤ 0x200a) ∨ n = 0x2028 ∨ n = 0x2029 ∨ n = 0x202f ∨ n = 0x205f ∨
    n = 0x3000

/-- Go `strings.TrimSpace`: leading and trailing white space removed. -/
def TrimSpace (s : List Char) : List Char :=
  ((s.dropWhile IsSpace).reverse.dropWhile IsSpace).reverse

/-- Go `strings.Split(s, sep)` for a separator of one character: the pieces of
`s` between the separators; a string without separator gives one piece. -/
def Split (s : List Char) (sep : Char) : List (List Char) :=
  match s with
  | [] => [[]]
  | c :: rest =>
    if c = sep then [] :: Split rest sep
    else
      match Split rest sep with
      | [] => [[c]]
      | piece :: pieces => (c :: piece) :: pieces

/-- Go `strings.Join(elems, sep)`. -/
def Join (elems : List (List Char)) (sep : List Char) : List Char :=
  match elems with
  | [] => []
  | [e] => e
  | e :: rest => e ++ sep ++ Join rest sep

/-- Go `len(s)` of a string: its length in bytes. -/
def len (s : List Char) : Nat := (s.map Char.utf8Size).sum

/-- The errors returned by the functions of this development. -/
inductive Err where
  /-- The error `errz.New(msgEmptyQueryString)`. -/
  | emptyQueryString
  /-- The error `errz.New(msgSrcNoData)`. -/
  | srcNoData
  /-- The error `errz.New(msgSrcEmptyTableName)`. -/
  | srcEmptyTableName
  /-- The error `errz.Errorf("invalid data source: %q", handle)`. -/
  | invalidDataSource (handle : List Char)
  /-- The error `errz.New("no data source provided, and no active data source")`. -/
  | noActiveSource
  /-- The error of `srcs.Get` for a handle that is not in the set. -/
  | unknownHandle (handle : List Char)
  /-- An error returned by the driver registry or by a database. -/
  | collaborator (msg : List Char)
  /-- The error `errz.New(msgNoActiveSrc)` of `execSLQ`. -/
  | noActiveSrc
  /-- The error of `srcs.Add` for a handle that is already in the set. -/
  | duplicateHandle (handle : List Char)
  /-- The error `errz.Errorf("invalid --%s value: empty", flagInsert)`. -/
  | invalidInsertEmpty
  /-- The error `errz.Wrapf(err, "invalid --%s value", flagInsert)`. -/
  | invalidInsertValue
  /-- The error `errz.Errorf("sheet %q has no columns", sheet.Name)`. -/
  | sheetNoColumns (sheet : List Char)
  /-- The error `errz.Errorf("unknown output format %q", string(text))`. -/
  | unknownOutputFormat (text : List Nat)
deriving DecidableEq, Repr

/-- The outcome of a Go function returning `(T, error)`; `crash` is a run-time
failure (an index out of range). -/
inductive Outcome (α : Type) where
  | ok (v : α)
  | error (err : Err)
  | crash
deriving DecidableEq, Repr

/-- A `source.Source`: its handle and its type (the field `Type`). -/
structure Source where
  Handle : List Char
  Typ : List Char
deriving DecidableEq, Repr

/-- Modelled from the spec: the source set `source.Set`, whose code is not
among the sources (spec sections 3 and 4.B): an ordered collection of sources
with a distinguished active source, which may be absent. -/
structure SourceSet where
  items : List Source
  active : Option (List Char)
deriving DecidableEq, Repr

/-- Modelled from the spec: `Set.Active`, the active source if there is one. -/
def SourceSet.Active (srcs : SourceSet) : Option Source :=
  match srcs.active with
  | none => none
  | some handle => srcs.items.find? fun src => src.Handle = handle

/-- Modelled from the spec: `Set.Get`, the source with the given handle, or
an error when the handle is unknown. -/
def SourceSet.Get (srcs : SourceSet) (handle : List Char) : Except Err Source :=
  match srcs.items.find? fun src => src.Handle = handle with
  | none => .error (.unknownHandle handle)
  | some src => .ok src

/-- Modelled from the spec: the constant `source.StdinHandle`, the handle
`@stdin` of piped input. -/
def StdinHandle : List Char := "@stdin".toList

/-- Modelled from the spec: the constant `source.MonotableName`, the name
`data` of the table of a monotable source. -/
def MonotableName : List Char := "data".toList

/-- What `dbase.SourceMetadata(ctx)` returns: the names of the tables, or an
error. -/
structure Database where
  SourceMetadata : Except Err (List (List Char))

/-- The part of `RunContext` read by `preprocessUserSLQ`: the source set
`rc.Config.Sources`; for a source type, whether `rc.registry.DriverFor`
succeeds and what `DriverMetadata().Monotable` of the driver is; and the
result of `rc.databases.Open` on a source. -/
structure RunContext where
  Sources : SourceSet
  DriverFor : List Char → Except Err Bool
  Open : Source → Except Err Database

/-- Go `preprocessUserSLQ`. -/
def preprocessUserSLQ (rc : RunContext) (args : List (List Char)) : Outcome (List Char) :=
  let srcs := rc.Sources
  let activeSrc := srcs.Active
  if args.length = 0 then
    match activeSrc with
    | none => .error .emptyQueryString
    | some activeSrc =>
      if activeSrc.Handle ≠ StdinHandle then .error .emptyQueryString
      else
        match rc.DriverFor activeSrc.Typ with
        | .error err => .error err
        | .ok monotable =>
          if !monotable then
            match rc.Open activeSrc with
            | .error err => .error err
            | .ok dbase =>
              match dbase.SourceMetadata with
              | .error err => .error err
              | .ok tables =>
                match tables with
                | [] => .error .srcNoData
                | tblName :: _ =>
                  if tblName = [] then .error .srcEmptyTableName
                  else .ok (StdinHandle ++ ".".toList ++ tblName)
          else .ok (StdinHandle ++ ".".toList ++ MonotableName)
  else
    let args := args.map TrimSpace
    match args with
    | [] => .crash
    | arg0 :: _ =>
      let start := TrimSpace arg0
      match Split start ' ' with
      | [] => .crash
      | parts0 :: _ =>
        match parts0 with
        | [] => .crash
        | c :: _ =>
          if c = '@' then
            match Split parts0 '.' with
            | [] => .crash
            | handle :: _ =>
              if len handle < 2 then .error (.invalidDataSource handle)
              else
                match srcs.Get handle with
                | .error err => .error err
                | .ok _ => .ok (Join args " ".toList)
          else
            match activeSrc with
            | none => .error .noActiveSource
            | some activeSrc => .ok (activeSrc.Handle ++ " | ".toList ++ Join args " ".toList)

/-- Modelled from the spec: `Set.Add` (section 4.B): the source is put after
the others; it fails when the handle is already in the set. -/
def SourceSet.Add (srcs : SourceSet) (src : Source) : Except Err SourceSet :=
  if srcs.items.any (fun s => s.Handle = src.Handle) then .error (.duplicateHandle src.Handle)
  else .ok { srcs with items := srcs.items ++ [src] }

/-- Modelled from the spec: `Set.SetActive` (section 4.B): the source with the
given handle becomes the active source and is returned; it fails when the
handle is unknown. -/
def SourceSet.SetActive (srcs : SourceSet) (handle : List Char) :
    Except Err (SourceSet × Source) :=
  match srcs.items.find? fun src => src.Handle = handle with
  | none => .error (.unknownHandle handle)
  | some src => .ok ({ srcs with active := some handle }, src)

/-- The methods of `*source.Set` called by `execSLQ`, on a set of type `σ`.
Their code is not among the sources, so `execSLQ` takes them as given. -/
structure SetMethods (σ : Type) where
  Add : σ → Source → Except Err σ
  SetActive : σ → List Char → Except Err (σ × Source)
  Active : σ → Option Source
  Get : σ → List Char → Except Err Source

/-- Modelled from the spec: the methods of the source set of section 4.B. -/
def SourceSet.methods : SetMethods SourceSet where
  Add := SourceSet.Add
  SetActive := SourceSet.SetActive
  Active := SourceSet.Active
  Get := SourceSet.Get

/-- What `execSLQ` reads besides the source set: the result of
`checkStdinSource(rc)` (`none` when there is no source on stdin), whether the
flag `--insert` was given, its value, and what `source.ParseTableHandle`
returns for a value. -/
structure Invocation where
  checkStdinSource : Except Err (Option Source)
  insertChanged : Bool
  insertTo : List Char
  ParseTableHandle : List Char → Except Err (List Char × List Char)

/-- How `execSLQ` ends: with an error of its own, or by returning what
`execSLQPrint(rc)` or `execSLQInsert(rc, destSrc, destTbl)` returns. Both
begin by preprocessing the query against `rc.Config.Sources`. -/
inductive Handover where
  | failed (err : Err)
  | execSLQPrint
  | execSLQInsert (destSrc : Source) (destTbl : List Char)
deriving DecidableEq, Repr

/-- The part of `execSLQ` after the stdin source and the active source have
been dealt with: the flag `--insert` decides between printing and inserting. -/
def execSLQ.handover {σ : Type} (m : SetMethods σ) (srcs : σ) (inv : Invocation) :
    Handover :=
  if !inv.insertChanged then .execSLQPrint
  else if inv.insertTo = [] then .failed .invalidInsertEmpty
  else
    match inv.ParseTableHandle inv.insertTo with
    | .error _ => .failed .invalidInsertValue
    | .ok (destHandle, destTbl) =>
      match m.Get srcs destHandle with
      | .error err => .failed err
      | .ok destSrc => .execSLQInsert destSrc destTbl

/-- Go `execSLQ`: the source set `rc.Config.Sources` as it leaves it, and how
it ends. -/
def execSLQ {σ : Type} (m : SetMethods σ) (srcs : σ) (inv : Invocation) : σ × Handover :=
  match inv.checkStdinSource with
  | .error err => (srcs, .failed err)
  | .ok (some src) =>
    match m.Add srcs src with
    | .error err => (srcs, .failed err)
    | .ok srcs =>
      match m.SetActive srcs src.Handle with
      | .error err => (srcs, .failed err)
      | .ok (srcs, _) => (srcs, execSLQ.handover m srcs inv)
  | .ok none =>
    match m.Active srcs with
    | none => (srcs, .failed .noActiveSrc)
    | some _ => (srcs, execSLQ.handover m srcs inv)

/-! ## cli/config/config.go -/

/-- The Go type `Format`, a string. -/
abbrev Format := List Nat

/-- The constant `FormatJSON`. -/
def FormatJSON : Format := str "json"
/-- The constant `FormatJSONL`. -/
def FormatJSONL : Format := str "jsonl"
/-- The constant `FormatJSONA`. -/
def FormatJSONA : Format := str "jsona"
/-- The constant `FormatTable`. -/
def FormatTable : Format := str "table"
/-- The constant `FormatRaw`. -/
def FormatRaw : Format := str "raw"
/-- The constant `FormatHTML`. -/
def FormatHTML : Format := str "html"
/-- The constant `FormatMarkdown`. -/
def FormatMarkdown : Format := str "markdown"
/-- The constant `FormatXLSX`. -/
def FormatXLSX : Format := str "xlsx"
/-- The constant `FormatXML`. -/
def FormatXML : Format := str "xml"
/-- The constant `FormatCSV`. -/
def FormatCSV : Format := str "csv"
/-- The constant `FormatTSV`. -/
def FormatTSV : Format := str "tsv"

/-- Go `Format.UnmarshalText`: the error returned (`none` for nil) and the
value of `*f` afterwards. -/
def Format.UnmarshalText (f : Format) (text : List Nat) : Option Err × Format :=
  if text = FormatJSON ∨ text = FormatJSONA ∨ text = FormatJSONL ∨ text = FormatTable ∨
      text = FormatRaw ∨ text = FormatHTML ∨ text = FormatMarkdown ∨ text = FormatXLSX ∨
      text = FormatXML ∨ text = FormatCSV ∨ text = FormatTSV then
    (none, text)
  else (some (.unknownOutputFormat text), f)

/-- The constant `time.Millisecond`, in nanoseconds. -/
def Millisecond : Int := 1000000

/-- The constant `time.Second`, in nanoseconds. -/
def Second : Int := 1000 * Millisecond

/-- The Go type `Defaults`; a `time.Duration` is a count of nanoseconds. -/
structure Defaults where
  Format : Format
  Header : Bool
  PingTimeout : Int
  ShellCompletionTimeout : Int
deriving DecidableEq, Repr

/-- The Go type `Config`. `Sources` is `none` for a nil pointer; `Ext` stands
for the user driver definitions. -/
structure Config where
  Version : List Nat
  Defaults : Defaults
  Sources : Option SourceSet
  Ext : List (List Nat)
deriving DecidableEq, Repr

/-- Go `initCfg`. `&source.Set{}` is the set without items and without active
source. -/
def initCfg (cfg : Config) : Config :=
  let cfg := if cfg.Sources = none then { cfg with Sources := some ⟨[], none⟩ } else cfg
  let cfg :=
    if cfg.Defaults.Format = [] then
      { cfg with Defaults := { cfg.Defaults with Format := FormatTable } }
    else cfg
  let cfg :=
    if cfg.Defaults.PingTimeout = 0 then
      { cfg with Defaults := { cfg.Defaults with PingTimeout := 10 * Second } }
    else cfg
  let cfg :=
    if cfg.Defaults.ShellCompletionTimeout = 0 then
      { cfg with Defaults := { cfg.Defaults with ShellCompletionTimeout := Millisecond * 500 } }
    else cfg
  cfg

/-- Go `config.New`. -/
def New : Config :=
  let cfg : Config :=
    { Version := [], Defaults := ⟨[], false, 0, 0⟩, Sources := none, Ext := [] }
  let cfg := { cfg with Defaults := { cfg.Defaults with Header := true } }
  initCfg cfg

/-! ## drivers/xlsx/import.go -/

/-- The cell types of the library `tealeg/xlsx`, as `cellTypeToString` lists
them. -/
inductive CellType where
  | String | StringFormula | Numeric | Bool | Inline | Error | Date
deriving DecidableEq, Repr

/-- A `time.Time`, as a count of nanoseconds since the Unix epoch. -/
structure Time where
  unixNano : Int
deriving DecidableEq, Repr

/-- A `float64`, by the bits of its IEEE 754 representation. -/
structure Float64 where
  bits : Nat
deriving DecidableEq, Repr

/-- An `xlsx.Cell`, by what the import code reads of it: the field `Value` and
the results of the methods `Type`, `IsTime`, `GetTime(false)`, `Int64`,
`Float`, `String` and `Bool`. A method returning an error gives `none`. -/
structure Cell where
  Typ : CellType
  Value : List Char
  IsTime : Bool
  GetTime : Option Time
  Int64 : Option Int
  Float : Option Float64
  String : List Char
  Bool : Bool
deriving DecidableEq, Repr

/-- An `xlsx.Row`. -/
structure Row where
  Cells : List Cell
deriving DecidableEq, Repr

/-- An `xlsx.Sheet`. -/
structure Sheet where
  Name : List Char
  Rows : List Row
deriving DecidableEq, Repr

/-- A `sqlmodel.ColDef`, without the pointer back to its table. -/
structure ColDef where
  Name : List Char
  Kind : Kind
deriving DecidableEq, Repr

/-- A `sqlmodel.TableDef`. -/
structure TableDef where
  Name : List Char
  Cols : List ColDef
deriving DecidableEq, Repr

/-- The values `rowToRecord` puts in a record (`interface{}`). -/
inductive CellValue where
  | nil
  | bool (v : Bool)
  | time (v : Time)
  | int64 (v : Int)
  | float64 (v : Float64)
  | string (v : List Char)
deriving DecidableEq, Repr

/-- The letters of `GenerateAlphaColName`, last letter first. -/
def alphaColLetters : Nat → Nat → List Char
  | 0, _ => []
  | fuel + 1, n =>
    Char.ofNat (n % 26 + 65) ::
      (if n / 26 = 0 then [] else alphaColLetters fuel (n / 26 - 1))

/-- Modelled from the spec: `stringz.GenerateAlphaColName`, whose code is not
among the sources: the alphabetical sequence `A`, `B`, ... `Z`, `AA`, `AB`,
... of spec section 4.C and of the comment of `getColNames`. -/
def GenerateAlphaColName (n : Nat) : List Char := (alphaColLetters (n + 1) n).reverse

/-- Go `getRowsMaxCellCount`. -/
def getRowsMaxCellCount (sheet : Sheet) : Nat :=
  sheet.Rows.foldl (fun max row => if row.Cells.length > max then row.Cells.length else max) 0

/-- The kind `getKindsFromCells` gives to one cell (the body of its loop). -/
def kindOfCell (cell : Cell) : Kind :=
  match cell.Typ with
  | .Bool => .Bool
  | .Numeric =>
    if cell.IsTime then .Datetime
    else if cell.Int64.isSome then .Int
    else if cell.Float.isSome then .Float
    else .Decimal
  | .Date => .Datetime
  | _ => .Text

/-- Go `getKindsFromCells`. -/
def getKindsFromCells (cells : List Cell) : List Kind := cells.map kindOfCell

/-- The value `rowToRecord` stores for the cell at index `j` (the body of its
loop); `none` is the run-time failure of `destColKinds[j]` out of range. -/
def valueOfCell (destColKinds : List Kind) (j : Nat) (cell : Cell) : Option CellValue :=
  match cell.Typ with
  | .Bool => some (.bool cell.Bool)
  | .Numeric =>
    if cell.IsTime then
      match cell.GetTime with
      | none => some .nil
      | some t => some (.time t)
    else
      match cell.Int64 with
      | some intVal => some (.int64 intVal)
      | none =>
        match cell.Float with
        | some floatVal => some (.float64 floatVal)
        | none => if cell.Value = [] then some .nil else some (.string cell.Value)
  | .String =>
    if cell.Value = [] then
      match destColKinds[j]? with
      | none => none
      | some k => if k ≠ .Text then some .nil else some (.string cell.String)
    else some (.string cell.String)
  | .Date => some (.string cell.Value)
  | _ => if cell.Value = [] then some .nil else some (.string cell.Value)

/-- The loop of `rowToRecord` from index `j` on. -/
def rowToRecordLoop (destColKinds : List Kind) : Nat → List Cell → Option (List CellValue)
  | _, [] => some []
  | j, cell :: rest =>
    match valueOfCell destColKinds j cell with
    | none => none
    | some v =>
      match rowToRecordLoop destColKinds (j + 1) rest with
      | none => none
      | some vals => some (v :: vals)

/-- Go `rowToRecord`: the record has `len(row.Cells)` values; `none` is a
run-time failure. -/
def rowToRecord (destColKinds : List Kind) (row : Row) : Option (List CellValue) :=
  rowToRecordLoop destColKinds 0 row.Cells

/-- A loop `for i := 0; i < n; i++ { out[i] = f(i) }` over a slice of length
`n`, from index `i` with `count` rounds left; `none` when some `f(i)` fails. -/
def fillLoop {α : Type} (f : Nat → Option α) : Nat → Nat → Option (List α)
  | _, 0 => some []
  | i, count + 1 =>
    match f i with
    | none => none
    | some x =>
      match fillLoop f (i + 1) count with
      | none => none
      | some xs => some (x :: xs)

/-- Go `getColNames`; `none` is the run-time failure of `row.Cells[i]` out of
range. -/
def getColNames (sheet : Sheet) (hasHeader : Bool) : Option (List (List Char)) :=
  let numCells := getRowsMaxCellCount sheet
  match sheet.Rows with
  | row :: _ =>
    if hasHeader then fillLoop (fun i => row.Cells[i]?.map fun c => c.Value) 0 numCells
    else fillLoop (fun i => some (GenerateAlphaColName i)) 0 numCells
  | [] => fillLoop (fun i => some (GenerateAlphaColName i)) 0 numCells

/-- The loop of `buildTblDefForSheet` that pairs the column names with the
column kinds, from index `i` on; `none` is `colKinds[i]` out of range. -/
def colsLoop (colKinds : List Kind) : Nat → List (List Char) → Option (List ColDef)
  | _, [] => some []
  | i, colName :: rest =>
    match colKinds[i]? with
    | none => none
    | some k =>
      match colsLoop colKinds (i + 1) rest with
      | none => none
      | some cols => some (⟨colName, k⟩ :: cols)

/-- Go `buildTblDefForSheet`; `crash` is an index out of range. The column
names are `none` when the loop over the header cells fails. -/
def buildTblDefForSheet (sheet : Sheet) (hasHeader : Bool) : Outcome TableDef :=
  let numCells := getRowsMaxCellCount sheet
  if numCells = 0 then .error (.sheetNoColumns sheet.Name)
  else
    let namesKinds : Option (List (List Char)) × List Kind :=
      match sheet.Rows with
      | [] =>
        -- sheet has no rows
        (fillLoop (fun i => some (GenerateAlphaColName i)) 0 numCells,
          List.replicate numCells .Text)
      | row0 :: _ =>
        let firstDataRow := if hasHeader then 1 else 0
        let colNames :=
          if hasHeader then fillLoop (fun i => row0.Cells[i]?.map fun c => c.Value) 0 numCells
          else fillLoop (fun i => some (GenerateAlphaColName i)) 0 numCells
        let colKinds :=
          match sheet.Rows[firstDataRow]? with
          | none => List.replicate numCells .Text
          | some row => getKindsFromCells row.Cells
        (colNames, colKinds)
    match namesKinds.1 with
    | none => .crash
    | some colNames =>
      match colsLoop namesKinds.2 0 colNames with
      | none => .crash
      | some cols => .ok { Name := sheet.Name, Cols := cols }

/-- The loop of `getColTypes` over the cells of one row, from index `i` on:
the types of the columns after it; `none` is `types[i]` out of range. A type
that is `none` is a nil pointer. -/
def colTypesCells : Nat → List Cell → List (Option CellType) → Option (List (Option CellType))
  | _, [], types => some types
  | i, cell :: rest, types =>
    match types[i]? with
    | none => none
    | some none => colTypesCells (i + 1) rest (types.set i (some cell.Typ))
    | some (some typ) =>
      if typ = cell.Typ then colTypesCells (i + 1) rest types
      else colTypesCells (i + 1) rest (types.set i (some .String))

/-- The loop of `getColTypes` over the data rows. -/
def colTypesRows : List Row → List (Option CellType) → Option (List (Option CellType))
  | [], types => some types
  | row :: rest, types =>
    match colTypesCells 0 row.Cells types with
    | none => none
    | some types => colTypesRows rest types

/-- The last loop of `getColTypes`, `ret[i] = *typ`; `none` is the run-time
failure of dereferencing a nil pointer. -/
def derefTypes : List (Option CellType) → Option (List CellType)
  | [] => some []
  | none :: _ => none
  | some typ :: rest =>
    match derefTypes rest with
    | none => none
    | some ret => some (typ :: ret)

/-- Go `getColTypes`; `none` is a run-time failure. -/
def getColTypes (sheet : Sheet) (hasHeader : Bool) : Option (List CellType) :=
  let types : List (Option CellType) := List.replicate (getRowsMaxCellCount sheet) none
  let firstDataRow := if hasHeader then 1 else 0
  match colTypesRows (sheet.Rows.drop firstDataRow) types with
  | none => none
  | some types => derefTypes types

/-- The case that the `select` statement of `importSheetToTable` takes:
`<-ctx.Done()`, after which `ctx.Err()` is returned; `err = <-bi.ErrCh`, with
the value received (`none` for nil); or `bi.RecordCh <- rec`. -/
inductive SelectCase where
  | ctxDone (err : Err)
  | errCh (err : Option Err)
  | send
deriving DecidableEq, Repr

/-- The surroundings of one run of `importSheetToTable`: the error of
`scratchDB.DB().Conn(ctx)` and of `driver.NewBatchInsert` (`none` for nil),
the record that `bi.Munge(rec)` leaves in `rec` or its error, the case that
the `select` takes for the row of index `i`, and the value received by
`<-bi.ErrCh` after the loop. -/
structure ImportEnv where
  Conn : Option Err
  NewBatchInsert : Option Err
  Munge : List CellValue → Except Err (List CellValue)
  select : Nat → SelectCase
  wait : Option Err

/-- The loop of `importSheetToTable` over the rows, from the row of index `i`
on, with the records `sent` so far on `bi.RecordCh`: the records sent, and the
error with which the function returns from inside the loop (`none` when the
loop ends). The result `none` is a run-time failure in `rowToRecord`. -/
def importRows (env : ImportEnv) (destColKinds : List Kind) (hasHeader : Bool) :
    Nat → List Row → List (List CellValue) → Option (List (List CellValue) × Option Err)
  | _, [], sent => some (sent, none)
  | i, row :: rest, sent =>
    if hasHeader ∧ i = 0 then importRows env destColKinds hasHeader (i + 1) rest sent
    else
      match rowToRecord destColKinds row with
      | none => none
      | some rec =>
        match env.Munge rec with
        | .error err => some (sent, some err)
        | .ok rec =>
          match env.select i with
          | .ctxDone err => some (sent, some err)
          | .errCh (some err) => some (sent, some err)
          | .errCh none => importRows env destColKinds hasHeader (i + 1) rest sent
          | .send => importRows env destColKinds hasHeader (i + 1) rest (sent ++ [rec])

/-- Go `importSheetToTable`: the records sent on `bi.RecordCh`, in the order
they were sent, and the error returned (`none` for nil). The result `none` is
a run-time failure. -/
def importSheetToTable (env : ImportEnv) (sheet : Sheet) (hasHeader : Bool)
    (tblDef : TableDef) : Option (List (List CellValue) × Option Err) :=
  match env.Conn with
  | some err => some ([], some err)
  | none =>
    let destColKinds := tblDef.Cols.map fun col => col.Kind
    match env.NewBatchInsert with
    | some err => some ([], some err)
    | none =>
      match importRows env destColKinds hasHeader 0 sheet.Rows [] with
      | none => none
      | some (sent, some err) => some (sent, some err)
      | some (sent, none) => some (sent, env.wait)

/-! ## The source set (libsq/drvr/source_blackbox_test.go) -/

/-- The search of `Set.IndexOf` from the item of index `i` on. -/
def indexOfLoop (handle : List Char) : Nat → List Source → Int × Option Source
  | _, [] => (-1, none)
  | i, src :: rest =>
    if src.Handle = handle then (Int.ofNat i, some src) else indexOfLoop handle (i + 1) rest

/-- Modelled from the spec: `Set.IndexOf` (section 4.B), whose code is not
among the sources: the position of the source with the given handle and the
source, or `-1` and nil, as the test `TestDataSources` has it. -/
def SourceSet.IndexOf (srcs : SourceSet) (handle : List Char) : Int × Option Source :=
  indexOfLoop handle 0 srcs.items

/-- Modelled from the spec: `Set.Remove` (section 4.B), whose code is not
among the sources: the source with the given handle leaves the set, and the
set has no active source afterwards if that source was the active one. The
specification does not say what `Remove` does with an unknown handle; here it
fails like `Get`. -/
def SourceSet.Remove (srcs : SourceSet) (handle : List Char) : Except Err SourceSet :=
  if srcs.items.any (fun s => s.Handle = handle) then
    .ok { items := srcs.items.eraseP (fun s => s.Handle = handle),
          active := if srcs.active = some handle then none else srcs.active }
  else .error (.unknownHandle handle)

/-- A call of one of the mutating methods of a source set. -/
inductive SetOp where
  | Add (src : Source)
  | Remove (handle : List Char)
  | SetActive (handle : List Char)
deriving DecidableEq, Repr

/-- The set after a call; a call that fails leaves the set as it was. -/
def SourceSet.apply (srcs : SourceSet) : SetOp → SourceSet
  | .Add src =>
    match srcs.Add src with
    | .ok srcs => srcs
    | .error _ => srcs
  | .Remove handle =>
    match srcs.Remove handle with
    | .ok srcs => srcs
    | .error _ => srcs
  | .SetActive handle =>
    match srcs.SetActive handle with
    | .ok (srcs, _) => srcs
    | .error _ => srcs

/-- The set reached from the empty set (`NewSourceSet()`) by a sequence of
calls. -/
def runOps (ops : List SetOp) : SourceSet := ops.foldl SourceSet.apply ⟨[], none⟩

/-! ## cli/cmd_src.go -/

/-- How `execSrc` ends: by returning nil without output, with an error of
its own, or by returning what `rc.writers.srcw.Source(src)` returns. -/
inductive SrcHandover where
  | nothing
  | failed (err : Err)
  | written (src : Source)
deriving DecidableEq, Repr

/-- What a run of `execSrc` leaves: the source set `cfg.Sources`, the set that
`rc.ConfigStore.Save(cfg)` stored (`none` when nothing was stored), and how it
ends. -/
structure SrcRun (σ : Type) where
  srcs : σ
  saved : Option σ
  handover : SrcHandover
deriving DecidableEq, Repr

/-- Go `execSrc`. `Save` is the error of `rc.ConfigStore.Save(cfg)` (`none`
for nil). -/
def execSrc {σ : Type} (m : SetMethods σ) (Save : σ → Option Err) (srcs : σ)
    (args : List (List Char)) : SrcRun σ :=
  match args with
  | [] =>
    match m.Active srcs with
    | none => ⟨srcs, none, .nothing⟩
    | some src => ⟨srcs, none, .written src⟩
  | arg0 :: _ =>
    match m.SetActive srcs arg0 with
    | .error err => ⟨srcs, none, .failed err⟩
    | .ok (srcs, src) =>
      match Save srcs with
      | some err => ⟨srcs, none, .failed err⟩
      | none => ⟨srcs, some srcs, .written src⟩

/-! ## libsq/ast (range_test.go) -/

/-- Modelled from the spec: the row range forms of the SLQ grammar (section
4.F), `[]`, `[n]`, `[n:m]`, `[:m]` and `[n:]`. The parser and the AST builder
are not among the sources (only their test `range_test.go` is). -/
inductive RowRangeExpr where
  | all
  | index (n : Nat)
  | span (n m : Nat)
  | upTo (m : Nat)
  | startingAt (n : Nat)
deriving DecidableEq, Repr

/-- Modelled from the spec: the elements of a segment of a query (section
4.F): a selector, a function call, a row range or an expression. -/
inductive Element where
  | selector (text : List Char)
  | func (name : List Char)
  | rowRange (r : RowRangeExpr)
  | expr (text : List Char)
deriving DecidableEq, Repr

/-- Modelled from the spec: the `RowRange` node of the AST (section 3), with
the sentinel `-1` for a limit that is open-ended. -/
structure RowRange where
  Offset : Int
  Limit : Int
deriving DecidableEq, Repr

/-- Modelled from the spec: the nodes under a segment of the AST. -/
inductive Node where
  | Selector (text : List Char)
  | Func (name : List Char)
  | RowRange (rr : RowRange)
  | Expr (text : List Char)
deriving DecidableEq, Repr

/-- Modelled from the spec: the AST, a root whose children are the segments
of the pipeline, each with the nodes of its elements. -/
structure AST where
  Segments : List (List Node)
deriving DecidableEq, Repr

/-- Modelled from the spec: the node built for an element (section 4.F);
`[]` gives no node. -/
def buildElement : Element → Option Node
  | .selector text => some (.Selector text)
  | .func name => some (.Func name)
  | .expr text => some (.Expr text)
  | .rowRange .all => none
  | .rowRange (.index n) => some (.RowRange ⟨n, 1⟩)
  | .rowRange (.span n m) => some (.RowRange ⟨n, max 0 ((m : Int) - (n : Int))⟩)
  | .rowRange (.upTo m) => some (.RowRange ⟨0, m⟩)
  | .rowRange (.startingAt n) => some (.RowRange ⟨n, -1⟩)

/-- Modelled from the spec: `Builder.Build`, from the segments of a query to
the AST. -/
def Build (query : List (List Element)) : AST :=
  ⟨query.map fun segment => segment.filterMap buildElement⟩

/-- Modelled from the spec: `Inspector.FindNodes(TypeRowRange)`, the row range
nodes of the AST in the order of the query. -/
def FindRowRanges (ast : AST) : List RowRange :=
  ast.Segments.flatten.filterMap fun node =>
    match node with
    | .RowRange rr => some rr
    | _ => none

/-- Modelled from the spec: `Inspector.CountNodes(TypeRowRange)`. -/
def CountRowRanges (ast : AST) : Nat := (FindRowRanges ast).length

/-! ## Reference notions: UTF-8 and JSON scalars

These definitions do not come from the program. They state what the
specification means by valid UTF-8 (RFC 3629) and by decoding a JSON scalar
(RFC 8259). -/

/-- A continuation byte `0x80..0xBF`. -/
def isCont (c : Nat) : Bool := 0x80 ≤ c ∧ c ≤ 0xBF

/-- The second byte allowed after the lead byte `a` of a three-byte sequence. -/
def isSecondOfThree (a b : Nat) : Bool :=
  if a = 0xE0 then 0xA0 ≤ b ∧ b ≤ 0xBF
  else if a = 0xED then 0x80 ≤ b ∧ b ≤ 0x9F
  else isCont b

/-- The second byte allowed after the lead byte `a` of a four-byte sequence. -/
def isSecondOfFour (a b : Nat) : Bool :=
  if a = 0xF0 then 0x90 ≤ b ∧ b ≤ 0xBF
  else if a = 0xF4 then 0x80 ≤ b ∧ b ≤ 0x8F
  else isCont b

/-- Well-formed UTF-8 byte sequences, after the table of RFC 3629 section 4. -/
def validUTF8 : List Nat → Bool
  | [] => true
  | a :: rest =>
    if a < 0x80 then validUTF8 rest
    else
      match rest with
      | [] => false
      | b :: rest =>
        if 0xC2 ≤ a ∧ a ≤ 0xDF then isCont b && validUTF8 rest
        else
          match rest with
          | [] => false
          | c :: rest =>
            if 0xE0 ≤ a ∧ a ≤ 0xEF then isSecondOfThree a b && isCont c && validUTF8 rest
            else
              match rest with
              | [] => false
              | d :: rest =>
                if 0xF0 ≤ a ∧ a ≤ 0xF4 then
                  isSecondOfFour a b && isCont c && isCont d && validUTF8 rest
                else false

/-- Reference (RFC 3629 section 4): the length of the well-formed sequence of
two, three or four bytes at the head of `t`, and 0 when no such sequence
begins there. A byte that is missing counts as 0, which is no continuation
byte. -/
def wellFormedLen (t : List Nat) : Nat :=
  if 0xC2 ≤ t.getD 0 0 ∧ t.getD 0 0 ≤ 0xDF ∧ isCont (t.getD 1 0) = true then 2
  else if 0xE0 ≤ t.getD 0 0 ∧ t.getD 0 0 ≤ 0xEF ∧
      isSecondOfThree (t.getD 0 0) (t.getD 1 0) = true ∧ isCont (t.getD 2 0) = true then 3
  else if 0xF0 ≤ t.getD 0 0 ∧ t.getD 0 0 ≤ 0xF4 ∧
      isSecondOfFour (t.getD 0 0) (t.getD 1 0) = true ∧ isCont (t.getD 2 0) = true ∧
      isCont (t.getD 3 0) = true then 4
  else 0

/-- Reference: the length of the first piece of a non-empty `t`, when `t` is
read from the left as ASCII bytes, well-formed sequences of two to four
bytes, and single bytes at which no well-formed sequence begins. -/
def pieceLen (t : List Nat) : Nat :=
  if t.getD 0 0 < 0x80 then 1
  else if wellFormedLen t = 0 then 1
  else wellFormedLen t

/-- Reference: the pieces of `t` from the left: each is an ASCII byte, a
well-formed sequence of two to four bytes, or a single byte at which no
well-formed sequence begins (a byte that is not valid UTF-8 there). `skip`
counts the bytes of the current piece still to be passed. -/
def pieces : Nat → List Nat → List (List Nat)
  | _, [] => []
  | skip + 1, _ :: rest => pieces skip rest
  | 0, c :: rest =>
    (c :: rest).take (pieceLen (c :: rest)) :: pieces (pieceLen (c :: rest) - 1) rest

/-- A JSON scalar. -/
inductive JSONValue where
  | null
  | bool (v : Bool)
  | number (v : Int)
  | string (v : List Nat)
deriving DecidableEq, Repr

/-- The value of a hexadecimal digit. -/
def hexValue (c : Nat) : Option Nat :=
  if 0x30 ≤ c ∧ c ≤ 0x39 then some (c - 0x30)
  else if 0x61 ≤ c ∧ c ≤ 0x66 then some (c - 0x61 + 10)
  else if 0x41 ≤ c ∧ c ≤ 0x46 then some (c - 0x41 + 10)
  else none

/-- The UTF-8 encoding of a code point of the basic multilingual plane. -/
def utf8OfRune (r : Nat) : List Nat :=
  if r < 0x80 then [r]
  else if r < 0x800 then [0xC0 + r / 64, 0x80 + r % 64]
  else [0xE0 + r / 4096, 0x80 + r / 64 % 64, 0x80 + r % 64]

/-- The character named by the escape `\e`, for the single-letter escapes. -/
def simpleEscape (e : Nat) : Option Nat :=
  if e = 0x22 then some 0x22
  else if e = 0x5c then some 0x5c
  else if e = 0x2f then some 0x2f
  else if e = 0x62 then some 0x08
  else if e = 0x66 then some 0x0c
  else if e = 0x6e then some 0x0a
  else if e = 0x72 then some 0x0d
  else if e = 0x74 then some 0x09
  else none

/-- Reads a JSON string after its opening quote, up to the closing quote, which
must end the input; the result is the string denoted, in UTF-8. Escapes of
surrogate code points are not supported. -/
def readStringBody : List Nat → Option (List Nat)
  | [] => none
  | c :: rest =>
    if c = 0x22 then (if rest = [] then some [] else none)
    else if c = 0x5c then
      match rest with
      | [] => none
      | e :: rest =>
        if e = 0x75 then
          match rest with
          | h1 :: h2 :: h3 :: h4 :: rest =>
            match hexValue h1, hexValue h2, hexValue h3, hexValue h4, readStringBody rest with
            | some d1, some d2, some d3, some d4, some tail =>
              let r := d1 * 4096 + d2 * 256 + d3 * 16 + d4
              if 0xD800 ≤ r ∧ r ≤ 0xDFFF then none else some (utf8OfRune r ++ tail)
            | _, _, _, _, _ => none
          | _ => none
        else
          match simpleEscape e, readStringBody rest with
          | some x, some tail => some (x :: tail)
          | _, _ => none
    else if c < 0x20 then none
    else
      match readStringBody rest with
      | some tail => some (c :: tail)
      | none => none

/-- The value of a run of decimal digits read after the value `acc`. -/
def digitsValue : List Nat → Nat → Option Nat
  | [], acc => some acc
  | c :: rest, acc =>
    if 0x30 ≤ c ∧ c ≤ 0x39 then digitsValue rest (acc * 10 + (c - 0x30)) else none

/-- Reads a JSON integer without sign: a non-empty run of digits that does not
start with `0` unless it is `0`. -/
def readNat (t : List Nat) : Option Nat :=
  match t with
  | [] => none
  | c :: rest => if c = 0x30 ∧ rest ≠ [] then none else digitsValue (c :: rest) 0

/-- Reads a JSON scalar: `null`, `true`, `false`, an integer or a string. -/
def readJSON (t : List Nat) : Option JSONValue :=
  match t with
  | [] => none
  | c :: rest =>
    if c = 0x22 then (readStringBody rest).map .string
    else if c = 0x2d then (readNat rest).map fun n => .number (-Int.ofNat n)
    else if t = str "null" then some .null
    else if t = str "true" then some (.bool true)
    else if t = str "false" then some (.bool false)
    else (readNat t).map fun n => .number (Int.ofNat n)

/-- The JSON scalar a record value stands for, for the values of C2. -/
def Value.toJSON : Value → Option JSONValue
  | .nil => some .null
  | .int64 v => some (.number v)
  | .bool v => some (.bool v)
  | .string v => some (.string v)
  | _ => none

/-! ## Auxiliary definitions for the proofs -/

/-- What one iteration of the loop of `encodeString` does at the head of the
remaining input `t`: the bytes it causes to be written, and the number of
bytes of `t` it passes. -/
def escapeHead (escapeHTML : Bool) (t : List Nat) : List Nat × Nat :=
  match t with
  | [] => ([], 0)
  | c :: _ =>
    if 0x20 ≤ c ∧ c ≤ 0x7f ∧ c ≠ 0x5c ∧ c ≠ 0x22 ∧
        (escapeHTML = false ∨ (c ≠ 0x3c ∧ c ≠ 0x3e ∧ c ≠ 0x26)) then ([c], 1)
    else if c = 0x5c ∨ c = 0x22 then ([0x5c, c], 1)
    else if c = 0x0a then (str "\\n", 1)
    else if c = 0x0d then (str "\\r", 1)
    else if c = 0x09 then (str "\\t", 1)
    else if c = 0x3c ∨ c = 0x3e ∨ c = 0x26 then
      (str "\\u00" ++ [hex.getD (c / 16) 0, hex.getD (c % 16) 0], 1)
    else if c < 0x20 then
      (str "\\u00" ++ [hex.getD (c / 16) 0, hex.getD (c % 16) 0], 1)
    else
      let rs := DecodeRuneInString t
      if rs.1 = RuneError ∧ rs.2 = 1 then (str "\\ufffd", rs.2)
      else if rs.1 = 0x2028 ∨ rs.1 = 0x2029 then
        (str "\\u202" ++ [hex.getD (rs.1 % 16) 0], rs.2)
      else (t.take rs.2, rs.2)

/-- The bytes written for `t` by a left-to-right scan with `escapeHead`;
`skip` counts the bytes already passed by the last step. -/
def escapeScan (escapeHTML : Bool) : Nat → List Nat → List Nat
  | _, [] => []
  | skip + 1, _ :: rest => escapeScan escapeHTML skip rest
  | 0, c :: rest =>
    (escapeHead escapeHTML (c :: rest)).1
      ++ escapeScan escapeHTML ((escapeHead escapeHTML (c :: rest)).2 - 1) rest

/-- The bytes `encodeString` writes between the two quotes. -/
def encodeStringBody (s : List Nat) (escapeHTML : Bool) : List Nat :=
  match encodeString [] s escapeHTML with
  | .ok b => (b.drop 1).dropLast
  | .error _ => []

/-- The row written for a record by `writeRecord` on an empty buffer. -/
def rowOf (recMeta : List FieldMeta) (rec : List Value) : Option (List Nat) :=
  match writeRecordLoop recMeta rec 0 [] [] with
  | none => none
  | some buf => some (buf ++ str "|\n")

/-- A well-formed sequence of two, three or four bytes that is neither U+2028
nor U+2029: what `encodeString` copies unchanged. -/
def IsCopiedSeq (chunk : List Nat) : Prop :=
  (∃ a b, chunk = [a, b] ∧ 0xC2 ≤ a ∧ a ≤ 0xDF ∧ 0x80 ≤ b ∧ b ≤ 0xBF) ∨
  (∃ a b c, chunk = [a, b, c] ∧ 0xE0 ≤ a ∧ a ≤ 0xEF ∧ acceptLo a ≤ b ∧ b ≤ acceptHi a ∧
    0x80 ≤ c ∧ c ≤ 0xBF ∧ ¬ (a = 0xE2 ∧ b = 0x80 ∧ (c = 0xA8 ∨ c = 0xA9))) ∨
  (∃ a b c d, chunk = [a, b, c, d] ∧ 0xF0 ≤ a ∧ a ≤ 0xF4 ∧ acceptLo a ≤ b ∧ b ≤ acceptHi a ∧
    0x80 ≤ c ∧ c ≤ 0xBF ∧ 0x80 ≤ d ∧ d ≤ 0xBF)

/-- Whether a byte string holds the UTF-8 encoding of U+2028 or of U+2029. -/
def hasSeparator : List Nat → Bool
  | [] => false
  | a :: rest =>
    (match rest with
      | b :: c :: _ => decide (a = 0xE2 ∧ b = 0x80 ∧ (c = 0xA8 ∨ c = 0xA9))
      | _ => false) || hasSeparator rest

/-- The rows written for a list of records, one after the other. -/
def rowsOf (recMeta : List FieldMeta) : List (List Value) → Option (List Nat)
  | [] => some []
  | rec :: recs =>
    match rowOf recMeta rec, rowsOf recMeta recs with
    | some row, some rows => some (row ++ rows)
    | _, _ => none

/-- The text of the cell written for a field by the loop of `writeRecord`,
which is also the value of the variable `s` after the field; `none` is a
run-time failure. -/
def cellText (recMeta : List FieldMeta) (i : Nat) (s : List Nat) (field : Value) :
    Option (List Nat) :=
  match field with
  | .other val => some (escapeMarkdown val)
  | .nil => some s
  | .int64 val => some (FormatInt val)
  | .string val => some (escapeMarkdown val)
  | .bool val => some (FormatBool val)
  | .float64 val => some val
  | .bytes val => some (base64Encode (val.getD []))
  | .time format =>
    match recMeta.get? i with
    | none => none
    | some m =>
      match m.Kind with
      | .Time => some (format .TimeFormat)
      | .Date => some (format .DateFormat)
      | _ => some (format .DatetimeFormat)

/-- The handle a query text starts with, in the words of the specification:
its first space-delimited token, up to and not including the first `.`. -/
def leadingHandle (s : List Char) : List Char :=
  (s.takeWhile fun c => c ≠ ' ').takeWhile fun c => c ≠ '.'

/-- A cell of type string with the text `v`. -/
def textCell (v : String) : Cell :=
  ⟨.String, v.toList, false, none, none, none, v.toList, false⟩

/-- Column `i` has a type in the array `types` of `getColTypes`: the pointer
`types[i]` is not nil. -/
def HasType (types : List (Option CellType)) (i : Nat) : Prop :=
  ∃ typ, types[i]? = some (some typ)

/-- Whether an element of a query is a row range. -/
def isRowRange : Element → Bool
  | .rowRange _ => true
  | _ => false

/-- The row range node that an element of a query gives to the AST, if any. -/
def rowRangeOf (e : Element) : Option RowRange :=
  match buildElement e with
  | some (.RowRange rr) => some rr
  | _ => none

/-- The invariants of the source set in the words of the specification
(section 3): the handles are unique, and the active handle, if set, is the
handle of a source of the set. -/
def SourceSet.Valid (srcs : SourceSet) : Prop :=
  (srcs.items.map fun s => s.Handle).Nodup ∧
    ∀ handle, srcs.active = some handle → ∃ src ∈ srcs.items, src.Handle = handle

/-! ## Theorems -/

theorem slice_self (s : List Nat) (k : Nat) : slice s k k = [] := by
  simp [slice]

theorem slice_to_length (s : List Nat) (i : Nat) : slice s i s.length = s.drop i := by
  simp [slice]

theorem slice_add (s : List Nat) (i j n : Nat) (hij : i ≤ j) :
    slice s i (j + n) = slice s i j ++ (s.drop j).take n := by
  unfold slice
  have h1 : j + n - i = (j - i) + n := by omega
  rw [h1, List.take_add, List.drop_drop]
  congr 3
  omega

theorem drop_eq_getD_cons (s : List Nat) (j : Nat) (hj : j < s.length) :
    s.drop j = s.getD j 0 :: s.drop (j + 1) := by
  rw [List.drop_eq_getElem_cons hj]
  simp [List.getD_eq_getElem, hj]

theorem escapeScan_skip (esc : Bool) : ∀ (t : List Nat) (k : Nat),
    escapeScan esc k t = escapeScan esc 0 (t.drop k)
  | [], k => by simp [escapeScan]
  | c :: rest, 0 => by simp
  | c :: rest, k + 1 => by
    simp only [escapeScan, List.drop_succ_cons]
    exact escapeScan_skip esc rest k

theorem escapeHead_eq (esc : Bool) (t : List Nat) (c : Nat) (rest : List Nat)
    (ht : t = c :: rest) :
    escapeHead esc t =
      if 0x20 ≤ c ∧ c ≤ 0x7f ∧ c ≠ 0x5c ∧ c ≠ 0x22 ∧
          (esc = false ∨ (c ≠ 0x3c ∧ c ≠ 0x3e ∧ c ≠ 0x26)) then ([c], 1)
      else if c = 0x5c ∨ c = 0x22 then ([0x5c, c], 1)
      else if c = 0x0a then (str "\\n", 1)
      else if c = 0x0d then (str "\\r", 1)
      else if c = 0x09 then (str "\\t", 1)
      else if c = 0x3c ∨ c = 0x3e ∨ c = 0x26 then
        (str "\\u00" ++ [hex.getD (c / 16) 0, hex.getD (c % 16) 0], 1)
      else if c < 0x20 then
        (str "\\u00" ++ [hex.getD (c / 16) 0, hex.getD (c % 16) 0], 1)
      else
        if (DecodeRuneInString t).1 = RuneError ∧ (DecodeRuneInString t).2 = 1 then
          (str "\\ufffd", (DecodeRuneInString t).2)
        else if (DecodeRuneInString t).1 = 0x2028 ∨ (DecodeRuneInString t).1 = 0x2029 then
          (str "\\u202" ++ [hex.getD ((DecodeRuneInString t).1 % 16) 0], (DecodeRuneInString t).2)
        else (t.take (DecodeRuneInString t).2, (DecodeRuneInString t).2) := by
  subst ht
  rfl

theorem escapeHead_pos (esc : Bool) (t : List Nat) (ht : t ≠ []) :
    1 ≤ (escapeHead esc t).2 := by
  cases t with
  | nil => exact absurd rfl ht
  | cons c rest =>
    have h := DecodeRuneInString_size_pos (c :: rest) (by simp)
    rw [escapeHead_eq esc (c :: rest) c rest rfl]
    split_ifs <;> simp <;> omega

theorem escapeScan_step (esc : Bool) (t : List Nat) (ht : t ≠ []) :
    escapeScan esc 0 t =
      (escapeHead esc t).1 ++ escapeScan esc 0 (t.drop (escapeHead esc t).2) := by
  cases t with
  | nil => exact absurd rfl ht
  | cons c rest =>
    have h := escapeHead_pos esc (c :: rest) (by simp)
    rw [escapeScan, escapeScan_skip esc rest]
    congr 2
    obtain ⟨k, hk⟩ : ∃ k, (escapeHead esc (c :: rest)).2 = k + 1 := ⟨_, (Nat.sub_add_cancel h).symm⟩
    rw [hk]
    simp

/-- The outcomes of `DecodeRuneInString` on a string that starts with a
non-ASCII byte: an error of width one, or a well-formed sequence of two, three
or four bytes. -/
theorem DecodeRuneInString_cases (a : Nat) (t : List Nat) (ha : 0x80 ≤ a) :
    DecodeRuneInString (a :: t) = (RuneError, 1) ∨
    (∃ b rest, t = b :: rest ∧ 0xC2 ≤ a ∧ a ≤ 0xDF ∧ 0x80 ≤ b ∧ b ≤ 0xBF ∧
      DecodeRuneInString (a :: t) = ((a % 32) * 64 + b % 64, 2)) ∨
    (∃ b c rest, t = b :: c :: rest ∧ 0xE0 ≤ a ∧ a ≤ 0xEF ∧
      acceptLo a ≤ b ∧ b ≤ acceptHi a ∧ 0x80 ≤ c ∧ c ≤ 0xBF ∧
      DecodeRuneInString (a :: t) = ((a % 16) * 4096 + (b % 64) * 64 + c % 64, 3)) ∨
    (∃ b c d rest, t = b :: c :: d :: rest ∧ 0xF0 ≤ a ∧ a ≤ 0xF4 ∧
      acceptLo a ≤ b ∧ b ≤ acceptHi a ∧ 0x80 ≤ c ∧ c ≤ 0xBF ∧ 0x80 ≤ d ∧ d ≤ 0xBF ∧
      DecodeRuneInString (a :: t) =
        ((a % 8) * 262144 + (b % 64) * 4096 + (c % 64) * 64 + d % 64, 4)) := by
  by_cases h1 : a < 0xC2 ∨ 0xF4 < a
  · left
    simp only [DecodeRuneInString]
    rw [if_neg (by omega), if_pos h1]
  have hlt : ¬ a < 0x80 := by omega
  by_cases h2 : a < 0xE0
  · -- two bytes
    have hsz : leadSize a = 2 := by simp [leadSize, h2]
    have hlo : acceptLo a = 0x80 := by
      unfold acceptLo; rw [if_neg (by omega), if_neg (by omega)]
    have hhi : acceptHi a = 0xBF := by
      unfold acceptHi; rw [if_neg (by omega), if_neg (by omega)]
    cases t with
    | nil => left; simp [DecodeRuneInString, hlt, h1, hsz]
    | cons b rest =>
      by_cases hb : b < 0x80 ∨ 0xBF < b
      · left
        simp only [DecodeRuneInString, hsz, hlo, hhi]
        rw [if_neg hlt, if_neg h1, if_neg (by simp), if_pos (by simpa using hb)]
      · right; left
        refine ⟨b, rest, rfl, by omega, by omega, by omega, by omega, ?_⟩
        simp only [DecodeRuneInString, hsz, hlo, hhi]
        rw [if_neg hlt, if_neg h1, if_neg (by simp), if_neg (by simpa using hb),
          if_pos (le_refl 2)]
        simp
  by_cases h3 : a < 0xF0
  · -- three bytes
    have hsz : leadSize a = 3 := by simp [leadSize, h2, h3]
    cases t with
    | nil => left; simp [DecodeRuneInString, hlt, h1, hsz]
    | cons b t =>
      cases t with
      | nil => left; simp [DecodeRuneInString, hlt, h1, hsz]
      | cons c rest =>
        by_cases hb : b < acceptLo a ∨ acceptHi a < b
        · left
          simp only [DecodeRuneInString, hsz]
          rw [if_neg hlt, if_neg h1, if_neg (by simp), if_pos (by simpa using hb)]
        by_cases hc : c < 0x80 ∨ 0xBF < c
        · left
          simp only [DecodeRuneInString, hsz]
          rw [if_neg hlt, if_neg h1, if_neg (by simp), if_neg (by simpa using hb),
            if_neg (by omega), if_pos (by simpa using hc)]
        · right; right; left
          refine ⟨b, c, rest, rfl, by omega, by omega, by omega, by omega, by omega,
            by omega, ?_⟩
          simp only [DecodeRuneInString, hsz]
          rw [if_neg hlt, if_neg h1, if_neg (by simp), if_neg (by simpa using hb),
            if_neg (by omega), if_neg (by simpa using hc), if_pos (le_refl 3)]
          simp
  · -- four bytes
    have hsz : leadSize a = 4 := by simp [leadSize, h2, h3]
    cases t with
    | nil => left; simp [DecodeRuneInString, hlt, h1, hsz]
    | cons b t =>
      cases t with
      | nil => left; simp [DecodeRuneInString, hlt, h1, hsz]
      | cons c t =>
        cases t with
        | nil => left; simp [DecodeRuneInString, hlt, h1, hsz]
        | cons d rest =>
          by_cases hb : b < acceptLo a ∨ acceptHi a < b
          · left
            simp only [DecodeRuneInString, hsz]
            rw [if_neg hlt, if_neg h1, if_neg (by simp), if_pos (by simpa using hb)]
          by_cases hc : c < 0x80 ∨ 0xBF < c
          · left
            simp only [DecodeRuneInString, hsz]
            rw [if_neg hlt, if_neg h1, if_neg (by simp), if_neg (by simpa using hb),
              if_neg (by omega), if_pos (by simpa using hc)]
          by_cases hd : d < 0x80 ∨ 0xBF < d
          · left
            simp only [DecodeRuneInString, hsz]
            rw [if_neg hlt, if_neg h1, if_neg (by simp), if_neg (by simpa using hb),
              if_neg (by omega), if_neg (by simpa using hc), if_neg (by omega),
              if_pos (by simpa using hd)]
          · right; right; right
            refine ⟨b, c, d, rest, rfl, by omega, by omega, by omega, by omega, by omega,
              by omega, by omega, by omega, ?_⟩
            simp only [DecodeRuneInString, hsz]
            rw [if_neg hlt, if_neg h1, if_neg (by simp), if_neg (by simpa using hb),
              if_neg (by omega), if_neg (by simpa using hc), if_neg (by omega),
              if_neg (by simpa using hd)]
            simp

theorem DecodeRuneInString_ascii (a : Nat) (t : List Nat) (ha : a < 0x80) :
    DecodeRuneInString (a :: t) = (a, 1) := by
  simp [DecodeRuneInString, ha]

theorem DecodeRuneInString_size_le (t : List Nat) (ht : t ≠ []) :
    (DecodeRuneInString t).2 ≤ t.length := by
  cases t with
  | nil => exact absurd rfl ht
  | cons a t =>
    by_cases ha : a < 0x80
    · rw [DecodeRuneInString_ascii a t ha]; simp
    · rcases DecodeRuneInString_cases a t (by omega) with h | ⟨b, r, rfl, -, -, -, -, h⟩ |
        ⟨b, c, r, rfl, -, -, -, -, -, -, h⟩ | ⟨b, c, d, r, rfl, -, -, -, -, -, -, -, -, h⟩ <;>
        rw [h] <;> simp

theorem escapeHead_le (esc : Bool) (t : List Nat) (ht : t ≠ []) :
    (escapeHead esc t).2 ≤ t.length := by
  have h := DecodeRuneInString_size_le t ht
  cases t with
  | nil => exact absurd rfl ht
  | cons c rest =>
    rw [escapeHead_eq esc (c :: rest) c rest rfl]
    split_ifs <;> first | exact h | simp

theorem drop_drop_add (s : List Nat) (j n : Nat) : (s.drop j).drop n = s.drop (j + n) := by
  rw [List.drop_drop, Nat.add_comm]

theorem loop_copy_aux (X : List Nat → List Nat) (s b : List Nat) (i j n : Nat) (hij : i ≤ j) :
    b ++ slice s i (j + n) ++ X (s.drop (j + n))
      = b ++ slice s i j ++ ((s.drop j).take n ++ X ((s.drop j).drop n)) := by
  rw [slice_add s i j n hij, drop_drop_add]
  simp only [List.append_assoc]

theorem loop_escape_aux (X : List Nat → List Nat) (s b e : List Nat) (i j n : Nat) :
    (b ++ slice s i j ++ e) ++ slice s (j + n) (j + n) ++ X (s.drop (j + n))
      = b ++ slice s i j ++ (e ++ X ((s.drop j).drop n)) := by
  rw [slice_self, drop_drop_add]
  simp only [List.append_assoc, List.append_nil]

/-- The loop of `encodeString` writes what the eager scan writes: at loop exit,
`b` followed by the bytes not yet copied is the initial `b`, the pending bytes
`s[i:j]` and the scan of `s[j:]`. -/
theorem encodeStringLoop_spec (s : List Nat) (esc : Bool) :
    ∀ (fuel : Nat) (b : List Nat) (i j : Nat) (h : s.length - j ≤ fuel),
      i ≤ j → j ≤ s.length →
      (encodeStringLoop s esc fuel b i j h).1 ++ s.drop (encodeStringLoop s esc fuel b i j h).2
        = b ++ slice s i j ++ escapeScan esc 0 (s.drop j) := by
  intro fuel
  induction fuel with
  | zero =>
    intro b i j h hij hjs
    have hj : j = s.length := by omega
    subst hj
    simp [encodeStringLoop, slice_to_length, escapeScan]
  | succ fuel ih =>
    intro b i j h hij hjs
    by_cases hj : j < s.length
    · have hdrop := drop_eq_getD_cons s j hj
      have hne : s.drop j ≠ [] := by rw [hdrop]; simp
      have hE := escapeHead_eq esc (s.drop j) (s.getD j 0) (s.drop (j + 1)) hdrop
      have hle := escapeHead_le esc (s.drop j) hne
      have hlen : (s.drop j).length = s.length - j := by simp
      have hstep := escapeScan_step esc (s.drop j) hne
      have htake1 : (s.drop j).take 1 = [s.getD j 0] := by rw [hdrop]; simp
      rw [encodeStringLoop, dif_pos hj, hstep]
      dsimp only
      by_cases h1 : 0x20 ≤ s.getD j 0 ∧ s.getD j 0 ≤ 0x7f ∧ s.getD j 0 ≠ 0x5c ∧
          s.getD j 0 ≠ 0x22 ∧
          (esc = false ∨ (s.getD j 0 ≠ 0x3c ∧ s.getD j 0 ≠ 0x3e ∧ s.getD j 0 ≠ 0x26))
      · rw [if_pos h1] at hE ⊢
        rw [hE, ih _ _ _ _ (by omega) (by omega)]
        dsimp only
        rw [← htake1]
        exact loop_copy_aux _ s b i j 1 hij
      rw [if_neg h1] at hE ⊢
      by_cases h2 : s.getD j 0 = 0x5c ∨ s.getD j 0 = 0x22
      · rw [if_pos h2] at hE ⊢
        rw [hE, ih _ _ _ _ (le_refl _) (by omega)]
        exact loop_escape_aux _ s b _ i j 1
      rw [if_neg h2] at hE ⊢
      by_cases h3 : s.getD j 0 = 0x0a
      · rw [if_pos h3] at hE ⊢
        rw [hE, ih _ _ _ _ (le_refl _) (by omega)]
        exact loop_escape_aux _ s b _ i j 1
      rw [if_neg h3] at hE ⊢
      by_cases h4 : s.getD j 0 = 0x0d
      · rw [if_pos h4] at hE ⊢
        rw [hE, ih _ _ _ _ (le_refl _) (by omega)]
        exact loop_escape_aux _ s b _ i j 1
      rw [if_neg h4] at hE ⊢
      by_cases h5 : s.getD j 0 = 0x09
      · rw [if_pos h5] at hE ⊢
        rw [hE, ih _ _ _ _ (le_refl _) (by omega)]
        exact loop_escape_aux _ s b _ i j 1
      rw [if_neg h5] at hE ⊢
      by_cases h6 : s.getD j 0 = 0x3c ∨ s.getD j 0 = 0x3e ∨ s.getD j 0 = 0x26
      · rw [if_pos h6] at hE ⊢
        rw [hE, ih _ _ _ _ (le_refl _) (by omega)]
        simpa only [List.append_assoc] using loop_escape_aux (escapeScan esc 0) s b
          (str "\\u00" ++ [hex.getD (s.getD j 0 / 16) 0, hex.getD (s.getD j 0 % 16) 0]) i j 1
      rw [if_neg h6] at hE ⊢
      by_cases h7 : s.getD j 0 < 0x20
      · rw [if_pos h7] at hE ⊢
        rw [hE, ih _ _ _ _ (le_refl _) (by omega)]
        simpa only [List.append_assoc] using loop_escape_aux (escapeScan esc 0) s b
          (str "\\u00" ++ [hex.getD (s.getD j 0 / 16) 0, hex.getD (s.getD j 0 % 16) 0]) i j 1
      rw [if_neg h7] at hE ⊢
      by_cases h8 : (DecodeRuneInString (s.drop j)).1 = RuneError ∧
          (DecodeRuneInString (s.drop j)).2 = 1
      · rw [if_pos h8] at hE ⊢
        rw [hE] at hle ⊢
        rw [ih _ _ _ _ (le_refl _) (by simp only at hle; omega)]
        exact loop_escape_aux _ s b _ i j _
      rw [if_neg h8] at hE ⊢
      by_cases h9 : (DecodeRuneInString (s.drop j)).1 = 0x2028 ∨
          (DecodeRuneInString (s.drop j)).1 = 0x2029
      · rw [if_pos h9] at hE ⊢
        rw [hE] at hle ⊢
        rw [ih _ _ _ _ (le_refl _) (by simp only at hle; omega)]
        simpa only [List.append_assoc] using loop_escape_aux (escapeScan esc 0) s b
          (str "\\u202" ++ [hex.getD ((DecodeRuneInString (s.drop j)).1 % 16) 0]) i j
          (DecodeRuneInString (s.drop j)).2
      · rw [if_neg h9] at hE ⊢
        rw [hE] at hle ⊢
        rw [ih _ _ _ _ (by omega) (by simp only at hle; omega)]
        exact loop_copy_aux _ s b i j _ hij
    · have hj' : j = s.length := by omega
      subst hj'
      rw [encodeStringLoop, dif_neg (lt_irrefl _)]
      simp [slice_to_length, escapeScan]

/-- The result of `encodeString`: `b`, a quote, the scan of `s`, a quote. -/
theorem encodeString_eq (b s : List Nat) (esc : Bool) :
    encodeString b s esc = .ok (b ++ [0x22] ++ escapeScan esc 0 s ++ [0x22]) := by
  unfold encodeString
  have h := encodeStringLoop_spec s esc s.length (b ++ [0x22]) 0 0 (by omega)
    (le_refl 0) (Nat.zero_le _)
  simp only [slice_self, List.append_nil, List.drop_zero] at h
  simp only [h]

theorem encodeStringBody_eq (s : List Nat) (esc : Bool) :
    encodeStringBody s esc = escapeScan esc 0 s := by
  unfold encodeStringBody
  rw [encodeString_eq]
  simp

theorem acceptLo_ge (a : Nat) : 0x80 ≤ acceptLo a := by
  unfold acceptLo
  split_ifs <;> simp

theorem acceptHi_le (a : Nat) : acceptHi a ≤ 0xBF := by
  unfold acceptHi
  split_ifs <;> simp

theorem DecodeRuneInString_two (a b : Nat) (rest : List Nat) (h1 : 0xC2 ≤ a) (h2 : a ≤ 0xDF)
    (h3 : 0x80 ≤ b) (h4 : b ≤ 0xBF) :
    DecodeRuneInString (a :: b :: rest) = ((a % 32) * 64 + b % 64, 2) := by
  rcases DecodeRuneInString_cases a (b :: rest) (by omega) with h | ⟨b', r, hb, -, -, -, -, h⟩ |
      ⟨b', c, r, -, h5, -⟩ | ⟨b', c, d, r, -, h5, -⟩
  · exfalso
    have hsz : leadSize a = 2 := by unfold leadSize; rw [if_pos (by omega)]
    have hlo : acceptLo a = 0x80 := by
      unfold acceptLo; rw [if_neg (by omega), if_neg (by omega)]
    have hhi : acceptHi a = 0xBF := by
      unfold acceptHi; rw [if_neg (by omega), if_neg (by omega)]
    simp only [DecodeRuneInString, hsz, hlo, hhi, List.getD_cons_zero, List.getD_cons_succ,
      List.length_cons] at h
    rw [if_neg (by omega), if_neg (by omega), if_neg (by omega), if_neg (by omega),
      if_pos (le_refl 2)] at h
    simp at h
  · obtain ⟨rfl, rfl⟩ := List.cons.inj hb
    exact h
  · omega
  · omega

theorem DecodeRuneInString_three (a b c : Nat) (rest : List Nat) (h1 : 0xE0 ≤ a)
    (h2 : a ≤ 0xEF) (h3 : acceptLo a ≤ b) (h4 : b ≤ acceptHi a) (h5 : 0x80 ≤ c)
    (h6 : c ≤ 0xBF) :
    DecodeRuneInString (a :: b :: c :: rest)
      = ((a % 16) * 4096 + (b % 64) * 64 + c % 64, 3) := by
  rcases DecodeRuneInString_cases a (b :: c :: rest) (by omega) with h |
      ⟨b', r, -, -, h7, -⟩ | ⟨b', c', r, hb, -, -, -, -, -, -, h⟩ | ⟨b', c', d, r, -, h7, -⟩
  · exfalso
    have hsz : leadSize a = 3 := by unfold leadSize; rw [if_neg (by omega), if_pos (by omega)]
    simp only [DecodeRuneInString, hsz, List.getD_cons_zero, List.getD_cons_succ,
      List.length_cons] at h
    rw [if_neg (by omega), if_neg (by omega), if_neg (by omega), if_neg (by omega),
      if_neg (by omega), if_neg (by omega), if_pos (le_refl 3)] at h
    simp at h
  · omega
  · simp only [List.cons.injEq] at hb
    obtain ⟨rfl, rfl, -⟩ := hb
    exact h
  · omega

theorem DecodeRuneInString_four (a b c d : Nat) (rest : List Nat) (h1 : 0xF0 ≤ a)
    (h2 : a ≤ 0xF4) (h3 : acceptLo a ≤ b) (h4 : b ≤ acceptHi a) (h5 : 0x80 ≤ c)
    (h6 : c ≤ 0xBF) (h7 : 0x80 ≤ d) (h8 : d ≤ 0xBF) :
    DecodeRuneInString (a :: b :: c :: d :: rest)
      = ((a % 8) * 262144 + (b % 64) * 4096 + (c % 64) * 64 + d % 64, 4) := by
  rcases DecodeRuneInString_cases a (b :: c :: d :: rest) (by omega) with h |
      ⟨b', r, -, -, h9, -⟩ | ⟨b', c', r, -, -, h9, -⟩ |
      ⟨b', c', d', r, hb, -, -, -, -, -, -, -, -, h⟩
  · exfalso
    have hsz : leadSize a = 4 := by unfold leadSize; rw [if_neg (by omega), if_neg (by omega)]
    simp only [DecodeRuneInString, hsz, List.getD_cons_zero, List.getD_cons_succ,
      List.length_cons] at h
    rw [if_neg (by omega), if_neg (by omega), if_neg (by omega), if_neg (by omega),
      if_neg (by omega), if_neg (by omega), if_neg (by omega), if_neg (by omega)] at h
    simp at h
  · omega
  · omega
  · simp only [List.cons.injEq] at hb
    obtain ⟨rfl, rfl, rfl, -⟩ := hb
    exact h

/-- Decoding the first rune of a non-empty string gives the same result when
the string is followed by a byte that is not a continuation byte. -/
theorem DecodeRuneInString_append (p : List Nat) (x : Nat) (q : List Nat) (hp : p ≠ [])
    (hx : x < 0x80 ∨ 0xBF < x) :
    DecodeRuneInString (p ++ x :: q) = DecodeRuneInString p := by
  rcases p with _ | ⟨a, t⟩
  · exact absurd rfl hp
  by_cases ha : a < 0x80
  · rw [List.cons_append, DecodeRuneInString_ascii a _ ha, DecodeRuneInString_ascii a _ ha]
  have hlo := acceptLo_ge a
  have hhi := acceptHi_le a
  rcases DecodeRuneInString_cases a t (by omega) with h | ⟨b, r, rfl, h1, h2, h3, h4, h⟩ |
      ⟨b, c, r, rfl, h1, h2, h3, h4, h5, h6, h⟩ |
      ⟨b, c, d, r, rfl, h1, h2, h3, h4, h5, h6, h7, h8, h⟩
  · rw [h, List.cons_append]
    rcases DecodeRuneInString_cases a (t ++ x :: q) (by omega) with h' |
        ⟨b, r, ht, h1, h2, h3, h4, -⟩ | ⟨b, c, r, ht, h1, h2, h3, h4, h5, h6, -⟩ |
        ⟨b, c, d, r, ht, h1, h2, h3, h4, h5, h6, h7, h8, -⟩
    · exact h'
    · exfalso
      rcases t with _ | ⟨b', t'⟩
      · simp only [List.nil_append, List.cons.injEq] at ht
        omega
      · simp only [List.cons_append, List.cons.injEq] at ht
        obtain ⟨rfl, -⟩ := ht
        rw [DecodeRuneInString_two a b' t' h1 h2 h3 h4] at h
        simp at h
    · exfalso
      rcases t with _ | ⟨b', _ | ⟨c', t'⟩⟩
      · simp only [List.nil_append, List.cons.injEq] at ht
        omega
      · simp only [List.cons_append, List.nil_append, List.cons.injEq] at ht
        omega
      · simp only [List.cons_append, List.cons.injEq] at ht
        obtain ⟨rfl, rfl, -⟩ := ht
        rw [DecodeRuneInString_three a b' c' t' h1 h2 h3 h4 h5 h6] at h
        simp at h
    · exfalso
      rcases t with _ | ⟨b', _ | ⟨c', _ | ⟨d', t'⟩⟩⟩
      · simp only [List.nil_append, List.cons.injEq] at ht
        omega
      · simp only [List.cons_append, List.nil_append, List.cons.injEq] at ht
        omega
      · simp only [List.cons_append, List.nil_append, List.cons.injEq] at ht
        omega
      · simp only [List.cons_append, List.cons.injEq] at ht
        obtain ⟨rfl, rfl, rfl, -⟩ := ht
        rw [DecodeRuneInString_four a b' c' d' t' h1 h2 h3 h4 h5 h6 h7 h8] at h
        simp at h
  · rw [h, List.cons_append, List.cons_append]
    exact DecodeRuneInString_two a b _ h1 h2 h3 h4
  · rw [h, List.cons_append, List.cons_append, List.cons_append]
    exact DecodeRuneInString_three a b c _ h1 h2 h3 h4 h5 h6
  · rw [h, List.cons_append, List.cons_append, List.cons_append, List.cons_append]
    exact DecodeRuneInString_four a b c d _ h1 h2 h3 h4 h5 h6 h7 h8

theorem escapeHead_append (esc : Bool) (p : List Nat) (x : Nat) (q : List Nat) (hp : p ≠ [])
    (hx : x < 0x80 ∨ 0xBF < x) :
    escapeHead esc (p ++ x :: q) = escapeHead esc p := by
  have hle := DecodeRuneInString_size_le p hp
  rcases p with _ | ⟨c, rest⟩
  · exact absurd rfl hp
  rw [escapeHead_eq esc (c :: rest ++ x :: q) c (rest ++ x :: q) rfl,
    escapeHead_eq esc (c :: rest) c rest rfl, DecodeRuneInString_append _ x q hp hx,
    List.take_append_of_le_length hle]

/-- The scan of a string followed by a byte that is not a continuation byte
is the scan of the string followed by the scan of the rest. -/
theorem escapeScan_append (esc : Bool) (x : Nat) (q : List Nat) (hx : x < 0x80 ∨ 0xBF < x) :
    ∀ (n : Nat) (p : List Nat), p.length ≤ n →
      escapeScan esc 0 (p ++ x :: q) = escapeScan esc 0 p ++ escapeScan esc 0 (x :: q) := by
  intro n
  induction n with
  | zero =>
    intro p hp
    have : p = [] := List.length_eq_zero.mp (by omega)
    subst this
    simp [escapeScan]
  | succ n ih =>
    intro p hp
    by_cases hnil : p = []
    · subst hnil
      simp [escapeScan]
    have hpos := escapeHead_pos esc p hnil
    have hle := escapeHead_le esc p hnil
    rw [escapeScan_step esc (p ++ x :: q) (by simp), escapeScan_step esc p hnil,
      escapeHead_append esc p x q hnil hx, List.drop_append_of_le_length hle,
      ih _ (by rw [List.length_drop]; omega), List.append_assoc]

theorem hex_getD_lt (k : Nat) : hex.getD k 0 < 0x80 := by
  by_cases hk : k < 16
  · interval_cases k <;> decide
  · rw [List.getD_eq_default]
    · decide
    · have : hex.length = 16 := by decide
      omega

theorem hexValue_hex (k : Nat) (hk : k < 16) : hexValue (hex.getD k 0) = some k := by
  interval_cases k <;> decide

theorem escapeHead_high_eq (esc : Bool) (a : Nat) (rest : List Nat) (ha : 0x80 ≤ a) :
    escapeHead esc (a :: rest) =
      if (DecodeRuneInString (a :: rest)).1 = RuneError ∧
          (DecodeRuneInString (a :: rest)).2 = 1 then
        (str "\\ufffd", (DecodeRuneInString (a :: rest)).2)
      else if (DecodeRuneInString (a :: rest)).1 = 0x2028 ∨
          (DecodeRuneInString (a :: rest)).1 = 0x2029 then
        (str "\\u202" ++ [hex.getD ((DecodeRuneInString (a :: rest)).1 % 16) 0],
          (DecodeRuneInString (a :: rest)).2)
      else ((a :: rest).take (DecodeRuneInString (a :: rest)).2,
        (DecodeRuneInString (a :: rest)).2) := by
  rw [escapeHead_eq esc (a :: rest) a rest rfl, if_neg (fun h => absurd h.2.1 (by omega)),
    if_neg (by omega), if_neg (by omega), if_neg (by omega), if_neg (by omega),
    if_neg (by omega), if_neg (by omega)]

/-- What the loop of `encodeString` does at a non-ASCII byte. -/
theorem escapeHead_high (esc : Bool) (a : Nat) (rest : List Nat) (ha : 0x80 ≤ a) :
    (DecodeRuneInString (a :: rest) = (RuneError, 1) ∧
      escapeHead esc (a :: rest) = (str "\\ufffd", 1)) ∨
    (∃ r, a :: rest = 0xE2 :: 0x80 :: 0xA8 :: r ∧
      escapeHead esc (a :: rest) = (str "\\u2028", 3)) ∨
    (∃ r, a :: rest = 0xE2 :: 0x80 :: 0xA9 :: r ∧
      escapeHead esc (a :: rest) = (str "\\u2029", 3)) ∨
    (∃ chunk r, a :: rest = chunk ++ r ∧ IsCopiedSeq chunk ∧
      DecodeRuneInString (a :: rest) ≠ (RuneError, 1) ∧
      escapeHead esc (a :: rest) = (chunk, chunk.length)) := by
  have hE := escapeHead_high_eq esc a rest ha
  rcases DecodeRuneInString_cases a rest ha with h | ⟨b, r, rfl, h1, h2, h3, h4, h⟩ |
      ⟨b, c, r, rfl, h1, h2, h3, h4, h5, h6, h⟩ |
      ⟨b, c, d, r, rfl, h1, h2, h3, h4, h5, h6, h7, h8, h⟩
  · left
    refine ⟨h, ?_⟩
    rw [hE, h, if_pos ⟨rfl, rfl⟩]
  · right; right; right
    refine ⟨[a, b], r, rfl, Or.inl ⟨a, b, rfl, h1, h2, h3, h4⟩, by rw [h]; simp, ?_⟩
    rw [hE, h]
    dsimp only
    rw [if_neg (by simp), if_neg (by omega)]
    rfl
  · by_cases hls : a = 0xE2 ∧ b = 0x80 ∧ c = 0xA8
    · obtain ⟨rfl, rfl, rfl⟩ := hls
      right; left
      refine ⟨r, rfl, ?_⟩
      rw [hE, h]
      dsimp only
      rw [if_neg (by decide), if_pos (by decide)]
      decide
    by_cases hps : a = 0xE2 ∧ b = 0x80 ∧ c = 0xA9
    · obtain ⟨rfl, rfl, rfl⟩ := hps
      right; right; left
      refine ⟨r, rfl, ?_⟩
      rw [hE, h]
      dsimp only
      rw [if_neg (by decide), if_pos (by decide)]
      decide
    right; right; right
    refine ⟨[a, b, c], r, rfl, Or.inr (Or.inl ⟨a, b, c, rfl, h1, h2, h3, h4, h5, h6,
      by omega⟩), by rw [h]; simp, ?_⟩
    have hlo := acceptLo_ge a
    have hhi := acceptHi_le a
    rw [hE, h]
    dsimp only
    rw [if_neg (by simp), if_neg (by omega)]
    rfl
  · right; right; right
    refine ⟨[a, b, c, d], r, rfl, Or.inr (Or.inr ⟨a, b, c, d, rfl, h1, h2, h3, h4, h5, h6,
      h7, h8⟩), by rw [h]; simp, ?_⟩
    have hlo : 0x90 ≤ b ∨ 0xF1 ≤ a := by
      by_cases hf : a = 0xF0
      · left
        rw [hf] at h3
        exact h3
      · right; omega
    have hhi := acceptHi_le a
    rw [hE, h]
    dsimp only
    rw [if_neg (by simp), if_neg (by omega)]
    rfl

/-- What the loop of `encodeString` does at an ASCII byte. -/
theorem escapeHead_low (esc : Bool) (a : Nat) (rest : List Nat) (ha : a < 0x80) :
    (escapeHead esc (a :: rest) = ([a], 1) ∧ 0x20 ≤ a ∧ a ≠ 0x5c ∧ a ≠ 0x22 ∧
      (esc = true → a ≠ 0x3c ∧ a ≠ 0x3e ∧ a ≠ 0x26)) ∨
    (escapeHead esc (a :: rest) = ([0x5c, a], 1) ∧ (a = 0x5c ∨ a = 0x22)) ∨
    (escapeHead esc (a :: rest) = (str "\\n", 1) ∧ a = 0x0a) ∨
    (escapeHead esc (a :: rest) = (str "\\r", 1) ∧ a = 0x0d) ∨
    (escapeHead esc (a :: rest) = (str "\\t", 1) ∧ a = 0x09) ∨
    (escapeHead esc (a :: rest)
        = (str "\\u00" ++ [hex.getD (a / 16) 0, hex.getD (a % 16) 0], 1) ∧
      (a < 0x20 ∨ (esc = true ∧ (a = 0x3c ∨ a = 0x3e ∨ a = 0x26)))) := by
  rw [escapeHead_eq esc (a :: rest) a rest rfl]
  by_cases h1 : 0x20 ≤ a ∧ a ≤ 0x7f ∧ a ≠ 0x5c ∧ a ≠ 0x22 ∧
      (esc = false ∨ (a ≠ 0x3c ∧ a ≠ 0x3e ∧ a ≠ 0x26))
  · left
    rw [if_pos h1]
    refine ⟨rfl, h1.1, h1.2.2.1, h1.2.2.2.1, ?_⟩
    intro he
    rcases h1.2.2.2.2 with h | h
    · rw [he] at h; exact absurd h (by decide)
    · exact h
  rw [if_neg h1]
  by_cases h2 : a = 0x5c ∨ a = 0x22
  · right; left
    rw [if_pos h2]
    exact ⟨rfl, h2⟩
  rw [if_neg h2]
  by_cases h3 : a = 0x0a
  · right; right; left
    rw [if_pos h3]
    exact ⟨rfl, h3⟩
  rw [if_neg h3]
  by_cases h4 : a = 0x0d
  · right; right; right; left
    rw [if_pos h4]
    exact ⟨rfl, h4⟩
  rw [if_neg h4]
  by_cases h5 : a = 0x09
  · right; right; right; right; left
    rw [if_pos h5]
    exact ⟨rfl, h5⟩
  rw [if_neg h5]
  right; right; right; right; right
  by_cases h6 : a = 0x3c ∨ a = 0x3e ∨ a = 0x26
  · rw [if_pos h6]
    refine ⟨rfl, Or.inr ⟨?_, h6⟩⟩
    cases esc with
    | true => rfl
    | false =>
      exfalso
      apply h1
      refine ⟨by omega, by omega, by omega, by omega, Or.inl rfl⟩
  rw [if_neg h6]
  have h7 : a < 0x20 := by
    by_contra hge
    apply h1
    refine ⟨by omega, by omega, by omega, by omega, Or.inr ⟨by omega, by omega, by omega⟩⟩
  rw [if_pos h7]
  exact ⟨rfl, Or.inl h7⟩

/-- Induction along the scan of `encodeString`. -/
theorem escapeScan_ind (esc : Bool) (Q : List Nat → Prop) (h0 : Q [])
    (hstep : ∀ t, t ≠ [] → Q (t.drop (escapeHead esc t).2) → Q t) : ∀ s, Q s := by
  have key : ∀ (n : Nat) (s : List Nat), s.length ≤ n → Q s := by
    intro n
    induction n with
    | zero =>
      intro s hs
      have : s = [] := List.length_eq_zero.mp (by omega)
      subst this
      exact h0
    | succ n ih =>
      intro s hs
      by_cases hnil : s = []
      · subst hnil
        exact h0
      · have hpos := escapeHead_pos esc s hnil
        have hlen : 0 < s.length := List.length_pos.mpr hnil
        exact hstep s hnil (ih _ (by rw [List.length_drop]; omega))
  intro s
  exact key s.length s (le_refl _)

theorem IsCopiedSeq_high (chunk : List Nat) (h : IsCopiedSeq chunk) : ∀ x ∈ chunk, 0x80 ≤ x := by
  rcases h with ⟨a, b, rfl, h1, h2, h3, h4⟩ | ⟨a, b, c, rfl, h1, h2, h3, h4, h5, h6, -⟩ |
      ⟨a, b, c, d, rfl, h1, h2, h3, h4, h5, h6, h7, h8⟩
  · intro x hx
    simp only [List.mem_cons, List.mem_singleton, List.not_mem_nil, or_false] at hx
    rcases hx with rfl | rfl <;> omega
  · intro x hx
    have hlo := acceptLo_ge a
    simp only [List.mem_cons, List.mem_singleton, List.not_mem_nil, or_false] at hx
    rcases hx with rfl | rfl | rfl <;> omega
  · intro x hx
    have hlo := acceptLo_ge a
    simp only [List.mem_cons, List.mem_singleton, List.not_mem_nil, or_false] at hx
    rcases hx with rfl | rfl | rfl | rfl <;> omega

theorem hex_getD_cases (k : Nat) :
    hex.getD k 0 = 0 ∨ (0x30 ≤ hex.getD k 0 ∧ hex.getD k 0 ≤ 0x39) ∨
      (0x61 ≤ hex.getD k 0 ∧ hex.getD k 0 ≤ 0x66) := by
  by_cases hk : k < 16
  · interval_cases k <;> decide
  · left
    rw [List.getD_eq_default]
    have : hex.length = 16 := by decide
    omega

/-- With `escapeHTML` set, no byte written by the scan is `<`, `>` or `&`. -/
theorem escapeScan_no_html (s : List Nat) :
    ∀ x ∈ escapeScan true 0 s, x ≠ 0x3c ∧ x ≠ 0x3e ∧ x ≠ 0x26 := by
  refine escapeScan_ind true (fun s => ∀ x ∈ escapeScan true 0 s, x ≠ 0x3c ∧ x ≠ 0x3e ∧ x ≠ 0x26)
    (by simp [escapeScan]) ?_ s
  intro t ht ih x hx
  rw [escapeScan_step true t ht, List.mem_append] at hx
  rcases hx with hx | hx
  · rcases t with _ | ⟨a, rest⟩
    · exact absurd rfl ht
    by_cases ha : a < 0x80
    · have h1 := hex_getD_cases (a / 16)
      have h2 := hex_getD_cases (a % 16)
      rcases escapeHead_low true a rest ha with ⟨h, h3, h4, h5, h6⟩ | ⟨h, h3⟩ | ⟨h, h3⟩ |
          ⟨h, h3⟩ | ⟨h, h3⟩ | ⟨h, h3⟩ <;> rw [h] at hx <;>
        simp only [str, String.toList, List.map, Char.toNat, List.mem_cons, List.mem_singleton,
          List.not_mem_nil, or_false, List.cons_append, List.nil_append] at hx
      · have := h6 rfl
        subst hx
        exact this
      · rcases hx with rfl | rfl <;> omega
      · rcases hx with rfl | rfl <;> decide
      · rcases hx with rfl | rfl <;> decide
      · rcases hx with rfl | rfl <;> decide
      · rcases hx with rfl | rfl | rfl | rfl | rfl | rfl <;> first | decide | omega
    · rcases escapeHead_high true a rest (by omega) with ⟨-, h⟩ | ⟨r, -, h⟩ | ⟨r, -, h⟩ |
          ⟨chunk, r, -, hc, -, h⟩ <;> rw [h] at hx
      · revert x; decide
      · revert x; decide
      · revert x; decide
      · have := IsCopiedSeq_high chunk hc x hx
        omega
  · exact ih x hx

theorem escapeScan_html_false (c : Nat) (q : List Nat) (hc : c = 0x3c ∨ c = 0x3e ∨ c = 0x26) :
    escapeScan false 0 (c :: q) = [c] ++ escapeScan false 0 q := by
  rw [escapeScan_step false (c :: q) (by simp)]
  have h : escapeHead false (c :: q) = ([c], 1) := by
    rcases hc with rfl | rfl | rfl <;> rfl
  rw [h]
  rfl

theorem escapeScan_html_true (c : Nat) (q : List Nat) (hc : c = 0x3c ∨ c = 0x3e ∨ c = 0x26) :
    escapeScan true 0 (c :: q)
      = str "\\u00" ++ [hex.getD (c / 16) 0, hex.getD (c % 16) 0] ++ escapeScan true 0 q := by
  rw [escapeScan_step true (c :: q) (by simp)]
  have h : escapeHead true (c :: q)
      = (str "\\u00" ++ [hex.getD (c / 16) 0, hex.getD (c % 16) 0], 1) := by
    rcases hc with rfl | rfl | rfl <;> rfl
  rw [h]
  rfl

/-- C1 (as stated, refuted): the record encoder writes the string `<` as the
three bytes `"<"`: the character `<` is in the output, literally. -/
theorem monoEncoder_encodeAny_html_literal :
    monoEncoder.encodeAny [] (.string [0x3c]) = .ok [0x22, 0x3c, 0x22] ∧
      0x3c ∈ [0x22, 0x3c, 0x22] := by
  decide

/-- C1 (amended): the record encoders call `encodeString` with `escapeHTML`
unset, and then each `<`, `>`, `&` of the string is copied to the output as it
is; with `escapeHTML` set, `encodeString` writes each of them as its escape
(`\u003c`, `\u003e`, `\u0026`), and its output holds none of the three. -/
theorem encodeString_html (b p q : List Nat) (c : Nat) (clrs : Colors)
    (hc : c = 0x3c ∨ c = 0x3e ∨ c = 0x26) :
    monoEncoder.encodeAny b (.string (p ++ c :: q))
        = .ok (b ++ [0x22] ++ encodeStringBody p false ++ [c] ++ encodeStringBody q false
            ++ [0x22]) ∧
      colorEncoder.encodeAny clrs b (.string (p ++ c :: q))
        = .ok (b ++ clrs.String.Prefix ++ [0x22] ++ encodeStringBody p false ++ [c]
            ++ encodeStringBody q false ++ [0x22] ++ clrs.String.Suffix) ∧
      encodeString b (p ++ c :: q) true
        = .ok (b ++ [0x22] ++ encodeStringBody p true
            ++ (str "\\u00" ++ [hex.getD (c / 16) 0, hex.getD (c % 16) 0])
            ++ encodeStringBody q true ++ [0x22]) ∧
      ∀ s, ∃ out, encodeString b s true = .ok (b ++ out) ∧
        ∀ x ∈ out, x ≠ 0x3c ∧ x ≠ 0x3e ∧ x ≠ 0x26 := by
  have hx : c < 0x80 ∨ 0xBF < c := by omega
  refine ⟨?_, ?_, ?_, ?_⟩
  · simp only [monoEncoder.encodeAny, encodeString_eq, encodeStringBody_eq,
      escapeScan_append false c q hx p.length p (le_refl _), escapeScan_html_false c q hc,
      List.append_assoc]
  · simp only [colorEncoder.encodeAny, encodeString_eq, encodeStringBody_eq,
      escapeScan_append false c q hx p.length p (le_refl _), escapeScan_html_false c q hc,
      List.append_assoc]
  · simp only [encodeString_eq, encodeStringBody_eq,
      escapeScan_append true c q hx p.length p (le_refl _), escapeScan_html_true c q hc,
      List.append_assoc]
  · intro s
    refine ⟨[0x22] ++ escapeScan true 0 s ++ [0x22], ?_, ?_⟩
    · rw [encodeString_eq]
      simp only [List.append_assoc]
    · intro x hx
      simp only [List.mem_append, List.mem_singleton] at hx
      rcases hx with (rfl | hx) | rfl
      · decide
      · exact escapeScan_no_html s x hx
      · decide

/-- C1 (amended), at the string `a<b`: the record encoder writes `"a<b"`, and
`encodeString` with `escapeHTML` set writes `"a\u003cb"`. -/
theorem encodeString_html_witness :
    ((0x3c : Nat) = 0x3c ∨ (0x3c : Nat) = 0x3e ∨ (0x3c : Nat) = 0x26) ∧
      monoEncoder.encodeAny [] (.string (str "a" ++ 0x3c :: str "b")) = .ok (str "\"a<b\"") ∧
      encodeString [] (str "a" ++ 0x3c :: str "b") true = .ok (str "\"a\\u003cb\"") := by
  have h := encodeString_html [] (str "a") (str "b") 0x3c
    ⟨⟨[], []⟩, ⟨[], []⟩, ⟨[], []⟩, ⟨[], []⟩, ⟨[], []⟩, fun b => b⟩ (Or.inl rfl)
  refine ⟨Or.inl rfl, ?_, ?_⟩
  · rw [h.1]; decide
  · rw [h.2.2.1]; decide

theorem hasSeparator_of_infix (y : Nat) (hy : y = 0xA8 ∨ y = 0xA9) :
    ∀ l : List Nat, [0xE2, 0x80, y] <:+: l → hasSeparator l = true
  | [], h => by simp at h
  | a :: rest, h => by
    rw [List.infix_cons_iff] at h
    rcases h with h | h
    · obtain ⟨t, ht⟩ := h
      simp only [List.cons_append, List.nil_append, List.cons.injEq] at ht
      obtain ⟨rfl, rfl⟩ := ht
      simp [hasSeparator, hy]
    · have := hasSeparator_of_infix y hy rest h
      simp [hasSeparator, this]

theorem hasSeparator_cons_ne (a : Nat) (l : List Nat) (ha : a ≠ 0xE2) :
    hasSeparator (a :: l) = hasSeparator l := by
  rcases l with _ | ⟨b, _ | ⟨c, t⟩⟩ <;> simp [hasSeparator, ha]

theorem hasSeparator_append_ne (chunk l : List Nat) (h : ∀ x ∈ chunk, x ≠ 0xE2) :
    hasSeparator (chunk ++ l) = hasSeparator l := by
  induction chunk with
  | nil => rfl
  | cons a t ih =>
    rw [List.cons_append, hasSeparator_cons_ne _ _ (h a (List.mem_cons_self _ _)),
      ih (fun x hx => h x (List.mem_cons_of_mem _ hx))]

theorem hasSeparator_copied (chunk l : List Nat) (h : IsCopiedSeq chunk) :
    hasSeparator (chunk ++ l) = hasSeparator l := by
  rcases h with ⟨a, b, rfl, h1, h2, h3, h4⟩ | ⟨a, b, c, rfl, h1, h2, h3, h4, h5, h6, h7⟩ |
      ⟨a, b, c, d, rfl, h1, h2, h3, h4, h5, h6, h7, h8⟩
  · apply hasSeparator_append_ne
    intro x hx
    simp only [List.mem_cons, List.mem_singleton, List.not_mem_nil, or_false] at hx
    rcases hx with rfl | rfl <;> omega
  · have hhi := acceptHi_le a
    have hbc : hasSeparator ([b, c] ++ l) = hasSeparator l := by
      apply hasSeparator_append_ne
      intro x hx
      simp only [List.mem_cons, List.mem_singleton, List.not_mem_nil, or_false] at hx
      rcases hx with rfl | rfl <;> omega
    rw [← hbc]
    simp only [List.cons_append, List.nil_append]
    rw [hasSeparator, decide_eq_false h7, Bool.false_or]
  · have hhi := acceptHi_le a
    apply hasSeparator_append_ne
    intro x hx
    simp only [List.mem_cons, List.mem_singleton, List.not_mem_nil, or_false] at hx
    rcases hx with rfl | rfl | rfl | rfl <;> omega

/-- The chunk written at the head of a string never holds the byte `0xE2`,
unless it is a copied sequence. -/
theorem escapeHead_chunk (esc : Bool) (t : List Nat) (ht : t ≠ []) :
    (∀ x ∈ (escapeHead esc t).1, x < 0x80) ∨ IsCopiedSeq (escapeHead esc t).1 := by
  rcases t with _ | ⟨a, rest⟩
  · exact absurd rfl ht
  by_cases ha : a < 0x80
  · left
    have h1 := hex_getD_lt (a / 16)
    have h2 := hex_getD_lt (a % 16)
    intro x hx
    rcases escapeHead_low esc a rest ha with ⟨h, -⟩ | ⟨h, h3⟩ | ⟨h, -⟩ |
        ⟨h, -⟩ | ⟨h, -⟩ | ⟨h, -⟩ <;> rw [h] at hx <;>
      simp only [str, String.toList, List.map, Char.toNat, List.mem_cons, List.mem_singleton,
        List.not_mem_nil, or_false, List.cons_append, List.nil_append] at hx
    · omega
    · rcases hx with rfl | rfl <;> omega
    · rcases hx with rfl | rfl <;> decide
    · rcases hx with rfl | rfl <;> decide
    · rcases hx with rfl | rfl <;> decide
    · rcases hx with rfl | rfl | rfl | rfl | rfl | rfl <;> first | decide | omega
  · rcases escapeHead_high esc a rest (by omega) with ⟨-, h⟩ | ⟨r, -, h⟩ | ⟨r, -, h⟩ |
        ⟨chunk, r, -, hc, -, h⟩ <;> rw [h]
    · left; decide
    · left; decide
    · left; decide
    · right; exact hc

theorem escapeScan_no_separator (esc : Bool) (l : List Nat) (s : List Nat) :
    hasSeparator (escapeScan esc 0 s ++ l) = hasSeparator l := by
  refine escapeScan_ind esc (fun s => hasSeparator (escapeScan esc 0 s ++ l) = hasSeparator l)
    (by simp [escapeScan]) ?_ s
  intro t ht ih
  rw [escapeScan_step esc t ht, List.append_assoc]
  rcases escapeHead_chunk esc t ht with h | h
  · rw [hasSeparator_append_ne _ _ (fun x hx => by have := h x hx; omega), ih]
  · rw [hasSeparator_copied _ _ h, ih]

theorem escapeScan_separator (esc : Bool) (y : Nat) (q : List Nat) (hy : y = 0xA8 ∨ y = 0xA9) :
    escapeScan esc 0 (0xE2 :: 0x80 :: y :: q)
      = str "\\u202" ++ [hex.getD (y % 16) 0] ++ escapeScan esc 0 q := by
  rw [escapeScan_step esc _ (by simp)]
  have h : escapeHead esc (0xE2 :: 0x80 :: y :: q)
      = (str "\\u202" ++ [hex.getD (y % 16) 0], 3) := by
    rw [escapeHead_high_eq esc _ _ (by decide)]
    rcases hy with rfl | rfl
    · rw [DecodeRuneInString_three 0xE2 0x80 0xA8 q (by decide) (by decide) (by decide)
        (by decide) (by decide) (by decide)]
      dsimp only
      rw [if_neg (by decide), if_pos (by decide)]
    · rw [DecodeRuneInString_three 0xE2 0x80 0xA9 q (by decide) (by decide) (by decide)
        (by decide) (by decide) (by decide)]
      dsimp only
      rw [if_neg (by decide), if_pos (by decide)]
  rw [h]
  rfl

/-- C3: for every byte string and both values of `escapeHTML`, the bytes
appended by `encodeString` hold no U+2028 and no U+2029 (`E2 80 A8`,
`E2 80 A9`); each occurrence in the string is written as the six characters
`\u2028` or `\u2029`, between the encodings of what precedes and what follows
it. -/
theorem encodeString_line_separators (b : List Nat) (esc : Bool) :
    (∀ s, ∃ out, encodeString b s esc = .ok (b ++ out) ∧
      ¬ [0xE2, 0x80, 0xA8] <:+: out ∧ ¬ [0xE2, 0x80, 0xA9] <:+: out) ∧
    (∀ p q, encodeString b (p ++ [0xE2, 0x80, 0xA8] ++ q) esc
      = .ok (b ++ [0x22] ++ encodeStringBody p esc ++ str "\\u2028"
          ++ encodeStringBody q esc ++ [0x22])) ∧
    (∀ p q, encodeString b (p ++ [0xE2, 0x80, 0xA9] ++ q) esc
      = .ok (b ++ [0x22] ++ encodeStringBody p esc ++ str "\\u2029"
          ++ encodeStringBody q esc ++ [0x22])) := by
  refine ⟨?_, ?_, ?_⟩
  · intro s
    refine ⟨[0x22] ++ escapeScan esc 0 s ++ [0x22], ?_, ?_, ?_⟩
    · rw [encodeString_eq]
      simp only [List.append_assoc]
    · intro h
      have h1 := hasSeparator_of_infix 0xA8 (Or.inl rfl) _ h
      rw [List.append_assoc, List.singleton_append, hasSeparator_cons_ne _ _ (by decide),
        escapeScan_no_separator] at h1
      exact absurd h1 (by decide)
    · intro h
      have h1 := hasSeparator_of_infix 0xA9 (Or.inr rfl) _ h
      rw [List.append_assoc, List.singleton_append, hasSeparator_cons_ne _ _ (by decide),
        escapeScan_no_separator] at h1
      exact absurd h1 (by decide)
  · intro p q
    have h := escapeScan_append esc 0xE2 (0x80 :: 0xA8 :: q) (Or.inr (by decide)) p.length p
      (le_refl _)
    have h2 := escapeScan_separator esc 0xA8 q (Or.inl rfl)
    have h3 : str "\\u202" ++ [hex.getD (0xA8 % 16) 0] = str "\\u2028" := by decide
    rw [h3] at h2
    simp only [encodeString_eq, encodeStringBody_eq, List.append_assoc, List.cons_append,
      List.nil_append, h, h2]
  · intro p q
    have h := escapeScan_append esc 0xE2 (0x80 :: 0xA9 :: q) (Or.inr (by decide)) p.length p
      (le_refl _)
    have h2 := escapeScan_separator esc 0xA9 q (Or.inr rfl)
    have h3 : str "\\u202" ++ [hex.getD (0xA9 % 16) 0] = str "\\u2029" := by decide
    rw [h3] at h2
    simp only [encodeString_eq, encodeStringBody_eq, List.append_assoc, List.cons_append,
      List.nil_append, h, h2]

theorem validUTF8_cons_ascii (a : Nat) (l : List Nat) (h : a < 0x80) :
    validUTF8 (a :: l) = validUTF8 l := by
  conv_lhs => unfold validUTF8
  rw [if_pos h]

theorem validUTF8_two (a b : Nat) (l : List Nat) (h : 0xC2 ≤ a ∧ a ≤ 0xDF) :
    validUTF8 (a :: b :: l) = (isCont b && validUTF8 l) := by
  conv_lhs => unfold validUTF8
  rw [if_neg (by omega)]
  dsimp only
  rw [if_pos h]

theorem validUTF8_three (a b c : Nat) (l : List Nat) (h : 0xE0 ≤ a ∧ a ≤ 0xEF) :
    validUTF8 (a :: b :: c :: l) = (isSecondOfThree a b && isCont c && validUTF8 l) := by
  conv_lhs => unfold validUTF8
  rw [if_neg (by omega)]
  dsimp only
  rw [if_neg (by omega), if_pos h]

theorem validUTF8_four (a b c d : Nat) (l : List Nat) (h : 0xF0 ≤ a ∧ a ≤ 0xF4) :
    validUTF8 (a :: b :: c :: d :: l)
      = (isSecondOfFour a b && isCont c && isCont d && validUTF8 l) := by
  conv_lhs => unfold validUTF8
  rw [if_neg (by omega)]
  dsimp only
  rw [if_neg (by omega), if_neg (by omega), if_pos h]

theorem validUTF8_append_ascii (chunk l : List Nat) (h : ∀ x ∈ chunk, x < 0x80) :
    validUTF8 (chunk ++ l) = validUTF8 l := by
  induction chunk with
  | nil => rfl
  | cons a t ih =>
    rw [List.cons_append, validUTF8_cons_ascii _ _ (h a (List.mem_cons_self _ _)),
      ih (fun x hx => h x (List.mem_cons_of_mem _ hx))]

theorem validUTF8_copied (chunk l : List Nat) (h : IsCopiedSeq chunk) :
    validUTF8 (chunk ++ l) = validUTF8 l := by
  rcases h with ⟨a, b, rfl, h1, h2, h3, h4⟩ | ⟨a, b, c, rfl, h1, h2, h3, h4, h5, h6, h7⟩ |
      ⟨a, b, c, d, rfl, h1, h2, h3, h4, h5, h6, h7, h8⟩
  · simp only [List.cons_append, List.nil_append]
    rw [validUTF8_two a b l ⟨h1, h2⟩]
    simp [isCont, h3, h4]
  · simp only [List.cons_append, List.nil_append]
    rw [validUTF8_three a b c l ⟨h1, h2⟩]
    have hb : isSecondOfThree a b = true := by
      unfold isSecondOfThree isCont
      unfold acceptLo at h3
      unfold acceptHi at h4
      split_ifs at h3 h4 ⊢ <;> simp <;> omega
    simp [isCont, hb, h5, h6]
  · simp only [List.cons_append, List.nil_append]
    rw [validUTF8_four a b c d l ⟨h1, h2⟩]
    have hb : isSecondOfFour a b = true := by
      unfold isSecondOfFour isCont
      unfold acceptLo at h3
      unfold acceptHi at h4
      split_ifs at h3 h4 ⊢ <;> simp <;> omega
    simp [isCont, hb, h5, h6, h7, h8]

theorem escapeScan_valid (esc : Bool) (l : List Nat) (s : List Nat) :
    validUTF8 (escapeScan esc 0 s ++ l) = validUTF8 l := by
  refine escapeScan_ind esc (fun s => validUTF8 (escapeScan esc 0 s ++ l) = validUTF8 l)
    (by simp [escapeScan]) ?_ s
  intro t ht ih
  rw [escapeScan_step esc t ht, List.append_assoc]
  rcases escapeHead_chunk esc t ht with h | h
  · rw [validUTF8_append_ascii _ _ h, ih]
  · rw [validUTF8_copied _ _ h, ih]

theorem isSecondOfThree_accept (a b : Nat) (ha : a ≤ 0xEF)
    (h : isSecondOfThree a b = true) : acceptLo a ≤ b ∧ b ≤ acceptHi a := by
  unfold isSecondOfThree isCont at h
  unfold acceptLo acceptHi
  split_ifs at h ⊢ <;> simp at h <;> omega

theorem isSecondOfFour_accept (a b : Nat) (ha : 0xF0 ≤ a)
    (h : isSecondOfFour a b = true) : acceptLo a ≤ b ∧ b ≤ acceptHi a := by
  unfold isSecondOfFour isCont at h
  unfold acceptLo acceptHi
  split_ifs at h ⊢ <;> simp at h <;> omega

/-- The first rune of a valid UTF-8 string is not a decoding error. -/
theorem validUTF8_decode (a : Nat) (rest : List Nat) (ha : 0x80 ≤ a)
    (hv : validUTF8 (a :: rest) = true) :
    DecodeRuneInString (a :: rest) ≠ (RuneError, 1) := by
  rcases rest with _ | ⟨b, rest⟩
  · exfalso
    unfold validUTF8 at hv
    rw [if_neg (by omega)] at hv
    exact Bool.noConfusion hv
  by_cases h2 : 0xC2 ≤ a ∧ a ≤ 0xDF
  · rw [validUTF8_two a b rest h2] at hv
    simp only [Bool.and_eq_true, isCont, decide_eq_true_eq] at hv
    rw [DecodeRuneInString_two a b rest h2.1 h2.2 hv.1.1 hv.1.2]
    simp
  rcases rest with _ | ⟨c, rest⟩
  · exfalso
    unfold validUTF8 at hv
    rw [if_neg (by omega)] at hv
    dsimp only at hv
    rw [if_neg h2] at hv
    exact Bool.noConfusion hv
  by_cases h3 : 0xE0 ≤ a ∧ a ≤ 0xEF
  · rw [validUTF8_three a b c rest h3] at hv
    simp only [Bool.and_eq_true, isCont, decide_eq_true_eq] at hv
    have hb := isSecondOfThree_accept a b h3.2 hv.1.1
    rw [DecodeRuneInString_three a b c rest h3.1 h3.2 hb.1 hb.2 hv.1.2.1 hv.1.2.2]
    simp
  rcases rest with _ | ⟨d, rest⟩
  · exfalso
    unfold validUTF8 at hv
    rw [if_neg (by omega)] at hv
    dsimp only at hv
    rw [if_neg h2, if_neg h3] at hv
    exact Bool.noConfusion hv
  by_cases h4 : 0xF0 ≤ a ∧ a ≤ 0xF4
  · rw [validUTF8_four a b c d rest h4] at hv
    simp only [Bool.and_eq_true, isCont, decide_eq_true_eq] at hv
    have hb := isSecondOfFour_accept a b h4.1 hv.1.1.1
    rw [DecodeRuneInString_four a b c d rest h4.1 h4.2 hb.1 hb.2 hv.1.1.2.1 hv.1.1.2.2
      hv.1.2.1 hv.1.2.2]
    simp
  · exfalso
    unfold validUTF8 at hv
    rw [if_neg (by omega)] at hv
    dsimp only at hv
    rw [if_neg h2, if_neg h3, if_neg h4] at hv
    exact Bool.noConfusion hv

/-! ### The pieces of a byte string -/

theorem isSecondOfThree_of_accept (a b : Nat) (h1 : 0xE0 ≤ a) (h2 : a ≤ 0xEF)
    (h3 : acceptLo a ≤ b) (h4 : b ≤ acceptHi a) : isSecondOfThree a b = true := by
  unfold isSecondOfThree isCont
  unfold acceptLo at h3
  unfold acceptHi at h4
  split_ifs at h3 h4 ⊢ <;> simp <;> omega

theorem isSecondOfFour_of_accept (a b : Nat) (h1 : 0xF0 ≤ a) (h2 : a ≤ 0xF4)
    (h3 : acceptLo a ≤ b) (h4 : b ≤ acceptHi a) : isSecondOfFour a b = true := by
  unfold isSecondOfFour isCont
  unfold acceptLo at h3
  unfold acceptHi at h4
  split_ifs at h3 h4 ⊢ <;> simp <;> omega

theorem isCont_zero : isCont 0 = false := by decide

theorem isSecondOfThree_zero (a : Nat) : isSecondOfThree a 0 = false := by
  unfold isSecondOfThree isCont
  split_ifs <;> simp

theorem isSecondOfFour_zero (a : Nat) : isSecondOfFour a 0 = false := by
  unfold isSecondOfFour isCont
  split_ifs <;> simp

theorem isCont_iff (b : Nat) : isCont b = true ↔ 0x80 ≤ b ∧ b ≤ 0xBF := by
  unfold isCont
  simp

/-- A well-formed sequence at the head of a string, by its bytes. -/
theorem wellFormedLen_pos (a : Nat) (rest : List Nat) (h : wellFormedLen (a :: rest) ≠ 0) :
    (∃ b r, rest = b :: r ∧ 0xC2 ≤ a ∧ a ≤ 0xDF ∧ 0x80 ≤ b ∧ b ≤ 0xBF ∧
      wellFormedLen (a :: rest) = 2) ∨
    (∃ b c r, rest = b :: c :: r ∧ 0xE0 ≤ a ∧ a ≤ 0xEF ∧ acceptLo a ≤ b ∧ b ≤ acceptHi a ∧
      0x80 ≤ c ∧ c ≤ 0xBF ∧ wellFormedLen (a :: rest) = 3) ∨
    (∃ b c d r, rest = b :: c :: d :: r ∧ 0xF0 ≤ a ∧ a ≤ 0xF4 ∧ acceptLo a ≤ b ∧
      b ≤ acceptHi a ∧ 0x80 ≤ c ∧ c ≤ 0xBF ∧ 0x80 ≤ d ∧ d ≤ 0xBF ∧
      wellFormedLen (a :: rest) = 4) := by
  unfold wellFormedLen at h ⊢
  simp only [List.getD_cons_zero, List.getD_cons_succ] at h ⊢
  by_cases c2 : 0xC2 ≤ a ∧ a ≤ 0xDF ∧ isCont (rest.getD 0 0) = true
  · left
    rcases rest with _ | ⟨b, r⟩
    · simp only [List.getD_nil, isCont_zero] at c2
      exact absurd c2.2.2 (by decide)
    · simp only [List.getD_cons_zero] at c2 ⊢
      have hb := (isCont_iff b).mp c2.2.2
      exact ⟨b, r, rfl, c2.1, c2.2.1, hb.1, hb.2, by rw [if_pos c2]⟩
  · rw [if_neg c2] at h ⊢
    by_cases c3 : 0xE0 ≤ a ∧ a ≤ 0xEF ∧ isSecondOfThree a (rest.getD 0 0) = true ∧
        isCont (rest.getD 1 0) = true
    · right; left
      rcases rest with _ | ⟨b, _ | ⟨c, r⟩⟩
      · simp only [List.getD_nil, isCont_zero] at c3
        exact absurd c3.2.2.2 (by decide)
      · simp only [List.getD_cons_succ, List.getD_nil, isCont_zero] at c3
        exact absurd c3.2.2.2 (by decide)
      · simp only [List.getD_cons_zero, List.getD_cons_succ] at c3 ⊢
        have hb := isSecondOfThree_accept a b c3.2.1 c3.2.2.1
        have hc := (isCont_iff c).mp c3.2.2.2
        exact ⟨b, c, r, rfl, c3.1, c3.2.1, hb.1, hb.2, hc.1, hc.2, by rw [if_pos c3]⟩
    · rw [if_neg c3] at h ⊢
      by_cases c4 : 0xF0 ≤ a ∧ a ≤ 0xF4 ∧ isSecondOfFour a (rest.getD 0 0) = true ∧
          isCont (rest.getD 1 0) = true ∧ isCont (rest.getD 2 0) = true
      · right; right
        rcases rest with _ | ⟨b, _ | ⟨c, _ | ⟨d, r⟩⟩⟩
        · simp only [List.getD_nil, isCont_zero] at c4
          exact absurd c4.2.2.2.2 (by decide)
        · simp only [List.getD_cons_succ, List.getD_nil, isCont_zero] at c4
          exact absurd c4.2.2.2.2 (by decide)
        · simp only [List.getD_cons_succ, List.getD_nil, isCont_zero] at c4
          exact absurd c4.2.2.2.2 (by decide)
        · simp only [List.getD_cons_zero, List.getD_cons_succ] at c4 ⊢
          have hb := isSecondOfFour_accept a b c4.1 c4.2.2.1
          have hc := (isCont_iff c).mp c4.2.2.2.1
          have hd := (isCont_iff d).mp c4.2.2.2.2
          exact ⟨b, c, d, r, rfl, c4.1, c4.2.1, hb.1, hb.2, hc.1, hc.2, hd.1, hd.2,
            by rw [if_pos c4]⟩
      · rw [if_neg c4] at h
        exact absurd rfl h

theorem wellFormedLen_two (a b : Nat) (rest : List Nat) (h1 : 0xC2 ≤ a) (h2 : a ≤ 0xDF)
    (h3 : 0x80 ≤ b) (h4 : b ≤ 0xBF) : wellFormedLen (a :: b :: rest) = 2 := by
  unfold wellFormedLen
  simp only [List.getD_cons_zero, List.getD_cons_succ]
  rw [if_pos ⟨h1, h2, (isCont_iff b).mpr ⟨h3, h4⟩⟩]

theorem wellFormedLen_three (a b c : Nat) (rest : List Nat) (h1 : 0xE0 ≤ a) (h2 : a ≤ 0xEF)
    (h3 : acceptLo a ≤ b) (h4 : b ≤ acceptHi a) (h5 : 0x80 ≤ c) (h6 : c ≤ 0xBF) :
    wellFormedLen (a :: b :: c :: rest) = 3 := by
  unfold wellFormedLen
  simp only [List.getD_cons_zero, List.getD_cons_succ]
  rw [if_neg (by omega), if_pos ⟨h1, h2, isSecondOfThree_of_accept a b h1 h2 h3 h4,
    (isCont_iff c).mpr ⟨h5, h6⟩⟩]

theorem wellFormedLen_four (a b c d : Nat) (rest : List Nat) (h1 : 0xF0 ≤ a) (h2 : a ≤ 0xF4)
    (h3 : acceptLo a ≤ b) (h4 : b ≤ acceptHi a) (h5 : 0x80 ≤ c) (h6 : c ≤ 0xBF)
    (h7 : 0x80 ≤ d) (h8 : d ≤ 0xBF) : wellFormedLen (a :: b :: c :: d :: rest) = 4 := by
  unfold wellFormedLen
  simp only [List.getD_cons_zero, List.getD_cons_succ]
  rw [if_neg (by omega), if_neg (by omega), if_pos ⟨h1, h2,
    isSecondOfFour_of_accept a b h1 h2 h3 h4, (isCont_iff c).mpr ⟨h5, h6⟩,
    (isCont_iff d).mpr ⟨h7, h8⟩⟩]

/-- The decoder of the Go library and the table of RFC 3629 agree at the head
of every string that starts with a byte of 0x80 or more: the decoder returns
an error of width 1 exactly where no well-formed sequence begins, and the
length of the well-formed sequence otherwise. -/
theorem wellFormedLen_decode (a : Nat) (rest : List Nat) (ha : 0x80 ≤ a) :
    (wellFormedLen (a :: rest) = 0 ∧ DecodeRuneInString (a :: rest) = (RuneError, 1)) ∨
    (2 ≤ wellFormedLen (a :: rest) ∧
      (DecodeRuneInString (a :: rest)).2 = wellFormedLen (a :: rest) ∧
      DecodeRuneInString (a :: rest) ≠ (RuneError, 1)) := by
  by_cases hw : wellFormedLen (a :: rest) = 0
  · left
    refine ⟨hw, ?_⟩
    rcases DecodeRuneInString_cases a rest ha with h | ⟨b, r, rfl, h1, h2, h3, h4, h⟩ |
        ⟨b, c, r, rfl, h1, h2, h3, h4, h5, h6, h⟩ |
        ⟨b, c, d, r, rfl, h1, h2, h3, h4, h5, h6, h7, h8, h⟩
    · exact h
    · rw [wellFormedLen_two a b r h1 h2 h3 h4] at hw
      exact absurd hw (by decide)
    · rw [wellFormedLen_three a b c r h1 h2 h3 h4 h5 h6] at hw
      exact absurd hw (by decide)
    · rw [wellFormedLen_four a b c d r h1 h2 h3 h4 h5 h6 h7 h8] at hw
      exact absurd hw (by decide)
  · right
    rcases wellFormedLen_pos a rest hw with ⟨b, r, rfl, h1, h2, h3, h4, hn⟩ |
        ⟨b, c, r, rfl, h1, h2, h3, h4, h5, h6, hn⟩ |
        ⟨b, c, d, r, rfl, h1, h2, h3, h4, h5, h6, h7, h8, hn⟩
    · rw [hn, DecodeRuneInString_two a b r h1 h2 h3 h4]
      exact ⟨by decide, rfl, by simp⟩
    · rw [hn, DecodeRuneInString_three a b c r h1 h2 h3 h4 h5 h6]
      exact ⟨by decide, rfl, by simp⟩
    · rw [hn, DecodeRuneInString_four a b c d r h1 h2 h3 h4 h5 h6 h7 h8]
      exact ⟨by decide, rfl, by simp⟩

theorem pieceLen_ascii (a : Nat) (rest : List Nat) (ha : a < 0x80) :
    pieceLen (a :: rest) = 1 := by
  unfold pieceLen
  rw [List.getD_cons_zero, if_pos ha]

theorem pieceLen_invalid (a : Nat) (rest : List Nat) (ha : 0x80 ≤ a)
    (h : wellFormedLen (a :: rest) = 0) : pieceLen (a :: rest) = 1 := by
  unfold pieceLen
  rw [List.getD_cons_zero, if_neg (by omega), if_pos h]

theorem pieceLen_wellFormed (a : Nat) (rest : List Nat) (ha : 0x80 ≤ a)
    (h : wellFormedLen (a :: rest) ≠ 0) : pieceLen (a :: rest) = wellFormedLen (a :: rest) := by
  unfold pieceLen
  rw [List.getD_cons_zero, if_neg (by omega), if_neg h]

/-- The loop of `encodeString` advances by the length of the first piece. -/
theorem escapeHead_size (esc : Bool) (a : Nat) (rest : List Nat) :
    (escapeHead esc (a :: rest)).2 = pieceLen (a :: rest) := by
  by_cases ha : a < 0x80
  · rw [pieceLen_ascii a rest ha]
    rcases escapeHead_low esc a rest ha with ⟨h, -⟩ | ⟨h, -⟩ | ⟨h, -⟩ | ⟨h, -⟩ | ⟨h, -⟩ |
        ⟨h, -⟩ <;> rw [h]
  · have ha2 : 0x80 ≤ a := by omega
    rcases wellFormedLen_decode a rest ha2 with ⟨hw, hd⟩ | ⟨hw, hd, hne⟩
    · rw [pieceLen_invalid a rest ha2 hw, escapeHead_high_eq esc a rest ha2, hd,
        if_pos ⟨rfl, rfl⟩]
    · rw [pieceLen_wellFormed a rest ha2 (by omega), escapeHead_high_eq esc a rest ha2, ← hd]
      split_ifs <;> rfl

/-- The loop of `encodeString` reads no byte after the first piece. -/
theorem escapeHead_piece (esc : Bool) (a : Nat) (rest : List Nat) :
    escapeHead esc ((a :: rest).take (pieceLen (a :: rest))) = escapeHead esc (a :: rest) := by
  by_cases ha : a < 0x80
  · rw [pieceLen_ascii a rest ha, escapeHead_eq esc (a :: rest) a rest rfl,
      DecodeRuneInString_ascii a rest ha]
    show escapeHead esc [a] = _
    rw [escapeHead_eq esc [a] a [] rfl, DecodeRuneInString_ascii a [] ha]
    rfl
  · have ha2 : 0x80 ≤ a := by omega
    by_cases hw : wellFormedLen (a :: rest) = 0
    · rw [pieceLen_invalid a rest ha2 hw]
      show escapeHead esc [a] = _
      rcases wellFormedLen_decode a rest ha2 with ⟨-, hd⟩ | ⟨h2, -, -⟩
      · have hd1 : DecodeRuneInString [a] = (RuneError, 1) := by
          rcases DecodeRuneInString_cases a [] ha2 with h | ⟨b, r, h, -⟩ | ⟨b, c, r, h, -⟩ |
              ⟨b, c, d, r, h, -⟩
          · exact h
          · exact absurd h (by simp)
          · exact absurd h (by simp)
          · exact absurd h (by simp)
        rw [escapeHead_high_eq esc a rest ha2, escapeHead_high_eq esc a [] ha2, hd, hd1,
          if_pos ⟨rfl, rfl⟩, if_pos ⟨rfl, rfl⟩]
      · omega
    · rw [pieceLen_wellFormed a rest ha2 hw]
      rcases wellFormedLen_pos a rest hw with ⟨b, r, rfl, h1, h2, h3, h4, hn⟩ |
          ⟨b, c, r, rfl, h1, h2, h3, h4, h5, h6, hn⟩ |
          ⟨b, c, d, r, rfl, h1, h2, h3, h4, h5, h6, h7, h8, hn⟩
      · rw [hn]
        show escapeHead esc [a, b] = _
        rw [escapeHead_high_eq esc a (b :: r) ha2, escapeHead_high_eq esc a [b] ha2,
          DecodeRuneInString_two a b r h1 h2 h3 h4, DecodeRuneInString_two a b [] h1 h2 h3 h4]
        rfl
      · rw [hn]
        show escapeHead esc [a, b, c] = _
        rw [escapeHead_high_eq esc a (b :: c :: r) ha2, escapeHead_high_eq esc a [b, c] ha2,
          DecodeRuneInString_three a b c r h1 h2 h3 h4 h5 h6,
          DecodeRuneInString_three a b c [] h1 h2 h3 h4 h5 h6]
        rfl
      · rw [hn]
        show escapeHead esc [a, b, c, d] = _
        rw [escapeHead_high_eq esc a (b :: c :: d :: r) ha2,
          escapeHead_high_eq esc a [b, c, d] ha2,
          DecodeRuneInString_four a b c d r h1 h2 h3 h4 h5 h6 h7 h8,
          DecodeRuneInString_four a b c d [] h1 h2 h3 h4 h5 h6 h7 h8]
        rfl

theorem pieceLen_pos (a : Nat) (rest : List Nat) : 1 ≤ pieceLen (a :: rest) := by
  rw [← escapeHead_size false a rest]
  exact escapeHead_pos false (a :: rest) (by simp)

theorem pieceLen_le (a : Nat) (rest : List Nat) : pieceLen (a :: rest) ≤ (a :: rest).length := by
  rw [← escapeHead_size false a rest]
  exact escapeHead_le false (a :: rest) (by simp)

theorem pieces_skip : ∀ (t : List Nat) (k : Nat), pieces k t = pieces 0 (t.drop k)
  | [], k => by simp [pieces]
  | c :: rest, 0 => by simp
  | c :: rest, k + 1 => by
    simp only [pieces, List.drop_succ_cons]
    exact pieces_skip rest k

theorem pieces_step (a : Nat) (rest : List Nat) :
    pieces 0 (a :: rest) = (a :: rest).take (pieceLen (a :: rest)) ::
      pieces 0 ((a :: rest).drop (pieceLen (a :: rest))) := by
  have h := pieceLen_pos a rest
  rw [pieces, pieces_skip rest]
  congr 2
  obtain ⟨k, hk⟩ : ∃ k, pieceLen (a :: rest) = k + 1 := ⟨_, (Nat.sub_add_cancel h).symm⟩
  rw [hk]
  simp

/-- Induction along the pieces of a string. -/
theorem pieces_ind (Q : List Nat → Prop) (h0 : Q [])
    (hstep : ∀ a rest, Q ((a :: rest).drop (pieceLen (a :: rest))) → Q (a :: rest)) :
    ∀ s, Q s := by
  refine escapeScan_ind false Q h0 ?_
  intro t ht ih
  rcases t with _ | ⟨a, rest⟩
  · exact absurd rfl ht
  · rw [escapeHead_size false a rest] at ih
    exact hstep a rest ih

theorem pieces_flatten (s : List Nat) : (pieces 0 s).flatten = s := by
  refine pieces_ind (fun s => (pieces 0 s).flatten = s) (by simp [pieces]) ?_ s
  intro a rest ih
  rw [pieces_step, List.flatten_cons, ih, List.take_append_drop]

theorem escapeScan_piece (esc : Bool) (a : Nat) (rest : List Nat) :
    escapeScan esc 0 ((a :: rest).take (pieceLen (a :: rest))) = (escapeHead esc (a :: rest)).1 := by
  have hpos := pieceLen_pos a rest
  have hne : (a :: rest).take (pieceLen (a :: rest)) ≠ [] := by
    obtain ⟨k, hk⟩ : ∃ k, pieceLen (a :: rest) = k + 1 := ⟨_, (Nat.sub_add_cancel hpos).symm⟩
    rw [hk]
    simp
  rw [escapeScan_step esc _ hne, escapeHead_piece esc a rest, escapeHead_size esc a rest,
    List.drop_take, Nat.sub_self, List.take_zero]
  simp [escapeScan]

/-- The bytes written for a string are the bytes written for its pieces, one
piece after the other. -/
theorem escapeScan_pieces (esc : Bool) (s : List Nat) :
    escapeScan esc 0 s = ((pieces 0 s).map fun p => escapeScan esc 0 p).flatten := by
  refine pieces_ind (fun s => escapeScan esc 0 s
    = ((pieces 0 s).map fun p => escapeScan esc 0 p).flatten) (by simp [pieces, escapeScan]) ?_ s
  intro a rest ih
  rw [pieces_step, List.map_cons, List.flatten_cons, ← ih, escapeScan_piece esc a rest,
    escapeScan_step esc (a :: rest) (by simp), escapeHead_size esc a rest]

theorem pieces_forall (P : List Nat → Prop)
    (h : ∀ a rest, P ((a :: rest).take (pieceLen (a :: rest)))) :
    ∀ s, ∀ p ∈ pieces 0 s, P p := by
  refine pieces_ind (fun s => ∀ p ∈ pieces 0 s, P p) (by simp [pieces]) ?_
  intro a rest ih p hp
  rw [pieces_step, List.mem_cons] at hp
  rcases hp with rfl | hp
  · exact h a rest
  · exact ih p hp

/-- A well-formed sequence at the head of a string is valid UTF-8. -/
theorem validUTF8_wellFormed (a : Nat) (rest : List Nat) (h : wellFormedLen (a :: rest) ≠ 0) :
    validUTF8 ((a :: rest).take (wellFormedLen (a :: rest))) = true ∧
    wellFormedLen ((a :: rest).take (wellFormedLen (a :: rest))) = wellFormedLen (a :: rest) ∧
    ((a :: rest).take (wellFormedLen (a :: rest))).length = wellFormedLen (a :: rest) ∧
    2 ≤ wellFormedLen (a :: rest) ∧ wellFormedLen (a :: rest) ≤ 4 ∧ 0x80 ≤ a := by
  rcases wellFormedLen_pos a rest h with ⟨b, r, rfl, h1, h2, h3, h4, hn⟩ |
      ⟨b, c, r, rfl, h1, h2, h3, h4, h5, h6, hn⟩ |
      ⟨b, c, d, r, rfl, h1, h2, h3, h4, h5, h6, h7, h8, hn⟩
  · rw [hn]
    refine ⟨?_, wellFormedLen_two a b [] h1 h2 h3 h4, rfl, by decide, by decide, by omega⟩
    show validUTF8 [a, b] = true
    rw [validUTF8_two a b [] ⟨h1, h2⟩, (isCont_iff b).mpr ⟨h3, h4⟩]
    rfl
  · rw [hn]
    refine ⟨?_, wellFormedLen_three a b c [] h1 h2 h3 h4 h5 h6, rfl, by decide, by decide,
      by omega⟩
    show validUTF8 [a, b, c] = true
    rw [validUTF8_three a b c [] ⟨h1, h2⟩, isSecondOfThree_of_accept a b h1 h2 h3 h4,
      (isCont_iff c).mpr ⟨h5, h6⟩]
    rfl
  · rw [hn]
    refine ⟨?_, wellFormedLen_four a b c d [] h1 h2 h3 h4 h5 h6 h7 h8, rfl, by decide,
      by decide, by omega⟩
    show validUTF8 [a, b, c, d] = true
    rw [validUTF8_four a b c d [] ⟨h1, h2⟩, isSecondOfFour_of_accept a b h1 h2 h3 h4,
      (isCont_iff c).mpr ⟨h5, h6⟩, (isCont_iff d).mpr ⟨h7, h8⟩]
    rfl

/-- A string that starts with a byte of 0x80 or more and has a prefix that is
valid UTF-8 starts with a well-formed sequence. -/
theorem wellFormedLen_of_valid (a : Nat) (l q : List Nat) (ha : 0x80 ≤ a)
    (hv : validUTF8 (a :: l) = true) : wellFormedLen (a :: (l ++ q)) ≠ 0 := by
  rcases l with _ | ⟨b, l⟩
  · exfalso
    unfold validUTF8 at hv
    rw [if_neg (by omega)] at hv
    exact Bool.noConfusion hv
  by_cases h2 : 0xC2 ≤ a ∧ a ≤ 0xDF
  · rw [validUTF8_two a b l h2] at hv
    simp only [Bool.and_eq_true, isCont, decide_eq_true_eq] at hv
    rw [List.cons_append, wellFormedLen_two a b _ h2.1 h2.2 hv.1.1 hv.1.2]
    decide
  rcases l with _ | ⟨c, l⟩
  · exfalso
    unfold validUTF8 at hv
    rw [if_neg (by omega)] at hv
    dsimp only at hv
    rw [if_neg h2] at hv
    exact Bool.noConfusion hv
  by_cases h3 : 0xE0 ≤ a ∧ a ≤ 0xEF
  · rw [validUTF8_three a b c l h3] at hv
    simp only [Bool.and_eq_true, isCont, decide_eq_true_eq] at hv
    have hb := isSecondOfThree_accept a b h3.2 hv.1.1
    rw [List.cons_append, List.cons_append,
      wellFormedLen_three a b c _ h3.1 h3.2 hb.1 hb.2 hv.1.2.1 hv.1.2.2]
    decide
  rcases l with _ | ⟨d, l⟩
  · exfalso
    unfold validUTF8 at hv
    rw [if_neg (by omega)] at hv
    dsimp only at hv
    rw [if_neg h2, if_neg h3] at hv
    exact Bool.noConfusion hv
  by_cases h4 : 0xF0 ≤ a ∧ a ≤ 0xF4
  · rw [validUTF8_four a b c d l h4] at hv
    simp only [Bool.and_eq_true, isCont, decide_eq_true_eq] at hv
    have hb := isSecondOfFour_accept a b h4.1 hv.1.1.1
    rw [List.cons_append, List.cons_append, List.cons_append,
      wellFormedLen_four a b c d _ h4.1 h4.2 hb.1 hb.2 hv.1.1.2.1 hv.1.1.2.2
        hv.1.2.1 hv.1.2.2]
    decide
  · exfalso
    unfold validUTF8 at hv
    rw [if_neg (by omega)] at hv
    dsimp only at hv
    rw [if_neg h2, if_neg h3, if_neg h4] at hv
    exact Bool.noConfusion hv

/-- No well-formed sequence begins at the head of a string exactly when no
prefix of the string, the empty one apart, is valid UTF-8. -/
theorem wellFormedLen_eq_zero_iff (a : Nat) (rest : List Nat) (ha : 0x80 ≤ a) :
    wellFormedLen (a :: rest) = 0 ↔
      ∀ p r, p ≠ [] → p ++ r = a :: rest → validUTF8 p = false := by
  constructor
  · intro hw p r hp hpr
    rcases p with _ | ⟨x, l⟩
    · exact absurd rfl hp
    rw [List.cons_append, List.cons.injEq] at hpr
    obtain ⟨rfl, rfl⟩ := hpr
    by_contra hv
    exact wellFormedLen_of_valid x l r ha (by simpa using hv) hw
  · intro h
    by_contra hw
    have hv := (validUTF8_wellFormed a rest hw).1
    have hlen := (validUTF8_wellFormed a rest hw).2.2.1
    have hne : (a :: rest).take (wellFormedLen (a :: rest)) ≠ [] := by
      intro he
      rw [he] at hlen
      exact hw hlen.symm
    rw [h _ ((a :: rest).drop (wellFormedLen (a :: rest))) hne (List.take_append_drop _ _)] at hv
    exact Bool.noConfusion hv

/-- The first piece of a string that starts with a byte of 0x80 or more is
that byte alone exactly when no well-formed sequence begins there. -/
theorem pieces_head_invalid (a : Nat) (rest : List Nat) (ha : 0x80 ≤ a) :
    (pieces 0 (a :: rest)).head? = some [a] ↔ wellFormedLen (a :: rest) = 0 := by
  rw [pieces_step, List.head?_cons, Option.some.injEq]
  constructor
  · intro h
    by_contra hw
    have h2 := validUTF8_wellFormed a rest hw
    rw [pieceLen_wellFormed a rest ha hw] at h
    have hlen := h2.2.2.1
    rw [h] at hlen
    have := h2.2.2.2.1
    rw [← hlen] at this
    simp at this
  · intro hw
    rw [pieceLen_invalid a rest ha hw]
    rfl

/-- The three kinds of piece, and what `encodeString` writes for a byte that
is not valid and for a well-formed sequence. -/
theorem piece_cases (esc : Bool) (a : Nat) (rest : List Nat) :
    (a < 0x80 ∧ (a :: rest).take (pieceLen (a :: rest)) = [a]) ∨
    (0x80 ≤ a ∧ wellFormedLen (a :: rest) = 0 ∧
      (a :: rest).take (pieceLen (a :: rest)) = [a] ∧
      escapeScan esc 0 [a] = str "\\ufffd") ∨
    (0x80 ≤ a ∧ 2 ≤ pieceLen (a :: rest) ∧ pieceLen (a :: rest) ≤ 4 ∧
      ((a :: rest).take (pieceLen (a :: rest))).length = pieceLen (a :: rest) ∧
      wellFormedLen ((a :: rest).take (pieceLen (a :: rest))) = pieceLen (a :: rest) ∧
      validUTF8 ((a :: rest).take (pieceLen (a :: rest))) = true ∧
      ((a :: rest).take (pieceLen (a :: rest)) ≠ [0xE2, 0x80, 0xA8] →
        (a :: rest).take (pieceLen (a :: rest)) ≠ [0xE2, 0x80, 0xA9] →
        escapeScan esc 0 ((a :: rest).take (pieceLen (a :: rest)))
          = (a :: rest).take (pieceLen (a :: rest)))) := by
  by_cases ha : a < 0x80
  · left
    rw [pieceLen_ascii a rest ha]
    exact ⟨ha, rfl⟩
  have ha2 : 0x80 ≤ a := by omega
  right
  by_cases hw : wellFormedLen (a :: rest) = 0
  · left
    have hp := escapeScan_piece esc a rest
    rw [pieceLen_invalid a rest ha2 hw] at hp ⊢
    refine ⟨ha2, hw, rfl, ?_⟩
    rcases wellFormedLen_decode a rest ha2 with ⟨-, hd⟩ | ⟨h2, -, -⟩
    · have hp2 : escapeScan esc 0 [a] = (escapeHead esc (a :: rest)).1 := hp
      rw [hp2, escapeHead_high_eq esc a rest ha2, hd, if_pos ⟨rfl, rfl⟩]
    · omega
  · right
    have h2 := validUTF8_wellFormed a rest hw
    have hs := escapeHead_size esc a rest
    have hp := escapeScan_piece esc a rest
    rw [pieceLen_wellFormed a rest ha2 hw] at hs hp ⊢
    refine ⟨ha2, h2.2.2.2.1, h2.2.2.2.2.1, h2.2.2.1, h2.2.1, h2.1, ?_⟩
    intro n1 n2
    rw [hp]
    rcases escapeHead_high esc a rest ha2 with ⟨hd, -⟩ | ⟨r, hr, h⟩ | ⟨r, hr, h⟩ |
        ⟨chunk, r, hr, -, -, h⟩
    · rcases wellFormedLen_decode a rest ha2 with ⟨h0, -⟩ | ⟨-, -, hne⟩
      · exact absurd h0 hw
      · exact absurd hd hne
    · exfalso
      rw [h] at hs
      rw [← hs, hr] at n1
      exact n1 rfl
    · exfalso
      rw [h] at hs
      rw [← hs, hr] at n2
      exact n2 rfl
    · rw [h] at hs ⊢
      rw [← hs, hr, List.take_left]

/-- C4: for every byte string, also one that is not valid UTF-8, the bytes
`encodeString` appends are valid UTF-8. A byte at the head of the remaining
input that does not begin a valid sequence is written as the escape `\ufffd`,
and the scan goes on after that one byte; a valid sequence of two or more
bytes other than U+2028 and U+2029 is copied unchanged. This holds at every
position of the string and not only at its head: the string is the
concatenation of its pieces, read from the left, where a piece is an ASCII
byte, a byte of 0x80 or more at which no prefix of the remaining input is
valid UTF-8, or a well-formed sequence of two to four bytes; what
`encodeString` writes between the quotes is the concatenation, in the same
order, of what it writes for each piece; for each piece that is a byte that is
not valid it writes the six characters `\ufffd`, once, and each piece that is
a well-formed sequence other than U+2028 and U+2029 it writes unchanged. -/
theorem encodeString_valid_utf8 (b : List Nat) (esc : Bool) :
    (∀ s, ∃ out, encodeString b s esc = .ok (b ++ out) ∧ validUTF8 out = true) ∧
    (∀ c q, DecodeRuneInString (c :: q) = (RuneError, 1) →
      encodeStringBody (c :: q) esc = str "\\ufffd" ++ encodeStringBody q esc) ∧
    (∀ t r n, DecodeRuneInString t = (r, n) → 2 ≤ n → r ≠ 0x2028 → r ≠ 0x2029 →
      encodeStringBody t esc = t.take n ++ encodeStringBody (t.drop n) esc) ∧
    (∀ s, (pieces 0 s).flatten = s ∧
      encodeString b s esc = .ok (b ++ [0x22]
        ++ ((pieces 0 s).map fun p => encodeStringBody p esc).flatten ++ [0x22])) ∧
    (∀ c q, ∃ p r, p ≠ [] ∧ c :: q = p ++ r ∧ pieces 0 (c :: q) = p :: pieces 0 r ∧
      (c < 0x80 → p = [c]) ∧
      (0x80 ≤ c → (p = [c] ↔
        ∀ p1 r1, p1 ≠ [] → p1 ++ r1 = c :: q → validUTF8 p1 = false)) ∧
      (0x80 ≤ c → p ≠ [c] → p.length = wellFormedLen (c :: q))) ∧
    (∀ s, ∀ p ∈ pieces 0 s,
      (∃ c, p = [c] ∧ c < 0x80) ∨
      (∃ c, p = [c] ∧ 0x80 ≤ c ∧ encodeStringBody p esc = str "\\ufffd") ∨
      (2 ≤ p.length ∧ p.length ≤ 4 ∧ wellFormedLen p = p.length ∧ validUTF8 p = true ∧
        (p ≠ [0xE2, 0x80, 0xA8] → p ≠ [0xE2, 0x80, 0xA9] → encodeStringBody p esc = p))) := by
  refine ⟨?_, ?_, ?_, ?_, ?_, ?_⟩
  · intro s
    refine ⟨[0x22] ++ escapeScan esc 0 s ++ [0x22], ?_, ?_⟩
    · rw [encodeString_eq]
      simp only [List.append_assoc]
    · rw [List.append_assoc, validUTF8_append_ascii [0x22] _ (by decide), escapeScan_valid]
      decide
  · intro c q h
    have hc : 0x80 ≤ c := by
      by_contra hlt
      rw [DecodeRuneInString_ascii c q (by omega)] at h
      simp only [Prod.mk.injEq] at h
      have := h.1
      unfold RuneError at this
      omega
    rw [encodeStringBody_eq, encodeStringBody_eq, escapeScan_step esc (c :: q) (by simp),
      escapeHead_high_eq esc c q hc, h, if_pos ⟨rfl, rfl⟩]
    rfl
  · intro t r n h hn h1 h2
    rcases t with _ | ⟨c, q⟩
    · simp only [DecodeRuneInString, Prod.mk.injEq] at h
      omega
    have hc : 0x80 ≤ c := by
      by_contra hlt
      rw [DecodeRuneInString_ascii c q (by omega)] at h
      simp only [Prod.mk.injEq] at h
      omega
    rw [encodeStringBody_eq, encodeStringBody_eq, escapeScan_step esc (c :: q) (by simp),
      escapeHead_high_eq esc c q hc, h]
    dsimp only
    rw [if_neg (by omega), if_neg (by omega)]
  · intro s
    refine ⟨pieces_flatten s, ?_⟩
    have hf : (fun p => encodeStringBody p esc) = fun p => escapeScan esc 0 p :=
      funext fun p => encodeStringBody_eq p esc
    rw [encodeString_eq, hf, ← escapeScan_pieces]
  · intro c q
    have hpos := pieceLen_pos c q
    refine ⟨(c :: q).take (pieceLen (c :: q)), (c :: q).drop (pieceLen (c :: q)), ?_,
      (List.take_append_drop _ _).symm, pieces_step c q, ?_, ?_, ?_⟩
    · obtain ⟨k, hk⟩ : ∃ k, pieceLen (c :: q) = k + 1 := ⟨_, (Nat.sub_add_cancel hpos).symm⟩
      rw [hk]
      simp
    · intro hc
      rw [pieceLen_ascii c q hc]
      rfl
    · intro hc
      rw [← wellFormedLen_eq_zero_iff c q hc, ← pieces_head_invalid c q hc, pieces_step,
        List.head?_cons, Option.some.injEq]
    · intro hc hne
      have hw : wellFormedLen (c :: q) ≠ 0 := by
        intro h0
        apply hne
        rw [pieceLen_invalid c q hc h0]
        rfl
      rw [pieceLen_wellFormed c q hc hw]
      exact (validUTF8_wellFormed c q hw).2.2.1
  · intro s
    refine pieces_forall _ ?_ s
    intro a rest
    rcases piece_cases esc a rest with ⟨h1, h2⟩ | ⟨h1, -, h2, h3⟩ | ⟨-, h1, h2, h3, h4, h5, h6⟩
    · exact Or.inl ⟨a, h2, h1⟩
    · refine Or.inr (Or.inl ⟨a, h2, h1, ?_⟩)
      rw [h2, encodeStringBody_eq, h3]
    · refine Or.inr (Or.inr ⟨by omega, by omega, by rw [h4, h3], h5, ?_⟩)
      rw [encodeStringBody_eq]
      exact h6

/-- C4, on the string `61 80 C3 A9`: its pieces are `61`, `80` and `C3 A9`,
and `encodeString` writes `"a\ufffdé"`: the byte `80`, which stands after an
ASCII byte and begins no valid sequence, is written as `\ufffd`, and the
two-byte sequence after it is copied. On the string `80 C3 A9` the same holds
at the head of the input. -/
theorem encodeString_valid_utf8_witness :
    pieces 0 [0x61, 0x80, 0xC3, 0xA9] = [[0x61], [0x80], [0xC3, 0xA9]] ∧
      ((pieces 0 [0x61, 0x80, 0xC3, 0xA9]).map fun p => encodeStringBody p false).flatten
        = 0x61 :: str "\\ufffd" ++ [0xC3, 0xA9] ∧
      encodeString [] [0x61, 0x80, 0xC3, 0xA9] false
        = .ok ([] ++ [0x22] ++ ((pieces 0 [0x61, 0x80, 0xC3, 0xA9]).map
            fun p => encodeStringBody p false).flatten ++ [0x22]) ∧
      ((∃ c, [0x80] = [c] ∧ c < 0x80) ∨
        (∃ c, [0x80] = [c] ∧ 0x80 ≤ c ∧ encodeStringBody [0x80] false = str "\\ufffd") ∨
        (2 ≤ [0x80].length ∧ [0x80].length ≤ 4 ∧ wellFormedLen [0x80] = [0x80].length ∧
          validUTF8 [0x80] = true ∧
          ([0x80] ≠ [0xE2, 0x80, 0xA8] → [0x80] ≠ [0xE2, 0x80, 0xA9] →
            encodeStringBody [0x80] false = [0x80]))) ∧
      DecodeRuneInString (0x80 :: [0xC3, 0xA9]) = (RuneError, 1) ∧
      DecodeRuneInString [0xC3, 0xA9] = (0xE9, 2) ∧
      encodeStringBody (0x80 :: [0xC3, 0xA9]) false
        = str "\\ufffd" ++ encodeStringBody [0xC3, 0xA9] false ∧
      encodeStringBody [0xC3, 0xA9] false
        = [0xC3, 0xA9].take 2 ++ encodeStringBody ([0xC3, 0xA9].drop 2) false :=
  ⟨by decide, by decide,
    ((encodeString_valid_utf8 [] false).2.2.2.1 [0x61, 0x80, 0xC3, 0xA9]).2,
    (encodeString_valid_utf8 [] false).2.2.2.2.2 [0x61, 0x80, 0xC3, 0xA9] [0x80] (by decide),
    by decide, by decide,
    (encodeString_valid_utf8 [] false).2.1 0x80 [0xC3, 0xA9] (by decide),
    (encodeString_valid_utf8 [] false).2.2.1 [0xC3, 0xA9] 0xE9 2 (by decide) (by decide)
      (by decide) (by decide)⟩

theorem readStringBody_copy (c : Nat) (l tail : List Nat) (h1 : 0x20 ≤ c) (h2 : c ≠ 0x22)
    (h3 : c ≠ 0x5c) (h : readStringBody l = some tail) :
    readStringBody (c :: l) = some (c :: tail) := by
  conv_lhs => unfold readStringBody
  rw [if_neg h2, if_neg h3, if_neg (by omega), h]

theorem readStringBody_copy_list (chunk l tail : List Nat) (hc : ∀ x ∈ chunk, 0x80 ≤ x)
    (h : readStringBody l = some tail) :
    readStringBody (chunk ++ l) = some (chunk ++ tail) := by
  induction chunk with
  | nil => exact h
  | cons a t ih =>
    have ha := hc a (List.mem_cons_self _ _)
    rw [List.cons_append, List.cons_append]
    exact readStringBody_copy a _ _ (by omega) (by omega) (by omega)
      (ih (fun x hx => hc x (List.mem_cons_of_mem _ hx)))

theorem readStringBody_simple (e x : Nat) (l tail : List Nat) (he : simpleEscape e = some x)
    (h : readStringBody l = some tail) :
    readStringBody (0x5c :: e :: l) = some (x :: tail) := by
  have hne : e ≠ 0x75 := by
    intro h75
    rw [h75] at he
    have hn : simpleEscape 0x75 = none := by decide
    rw [hn] at he
    exact Option.noConfusion he
  conv_lhs => unfold readStringBody
  rw [if_neg (by decide), if_pos rfl]
  dsimp only
  rw [if_neg hne, he, h]

theorem readStringBody_unicode (h1 h2 h3 h4 d1 d2 d3 d4 : Nat) (l tail : List Nat)
    (e1 : hexValue h1 = some d1) (e2 : hexValue h2 = some d2) (e3 : hexValue h3 = some d3)
    (e4 : hexValue h4 = some d4)
    (hs : ¬ (0xD800 ≤ d1 * 4096 + d2 * 256 + d3 * 16 + d4 ∧
      d1 * 4096 + d2 * 256 + d3 * 16 + d4 ≤ 0xDFFF))
    (h : readStringBody l = some tail) :
    readStringBody (0x5c :: 0x75 :: h1 :: h2 :: h3 :: h4 :: l)
      = some (utf8OfRune (d1 * 4096 + d2 * 256 + d3 * 16 + d4) ++ tail) := by
  conv_lhs => unfold readStringBody
  rw [if_neg (by decide), if_pos rfl]
  dsimp only
  rw [if_pos rfl, e1, e2, e3, e4, h]
  dsimp only
  rw [if_neg hs]

/-- Reading back what the scan writes for a valid UTF-8 string gives the
string. -/
theorem readStringBody_escapeScan (esc : Bool) (s : List Nat) :
    validUTF8 s = true → readStringBody (escapeScan esc 0 s ++ [0x22]) = some s := by
  refine escapeScan_ind esc
    (fun s => validUTF8 s = true → readStringBody (escapeScan esc 0 s ++ [0x22]) = some s)
    ?_ ?_ s
  · intro _
    rfl
  intro t ht ih hv
  rw [escapeScan_step esc t ht, List.append_assoc]
  rcases t with _ | ⟨a, rest⟩
  · exact absurd rfl ht
  by_cases ha : a < 0x80
  · have hv' : validUTF8 rest = true := by rwa [validUTF8_cons_ascii a rest ha] at hv
    have hn : (escapeHead esc (a :: rest)).2 = 1 := by
      rcases escapeHead_low esc a rest ha with ⟨h, -⟩ | ⟨h, -⟩ | ⟨h, -⟩ | ⟨h, -⟩ | ⟨h, -⟩ |
        ⟨h, -⟩ <;> rw [h]
    rw [hn] at ih ⊢
    have ih' := ih hv'
    simp only [List.drop_succ_cons, List.drop_zero] at ih' ⊢
    rcases escapeHead_low esc a rest ha with ⟨h, h1, h2, h3, -⟩ | ⟨h, h1⟩ | ⟨h, h1⟩ | ⟨h, h1⟩ |
        ⟨h, h1⟩ | ⟨h, h1⟩ <;> rw [h]
    · exact readStringBody_copy a _ _ h1 h3 h2 ih'
    · refine readStringBody_simple a a _ _ ?_ ih'
      rcases h1 with rfl | rfl <;> decide
    · subst h1
      exact readStringBody_simple 0x6e 0x0a _ _ (by decide) ih'
    · subst h1
      exact readStringBody_simple 0x72 0x0d _ _ (by decide) ih'
    · subst h1
      exact readStringBody_simple 0x74 0x09 _ _ (by decide) ih'
    · have e3 := hexValue_hex (a / 16) (by omega)
      have e4 := hexValue_hex (a % 16) (by omega)
      have hr := readStringBody_unicode 0x30 0x30 _ _ 0 0 _ _ _ _ (by decide) (by decide)
        e3 e4 (by omega) ih'
      have hval : 0 * 4096 + 0 * 256 + a / 16 * 16 + a % 16 = a := by omega
      rw [hval] at hr
      have hu : utf8OfRune a = [a] := by unfold utf8OfRune; rw [if_pos ha]
      rw [hu] at hr
      exact hr
  · rcases escapeHead_high esc a rest (by omega) with ⟨hd, -⟩ | ⟨r, hr, h⟩ | ⟨r, hr, h⟩ |
        ⟨chunk, r, hr, hc, -, h⟩
    · exact absurd hd (validUTF8_decode a rest (by omega) hv)
    · rw [h, hr] at ih ⊢
      rw [hr, validUTF8_three 0xE2 0x80 0xA8 r (by decide)] at hv
      have hv' : validUTF8 r = true := by simpa [isSecondOfThree, isCont] using hv
      have ih' := ih hv'
      simp only [List.drop_succ_cons, List.drop_zero] at ih' ⊢
      exact readStringBody_unicode 0x32 0x30 0x32 0x38 2 0 2 8 _ _ (by decide) (by decide)
        (by decide) (by decide) (by decide) ih'
    · rw [h, hr] at ih ⊢
      rw [hr, validUTF8_three 0xE2 0x80 0xA9 r (by decide)] at hv
      have hv' : validUTF8 r = true := by simpa [isSecondOfThree, isCont] using hv
      have ih' := ih hv'
      simp only [List.drop_succ_cons, List.drop_zero] at ih' ⊢
      exact readStringBody_unicode 0x32 0x30 0x32 0x39 2 0 2 9 _ _ (by decide) (by decide)
        (by decide) (by decide) (by decide) ih'
    · rw [h, hr] at ih ⊢
      rw [hr, validUTF8_copied chunk r hc] at hv
      dsimp only at ih ⊢
      rw [List.drop_left] at ih ⊢
      have ih' := ih hv
      exact readStringBody_copy_list chunk _ _ (IsCopiedSeq_high chunk hc) ih'

theorem digitsValue_append (l1 l2 : List Nat) : ∀ acc v, digitsValue l1 acc = some v →
    digitsValue (l1 ++ l2) acc = digitsValue l2 v := by
  induction l1 with
  | nil =>
    intro acc v h
    simp only [digitsValue, Option.some.injEq] at h
    subst h
    rfl
  | cons c t ih =>
    intro acc v h
    rw [digitsValue] at h
    rw [List.cons_append, digitsValue]
    split_ifs at h ⊢ with hc
    exact ih _ _ h

/-- The digits written by `decimalDigits`: they read back as `n`, and the
first is not `0` unless `n` is zero. -/
theorem decimalDigits_spec : ∀ (fuel n : Nat) (ds : List Nat), n < fuel →
    ∃ pre c rest, decimalDigits fuel n ds = pre ++ ds ∧ pre = c :: rest ∧
      0x30 ≤ c ∧ c ≤ 0x39 ∧ (c = 0x30 → rest = []) ∧ digitsValue pre 0 = some n := by
  intro fuel
  induction fuel with
  | zero => intro n ds h; omega
  | succ fuel ih =>
    intro n ds h
    rw [decimalDigits]
    by_cases h0 : n / 10 = 0
    · rw [if_pos h0]
      refine ⟨[0x30 + n % 10], 0x30 + n % 10, [], rfl, rfl, by omega, by omega, fun _ => rfl, ?_⟩
      rw [digitsValue, if_pos (by omega), digitsValue]
      congr 1
      omega
    · rw [if_neg h0]
      obtain ⟨pre, c, rest, h1, h2, h3, h4, h5, h6⟩ :=
        ih (n / 10) ((0x30 + n % 10) :: ds) (by omega)
      refine ⟨pre ++ [0x30 + n % 10], c, rest ++ [0x30 + n % 10], ?_, ?_, h3, h4, ?_, ?_⟩
      · rw [h1]; simp
      · rw [h2]; rfl
      · intro hc
        exfalso
        have hrest := h5 hc
        rw [h2, hrest, hc] at h6
        simp only [digitsValue] at h6
        simp at h6
        omega
      · rw [digitsValue_append pre _ 0 (n / 10) h6, digitsValue, if_pos (by omega), digitsValue]
        congr 1
        omega

theorem readNat_FormatUint (n : Nat) : ∃ c rest, FormatUint n = c :: rest ∧
    0x30 ≤ c ∧ c ≤ 0x39 ∧ readNat (FormatUint n) = some n := by
  obtain ⟨pre, c, rest, h1, h2, h3, h4, h5, h6⟩ := decimalDigits_spec (n + 1) n [] (by omega)
  rw [List.append_nil] at h1
  refine ⟨c, rest, by rw [FormatUint, h1, h2], h3, h4, ?_⟩
  rw [FormatUint, h1, h2, readNat]
  rw [if_neg (fun h => h.2 (h5 h.1)), ← h2, h6]

theorem readJSON_digits (c : Nat) (rest : List Nat) (h1 : 0x30 ≤ c) (h2 : c ≤ 0x39) :
    readJSON (c :: rest) = (readNat (c :: rest)).map fun n => .number (Int.ofNat n) := by
  have hn : c :: rest ≠ str "null" := by
    intro h
    simp only [str, String.toList, List.map, List.cons.injEq] at h
    have := h.1
    change c = 110 at this
    omega
  have ht : c :: rest ≠ str "true" := by
    intro h
    simp only [str, String.toList, List.map, List.cons.injEq] at h
    have := h.1
    change c = 116 at this
    omega
  have hf : c :: rest ≠ str "false" := by
    intro h
    simp only [str, String.toList, List.map, List.cons.injEq] at h
    have := h.1
    change c = 102 at this
    omega
  rw [readJSON, if_neg (by omega), if_neg (by omega), if_neg hn, if_neg ht, if_neg hf]

theorem readJSON_FormatInt (v : Int) : readJSON (FormatInt v) = some (.number v) := by
  unfold FormatInt
  by_cases hv : v < 0
  · rw [if_pos hv]
    obtain ⟨c, rest, h1, h2, h3, h4⟩ := readNat_FormatUint (-v).toNat
    rw [readJSON, if_neg (by decide), if_pos rfl, h4]
    simp only [Option.map_some', Option.some.injEq, JSONValue.number.injEq, Int.ofNat_eq_coe]
    omega
  · rw [if_neg hv]
    obtain ⟨c, rest, h1, h2, h3, h4⟩ := readNat_FormatUint v.toNat
    rw [h1, readJSON_digits c rest h2 h3, ← h1, h4]
    simp only [Option.map_some', Option.some.injEq, JSONValue.number.injEq, Int.ofNat_eq_coe]
    omega

/-- C2: for a value that is nil, an int64, a bool or a string that is valid
UTF-8, and every buffer `b`, `monoEncoder.encodeAny` returns no error, keeps
`b`, and the bytes it appends read back as the same JSON scalar (null, the
same integer, the same boolean, the same string). -/
theorem monoEncoder_encodeAny_roundtrip (b : List Nat) (v : Value) (j : JSONValue)
    (hj : v.toJSON = some j) (hs : ∀ s, v = .string s → validUTF8 s = true) :
    ∃ out, monoEncoder.encodeAny b v = .ok (b ++ out) ∧ readJSON out = some j := by
  cases v with
  | nil =>
    simp only [Value.toJSON, Option.some.injEq] at hj
    subst hj
    exact ⟨str "null", rfl, by decide⟩
  | int64 n =>
    simp only [Value.toJSON, Option.some.injEq] at hj
    subst hj
    exact ⟨FormatInt n, rfl, readJSON_FormatInt n⟩
  | bool x =>
    simp only [Value.toJSON, Option.some.injEq] at hj
    subst hj
    refine ⟨FormatBool x, rfl, ?_⟩
    cases x <;> decide
  | string s =>
    simp only [Value.toJSON, Option.some.injEq] at hj
    subst hj
    refine ⟨[0x22] ++ escapeScan false 0 s ++ [0x22], ?_, ?_⟩
    · simp only [monoEncoder.encodeAny, encodeString_eq, List.append_assoc]
    · rw [List.append_assoc, List.singleton_append, readJSON, if_pos rfl,
        readStringBody_escapeScan false s (hs s rfl)]
      rfl
  | float64 f => exact Option.noConfusion hj
  | bytes x => exact Option.noConfusion hj
  | time f => exact Option.noConfusion hj
  | other t => exact Option.noConfusion hj

/-- C2, on the string `é"` followed by a line feed, on the integer
`-42`, and on nil. -/
theorem monoEncoder_encodeAny_roundtrip_witness :
    (Value.string [0xC3, 0xA9, 0x22, 0x0a]).toJSON = some (.string [0xC3, 0xA9, 0x22, 0x0a]) ∧
      validUTF8 [0xC3, 0xA9, 0x22, 0x0a] = true ∧
      (∃ out, monoEncoder.encodeAny [0x5b] (.string [0xC3, 0xA9, 0x22, 0x0a])
          = .ok ([0x5b] ++ out) ∧
        readJSON out = some (.string [0xC3, 0xA9, 0x22, 0x0a])) ∧
      (∃ out, monoEncoder.encodeAny [0x5b] (.int64 (-42)) = .ok ([0x5b] ++ out) ∧
        readJSON out = some (.number (-42))) ∧
      (∃ out, monoEncoder.encodeAny [0x5b] .nil = .ok ([0x5b] ++ out) ∧
        readJSON out = some .null) :=
  ⟨rfl, by decide,
    monoEncoder_encodeAny_roundtrip [0x5b] (.string [0xC3, 0xA9, 0x22, 0x0a])
      (.string [0xC3, 0xA9, 0x22, 0x0a]) rfl
      (fun s h => by cases h; decide),
    monoEncoder_encodeAny_roundtrip [0x5b] (.int64 (-42)) (.number (-42)) rfl
      (fun s h => Value.noConfusion h),
    monoEncoder_encodeAny_roundtrip [0x5b] .nil .null rfl (fun s h => Value.noConfusion h)⟩

theorem base64Encode_length : ∀ v : List Nat, (base64Encode v).length = EncodedLen v.length
  | [] => rfl
  | [_] => by simp [base64Encode, EncodedLen]
  | [_, _] => by simp [base64Encode, EncodedLen]
  | _ :: _ :: _ :: rest => by
    have ih := base64Encode_length rest
    simp only [base64Encode, List.length_append, List.length_cons, List.length_nil, ih,
      EncodedLen]
    omega

/-- Writing a quote at `k`, `enc` after it and a quote after `enc` into an
array that is long enough leaves the first `k` elements as they were. -/
theorem quote_frame (A M R enc : List Nat) (x y q : Nat) (hm : enc.length = M.length) :
    ((overwrite ((A ++ x :: (M ++ y :: R)).set A.length q) (A.length + 1) enc).set
        (A.length + M.length + 1) q).take (A.length + M.length + 2)
      = A ++ q :: (enc ++ [q]) := by
  have h1 : (A ++ x :: (M ++ y :: R)).set A.length q = A ++ q :: (M ++ y :: R) := by
    rw [List.set_append_right _ _ (le_refl _)]
    simp
  have h2 : overwrite (A ++ q :: (M ++ y :: R)) (A.length + 1) enc
      = A ++ q :: (enc ++ y :: R) := by
    unfold overwrite
    have e1 : (A ++ q :: (M ++ y :: R)) = (A ++ [q]) ++ (M ++ y :: R) := by simp
    have l1 : (A ++ [q]).length = A.length + 1 := by simp
    rw [e1, ← l1, List.take_left, hm]
    have e2 : (A ++ [q]) ++ (M ++ y :: R) = (A ++ [q] ++ M) ++ y :: R := by simp
    have l2 : (A ++ [q] ++ M).length = (A ++ [q]).length + M.length := by simp; omega
    rw [e2, ← l2, List.drop_left]
    simp
  have h3 : (A ++ q :: (enc ++ y :: R)).set (A.length + M.length + 1) q
      = A ++ q :: (enc ++ q :: R) := by
    have e1 : A ++ q :: (enc ++ y :: R) = (A ++ q :: enc) ++ y :: R := by simp
    have l1 : (A ++ q :: enc).length = A.length + M.length + 1 := by simp [hm]; omega
    rw [e1, ← l1, List.set_append_right _ _ (le_refl _)]
    simp
  have h4 : (A ++ q :: (enc ++ q :: R)).take (A.length + M.length + 2)
      = A ++ q :: (enc ++ [q]) := by
    have e1 : A ++ q :: (enc ++ q :: R) = (A ++ q :: (enc ++ [q])) ++ R := by simp
    have l1 : (A ++ q :: (enc ++ [q])).length = A.length + M.length + 2 := by simp [hm]; omega
    rw [e1, ← l1, List.take_left]
  rw [h1, h2, h3, h4]

theorem split_for_quotes (arr : List Nat) (k m : Nat) (h : k + m + 2 ≤ arr.length) :
    ∃ M R x y, arr = arr.take k ++ x :: (M ++ y :: R) ∧ M.length = m := by
  have hk : k < arr.length := by omega
  have hd : (arr.drop (k + 1)).length = arr.length - (k + 1) := List.length_drop _ _
  have hm : m < (arr.drop (k + 1)).length := by omega
  refine ⟨(arr.drop (k + 1)).take m, (arr.drop (k + 1)).drop (m + 1), arr[k],
    (arr.drop (k + 1))[m], ?_, ?_⟩
  · have e1 : arr = arr.take k ++ arr.drop k := (List.take_append_drop k arr).symm
    have e2 : arr.drop k = arr[k] :: arr.drop (k + 1) := List.drop_eq_getElem_cons hk
    have e3 : arr.drop (k + 1) = (arr.drop (k + 1)).take m ++ (arr.drop (k + 1)).drop m :=
      (List.take_append_drop m _).symm
    have e4 : (arr.drop (k + 1)).drop m
        = (arr.drop (k + 1))[m] :: (arr.drop (k + 1)).drop (m + 1) :=
      List.drop_eq_getElem_cons hm
    rw [← e4, ← e3, ← e2, ← e1]
  · rw [List.length_take]
    omega

theorem Slice.toList_length (b : Slice) (hb : b.len ≤ b.cap) : b.toList.length = b.len := by
  unfold Slice.toList Slice.cap at *
  rw [List.length_take]
  omega

theorem quoted_toList (b : Slice) (enc arr : List Nat) (hb : b.len ≤ b.cap)
    (hlen : b.len + enc.length + 2 ≤ arr.length) (htake : arr.take b.len = b.toList) :
    (Slice.mk ((overwrite (arr.set b.len 0x22) (b.len + 1) enc).set
        (b.len + (enc.length + 2) - 1) 0x22) (b.len + (enc.length + 2))).toList
      = b.toList ++ [0x22] ++ enc ++ [0x22] := by
  obtain ⟨M, R, x, y, harr, hM⟩ := split_for_quotes arr b.len enc.length hlen
  have hA : (arr.take b.len).length = b.len := by
    rw [htake]
    exact Slice.toList_length b hb
  have h := quote_frame (arr.take b.len) M R enc x y 0x22 hM.symm
  rw [← harr, hA, hM] at h
  unfold Slice.toList
  dsimp only
  have e1 : b.len + (enc.length + 2) - 1 = b.len + enc.length + 1 := by omega
  have e2 : b.len + (enc.length + 2) = b.len + enc.length + 2 := by omega
  rw [e1, e2, h, htake]
  simp [Slice.toList]

theorem Slice.append_toList (b : Slice) (x : List Nat) (hb : b.len ≤ b.cap) :
    (b.append x).toList = b.toList ++ x := by
  unfold Slice.append
  by_cases h : b.len + x.length ≤ b.cap
  · rw [if_pos h]
    unfold Slice.toList overwrite
    dsimp only
    have l1 : (b.arr.take b.len ++ x).length = b.len + x.length := by
      rw [List.length_append, List.length_take]
      unfold Slice.cap at hb
      omega
    rw [← l1, List.take_left]
  · rw [if_neg h]
    have l1 : (b.toList ++ x).length = b.len + x.length := by
      rw [List.length_append, Slice.toList_length b hb]
    unfold Slice.toList at l1 ⊢
    dsimp only
    rw [← l1, List.take_length]

/-- C5: for every buffer `b` and every byte slice `v` that is not nil,
`encodeBytes` returns `b` followed by a quote, the padded base64 encoding of
`v` and a quote: `4 * ceil(len(v) / 3) + 2` bytes are appended and the bytes
of `b` are kept, whether `b` has spare capacity or not. For a nil `v` the
four bytes `null` are appended. -/
theorem encodeBytes_spec (b : Slice) (hb : b.len ≤ b.cap) :
    (∀ v, ∃ r, encodeBytes b (some v) = .ok r ∧
      r.toList = b.toList ++ [0x22] ++ base64Encode v ++ [0x22] ∧
      r.len = b.len + (4 * ((v.length + 2) / 3) + 2) ∧
      (base64Encode v).length = 4 * ((v.length + 2) / 3)) ∧
    (∃ r, encodeBytes b none = .ok r ∧ r.toList = b.toList ++ str "null") := by
  refine ⟨?_, ?_⟩
  · intro v
    have hlen := base64Encode_length v
    have hE : EncodedLen v.length = 4 * ((v.length + 2) / 3) := by
      unfold EncodedLen
      omega
    unfold encodeBytes
    dsimp only
    by_cases hav : b.cap - b.len < EncodedLen v.length + 2
    · rw [if_pos hav]
      dsimp only
      refine ⟨_, rfl, ?_, ?_, ?_⟩
      · rw [← hlen]
        have hnew : overwrite (List.replicate (b.cap + (EncodedLen v.length + 2
            - (b.cap - b.len))) 0) 0 b.toList
            = b.toList ++ List.replicate ((base64Encode v).length + 2) 0 := by
          unfold overwrite
          rw [List.take_zero, List.nil_append, Nat.zero_add, List.drop_replicate,
            Slice.toList_length b hb, hlen]
          congr 2
          omega
        rw [hlen] at hnew ⊢
        rw [hnew, ← hlen]
        apply quoted_toList b (base64Encode v) _ hb
        · rw [List.length_append, List.length_replicate, Slice.toList_length b hb]
          omega
        · have := Slice.toList_length b hb
          rw [← this, List.take_left]
      · rw [hE]
      · rw [hlen, hE]
    · rw [if_neg hav]
      refine ⟨_, rfl, ?_, ?_, ?_⟩
      · rw [← hlen]
        apply quoted_toList b (base64Encode v) _ hb
        · unfold Slice.cap at hav hb
          omega
        · rfl
      · rw [hE]
      · rw [hlen, hE]
  · exact ⟨_, rfl, Slice.append_toList b _ hb⟩

/-- C5, on the two bytes `Ma` appended to a buffer of two bytes, once with
eight spare bytes of capacity and once with none, and on a nil slice. -/
theorem encodeBytes_spec_witness :
    (2 ≤ Slice.cap ⟨[1, 2, 3, 4, 5, 6, 7, 8, 9, 10], 2⟩ ∧
      ∃ r, encodeBytes ⟨[1, 2, 3, 4, 5, 6, 7, 8, 9, 10], 2⟩ (some (str "Ma")) = .ok r ∧
        r.toList = [1, 2] ++ [0x22] ++ str "TWE=" ++ [0x22] ∧ r.len = 2 + (4 * 1 + 2)) ∧
    (2 ≤ Slice.cap ⟨[1, 2], 2⟩ ∧
      ∃ r, encodeBytes ⟨[1, 2], 2⟩ (some (str "Ma")) = .ok r ∧
        r.toList = [1, 2] ++ [0x22] ++ str "TWE=" ++ [0x22] ∧ r.len = 2 + (4 * 1 + 2)) ∧
    (∃ r, encodeBytes ⟨[1, 2], 2⟩ none = .ok r ∧ r.toList = [1, 2] ++ str "null") := by
  refine ⟨⟨by decide, ?_⟩, ⟨by decide, ?_⟩, ?_⟩
  · obtain ⟨r, h1, h2, h3, -⟩ :=
      (encodeBytes_spec ⟨[1, 2, 3, 4, 5, 6, 7, 8, 9, 10], 2⟩ (by decide)).1 (str "Ma")
    exact ⟨r, h1, h2, h3⟩
  · obtain ⟨r, h1, h2, h3, -⟩ := (encodeBytes_spec ⟨[1, 2], 2⟩ (by decide)).1 (str "Ma")
    exact ⟨r, h1, h2, h3⟩
  · exact (encodeBytes_spec ⟨[1, 2], 2⟩ (by decide)).2

/-- C6 (failing input): for the record `(1, nil)` the writer gives the row
`| 1 | 1 |`: the cell of the nil field holds the text of the field before it,
where the claim, and the comment in the code, want the empty cell of
`| 1 |  |`. -/
theorem writeRecord_nil_after_value :
    rowOf [⟨str "a", .Int⟩, ⟨str "b", .Text⟩] [.int64 1, .nil] = some (str "| 1 | 1 |\n") ∧
      rowOf [⟨str "a", .Int⟩, ⟨str "b", .Text⟩] [.int64 1, .nil] ≠ some (str "| 1 |  |\n") ∧
      (((NewRecordWriter []).Open [⟨str "a", .Int⟩, ⟨str "b", .Text⟩]).writeRecord
          [.int64 1, .nil]).map (fun w => w.buf)
        = some (some (str "| a | b |\n| --- | --- |\n| 1 | 1 |\n")) := by
  decide

theorem openHeaderLoop_eq (n : Nat) : ∀ (l : List FieldMeta) (i : Nat) (buf : List Nat),
    i + l.length = n →
    openHeaderLoop n l i buf
      = buf ++ (l.flatMap fun f => str "| " ++ f.Name ++ str " ")
          ++ (if l = [] then [] else str "|\n") := by
  intro l
  induction l with
  | nil => intro i buf _; simp [openHeaderLoop]
  | cons f rest ih =>
    intro i buf h
    rw [List.length_cons] at h
    rw [openHeaderLoop]
    by_cases hr : rest = []
    · subst hr
      rw [List.length_nil] at h
      rw [if_pos (by omega)]
      simp [openHeaderLoop]
    · have hl : 0 < rest.length := List.length_pos.mpr hr
      rw [if_neg (by omega), ih (i + 1) _ (by omega), if_neg hr, if_neg (by simp)]
      simp

theorem openSeparatorLoop_eq (n : Nat) : ∀ (l : List FieldMeta) (i : Nat) (buf : List Nat),
    i + l.length = n →
    openSeparatorLoop n l i buf
      = buf ++ (l.flatMap fun _ => str "| --- ") ++ (if l = [] then [] else str "|\n") := by
  intro l
  induction l with
  | nil => intro i buf _; simp [openSeparatorLoop]
  | cons f rest ih =>
    intro i buf h
    rw [List.length_cons] at h
    rw [openSeparatorLoop]
    by_cases hr : rest = []
    · subst hr
      rw [List.length_nil] at h
      rw [if_pos (by omega)]
      simp [openSeparatorLoop]
    · have hl : 0 < rest.length := List.length_pos.mpr hr
      rw [if_neg (by omega), ih (i + 1) _ (by omega), if_neg hr, if_neg (by simp)]
      simp

theorem Open_buf_eq (out : List Nat) (recMeta : List FieldMeta) :
    ((NewRecordWriter out).Open recMeta).buf = some (headerLines recMeta) := by
  unfold RecordWriter.Open
  dsimp only
  rw [openHeaderLoop_eq _ _ 0 [] (by omega), openSeparatorLoop_eq _ _ 0 _ (by omega)]
  unfold headerLines
  by_cases h : recMeta = []
  · subst h
    rfl
  · rw [if_neg h, if_neg h]
    rfl

/-- C7: after `Open(recMeta)` the buffer holds the header line, each name
between `| ` and a space in the order of `recMeta`, closed by `|` and a
newline, then the separator line, one `| --- ` per field closed likewise;
with no field the buffer is empty. Nothing is written to the stream. -/
theorem Open_spec (out : List Nat) (recMeta : List FieldMeta) :
    ((NewRecordWriter out).Open recMeta).buf = some (headerLines recMeta) ∧
      ((NewRecordWriter out).Open recMeta).out = out ∧
      ((NewRecordWriter out).Open recMeta).recMeta = recMeta ∧
      headerLines [] = [] ∧
      ∀ f rest, headerLines (f :: rest)
        = str "| " ++ f.Name ++ str " " ++ (rest.flatMap fun g => str "| " ++ g.Name ++ str " ")
          ++ str "|\n" ++ (List.replicate (rest.length + 1) (str "| --- ")).flatten
          ++ str "|\n" := by
  refine ⟨Open_buf_eq out recMeta, rfl, rfl, rfl, ?_⟩
  intro f rest
  unfold headerLines
  rw [if_neg (by simp)]
  have hrep : ∀ l : List FieldMeta, (l.flatMap fun _ => str "| --- ")
      = (List.replicate l.length (str "| --- ")).flatten := by
    intro l
    induction l with
    | nil => rfl
    | cons a t ih => simp [List.replicate_succ, ih]
  rw [hrep]
  simp

theorem writeRecordLoop_cons (recMeta : List FieldMeta) (field : Value) (rest : List Value)
    (i : Nat) (s buf : List Nat) :
    writeRecordLoop recMeta (field :: rest) i s buf =
      match cellText recMeta i s field with
      | none => none
      | some s' => writeRecordLoop recMeta rest (i + 1) s' (buf ++ str "| " ++ (s' ++ str " ")) := by
  cases field with
  | time format =>
    simp only [writeRecordLoop, cellText]
  | nil => simp only [writeRecordLoop, cellText]
  | int64 v => simp only [writeRecordLoop, cellText]
  | float64 v => simp only [writeRecordLoop, cellText]
  | bool v => simp only [writeRecordLoop, cellText]
  | bytes v => simp only [writeRecordLoop, cellText]
  | string v => simp only [writeRecordLoop, cellText]
  | other v => simp only [writeRecordLoop, cellText]

theorem writeRecordLoop_append (recMeta : List FieldMeta) :
    ∀ (rec : List Value) (i : Nat) (s buf : List Nat),
      writeRecordLoop recMeta rec i s buf
        = (writeRecordLoop recMeta rec i s []).map fun row => buf ++ row := by
  intro rec
  induction rec with
  | nil => intro i s buf; simp [writeRecordLoop]
  | cons field rest ih =>
    intro i s buf
    rw [writeRecordLoop_cons, writeRecordLoop_cons]
    cases cellText recMeta i s field with
    | none => rfl
    | some s' =>
      dsimp only
      rw [ih (i + 1) s' (buf ++ str "| " ++ (s' ++ str " ")),
        ih (i + 1) s' ([] ++ str "| " ++ (s' ++ str " "))]
      cases writeRecordLoop recMeta rest (i + 1) s' [] <;> simp

theorem cellText_total (recMeta : List FieldMeta) (i : Nat) (s : List Nat) (field : Value)
    (hi : i < recMeta.length) : ∃ s', cellText recMeta i s field = some s' := by
  cases field with
  | time format =>
    simp only [cellText, List.get?_eq_get hi]
    cases (recMeta.get ⟨i, hi⟩).Kind <;> exact ⟨_, rfl⟩
  | nil => exact ⟨_, rfl⟩
  | int64 v => exact ⟨_, rfl⟩
  | float64 v => exact ⟨_, rfl⟩
  | bool v => exact ⟨_, rfl⟩
  | bytes v => exact ⟨_, rfl⟩
  | string v => exact ⟨_, rfl⟩
  | other v => exact ⟨_, rfl⟩

/-- The loop of `writeRecord` does not fail on a record that is not longer
than `recMeta`. -/
theorem writeRecordLoop_total (recMeta : List FieldMeta) :
    ∀ (rec : List Value) (i : Nat) (s buf : List Nat), i + rec.length ≤ recMeta.length →
      ∃ row, writeRecordLoop recMeta rec i s buf = some row := by
  intro rec
  induction rec with
  | nil => intro i s buf _; exact ⟨buf, rfl⟩
  | cons field rest ih =>
    intro i s buf h
    rw [List.length_cons] at h
    obtain ⟨s', hs'⟩ := cellText_total recMeta i s field (by omega)
    rw [writeRecordLoop_cons, hs']
    exact ih (i + 1) _ _ (by omega)

theorem rowOf_total (recMeta : List FieldMeta) (rec : List Value)
    (h : rec.length ≤ recMeta.length) : ∃ row, rowOf recMeta rec = some row := by
  obtain ⟨row, hrow⟩ := writeRecordLoop_total recMeta rec 0 [] [] (by omega)
  exact ⟨row ++ str "|\n", by rw [rowOf, hrow]⟩

theorem rowsOf_total (recMeta : List FieldMeta) : ∀ (recs : List (List Value)),
    (∀ rec ∈ recs, rec.length ≤ recMeta.length) → ∃ rows, rowsOf recMeta recs = some rows := by
  intro recs
  induction recs with
  | nil => intro _; exact ⟨[], rfl⟩
  | cons rec rest ih =>
    intro h
    obtain ⟨row, hrow⟩ := rowOf_total recMeta rec (h rec (List.mem_cons_self _ _))
    obtain ⟨rows, hrows⟩ := ih (fun r hr => h r (List.mem_cons_of_mem _ hr))
    exact ⟨row ++ rows, by rw [rowsOf, hrow, hrows]⟩

theorem rowsOf_append (recMeta : List FieldMeta) : ∀ (l1 l2 : List (List Value)) (r1 r2 : List Nat),
    rowsOf recMeta l1 = some r1 → rowsOf recMeta l2 = some r2 →
    rowsOf recMeta (l1 ++ l2) = some (r1 ++ r2) := by
  intro l1
  induction l1 with
  | nil =>
    intro l2 r1 r2 h1 h2
    simp only [rowsOf, Option.some.injEq] at h1
    subst h1
    simpa using h2
  | cons rec rest ih =>
    intro l2 r1 r2 h1 h2
    rw [rowsOf] at h1
    rw [List.cons_append, rowsOf]
    cases hrow : rowOf recMeta rec with
    | none => rw [hrow] at h1; exact Option.noConfusion h1
    | some row =>
      cases hrows : rowsOf recMeta rest with
      | none => rw [hrow, hrows] at h1; exact Option.noConfusion h1
      | some rows =>
        rw [hrow, hrows] at h1
        simp only [Option.some.injEq] at h1
        subst h1
        rw [ih l2 rows r2 hrows h2]
        simp

theorem writeRecord_eq (w : RecordWriter) (buf row : List Nat) (rec : List Value)
    (hb : w.buf = some buf) (hrow : rowOf w.recMeta rec = some row) :
    w.writeRecord rec = some { w with buf := some (buf ++ row) } := by
  unfold rowOf at hrow
  unfold RecordWriter.writeRecord
  rw [hb]
  dsimp only
  rw [writeRecordLoop_append]
  cases hl : writeRecordLoop w.recMeta rec 0 [] [] with
  | none => rw [hl] at hrow; exact Option.noConfusion hrow
  | some r =>
    rw [hl] at hrow
    simp only [Option.some.injEq] at hrow
    subst hrow
    simp

theorem WriteRecords_eq : ∀ (recs : List (List Value)) (w : RecordWriter) (buf rows : List Nat),
    w.buf = some buf → rowsOf w.recMeta recs = some rows →
    w.WriteRecords recs = some { w with buf := some (buf ++ rows) } := by
  intro recs
  induction recs with
  | nil =>
    intro w buf rows hb hrows
    simp only [rowsOf, Option.some.injEq] at hrows
    subst hrows
    rw [RecordWriter.WriteRecords, List.append_nil, ← hb]
  | cons rec rest ih =>
    intro w buf rows hb hrows
    rw [rowsOf] at hrows
    cases hrow : rowOf w.recMeta rec with
    | none => rw [hrow] at hrows; exact Option.noConfusion hrows
    | some row =>
      cases hrest : rowsOf w.recMeta rest with
      | none => rw [hrow, hrest] at hrows; exact Option.noConfusion hrows
      | some rows' =>
        rw [hrow, hrest] at hrows
        simp only [Option.some.injEq] at hrows
        subst hrows
        rw [RecordWriter.WriteRecords, writeRecord_eq w buf row rec hb hrow]
        dsimp only
        rw [ih { w with buf := some (buf ++ row) } (buf ++ row) rows' rfl hrest]
        simp

/-- On a stream that takes every write in full and without error, `WriteTo`
delivers the whole buffer and leaves it empty. -/
theorem WriteTo_accepting (sink : Sink)
    (hsink : ∀ out p, sink.Write out p = (p.length, false)) (buf out : List Nat) :
    WriteTo sink buf out = some ([], out ++ buf, none) := by
  unfold WriteTo
  by_cases h : buf.length > 0
  · rw [if_pos h]
    simp only [hsink, gt_iff_lt, Nat.lt_irrefl, if_false, Bool.false_eq_true, ne_eq,
      not_true_eq_false, List.take_length]
  · rw [if_neg h]
    have hnil : buf = [] := List.length_eq_zero.mp (by omega)
    rw [hnil, List.append_nil]

theorem Flush_accepting (sink : Sink)
    (hsink : ∀ out p, sink.Write out p = (p.length, false)) (w : RecordWriter)
    (buf : List Nat) (hb : w.buf = some buf) :
    w.Flush sink = some ({ w with out := w.out ++ buf, buf := some [] }, none) := by
  unfold RecordWriter.Flush
  rw [hb]
  simp only [WriteTo_accepting sink hsink]

/-- What a sequence of calls does to an open writer on a stream that takes
every write: no call returns an error, and the bytes delivered and the bytes
buffered, taken together, grow by the rows of the records passed. -/
theorem run_eq (sink : Sink) (hsink : ∀ out p, sink.Write out p = (p.length, false)) :
    ∀ (calls : List WriterCall) (w : RecordWriter) (buf rows : List Nat),
    w.buf = some buf → rowsOf w.recMeta (recordsOf calls) = some rows →
    ∃ w' buf', w.run sink calls = some (w', []) ∧ w'.recMeta = w.recMeta ∧
      w'.buf = some buf' ∧ w'.out ++ buf' = w.out ++ buf ++ rows := by
  intro calls
  induction calls with
  | nil =>
    intro w buf rows hb hrows
    simp only [recordsOf, rowsOf, Option.some.injEq] at hrows
    subst hrows
    exact ⟨w, buf, rfl, rfl, hb, by simp⟩
  | cons call rest ih =>
    intro w buf rows hb hrows
    cases call with
    | Flush =>
      rw [recordsOf] at hrows
      rw [RecordWriter.run, Flush_accepting sink hsink w buf hb]
      dsimp only
      obtain ⟨w', buf', h1, h2, h3, h4⟩ :=
        ih { w with out := w.out ++ buf, buf := some [] } [] rows rfl hrows
      refine ⟨w', buf', ?_, h2, h3, by rw [h4]; simp⟩
      rw [h1]
      rfl
    | WriteRecords recs =>
      rw [recordsOf] at hrows
      have hsplit : ∃ r1 r2, rowsOf w.recMeta recs = some r1 ∧
          rowsOf w.recMeta (recordsOf rest) = some r2 ∧ rows = r1 ++ r2 := by
        clear ih hb
        induction recs generalizing rows with
        | nil => exact ⟨[], rows, rfl, by simpa using hrows, by simp⟩
        | cons rec recs ihr =>
          rw [List.cons_append, rowsOf] at hrows
          cases hrow : rowOf w.recMeta rec with
          | none => rw [hrow] at hrows; exact Option.noConfusion hrows
          | some row =>
            cases hrs : rowsOf w.recMeta (recs ++ recordsOf rest) with
            | none => rw [hrow, hrs] at hrows; exact Option.noConfusion hrows
            | some rs =>
              rw [hrow, hrs] at hrows
              simp only [Option.some.injEq] at hrows
              obtain ⟨r1, r2, e1, e2, e3⟩ := ihr rs hrs
              refine ⟨row ++ r1, r2, by rw [rowsOf, hrow, e1], e2, ?_⟩
              rw [← hrows, e3, List.append_assoc]
      obtain ⟨r1, r2, e1, e2, e3⟩ := hsplit
      rw [RecordWriter.run, WriteRecords_eq recs w buf r1 hb e1]
      dsimp only
      obtain ⟨w', buf', h1, h2, h3, h4⟩ :=
        ih { w with buf := some (buf ++ r1) } (buf ++ r1) r2 rfl e2
      exact ⟨w', buf', h1, h2, h3, by rw [h4, e3]; simp⟩

/-- C8 (as stated, refuted): after `Open` with the field `a` and `WriteRecords`
of the record `1`, on a stream whose `Write` returns an error and takes
nothing, `Close` returns the error, the stream holds nothing and the three
lines stay in the buffer; on a stream whose `Write` takes one byte at each
call, `Close` returns `io.ErrShortWrite`, the stream holds one byte and the
rest stays in the buffer. And `WriteRecords` of a record with a time value,
after `Open` without fields, fails at run time (`w.recMeta[0]` is out of
range). -/
theorem Close_on_failing_stream :
    ((((NewRecordWriter []).Open [⟨str "a", .Int⟩]).run ⟨fun _ _ => (0, true)⟩
        [.WriteRecords [[.int64 1]]]).bind fun r => r.1.Close ⟨fun _ _ => (0, true)⟩).map
        (fun r => (r.1.out, r.1.buf, r.2))
      = some ([], some (str "| a |\n| --- |\n| 1 |\n"), some .failed) ∧
    ((((NewRecordWriter []).Open [⟨str "a", .Int⟩]).run ⟨fun _ _ => (1, false)⟩
        [.WriteRecords [[.int64 1]]]).bind fun r => r.1.Close ⟨fun _ _ => (1, false)⟩).map
        (fun r => (r.1.out, r.1.buf, r.2))
      = some (str "|", some (str " a |\n| --- |\n| 1 |\n"), some .short) ∧
    (((NewRecordWriter []).Open []).run ⟨fun _ p => (p.length, false)⟩
        [.WriteRecords [[.time fun _ => str "12:00"]]]).isNone = true := by
  decide

/-- C8 (amended): on an output stream that takes every write in full and
without error, after `Open` and any sequence of `WriteRecords` and `Flush`
calls whose records have no more fields than `recMeta`, no call returns an
error, and `Close` returns no error, writes every byte still buffered to the
stream and leaves the buffer empty. The stream then holds the header followed
by one row per record, in the order the records were passed, however they
were split into batches and wherever `Flush` was called. -/
theorem Close_delivers_all (out : List Nat) (recMeta : List FieldMeta)
    (calls : List WriterCall) (sink : Sink)
    (hsink : ∀ out p, sink.Write out p = (p.length, false))
    (h : ∀ rec ∈ recordsOf calls, rec.length ≤ recMeta.length) :
    ∃ w buffered closed rows,
      ((NewRecordWriter out).Open recMeta).run sink calls = some (w, []) ∧
      w.buf = some buffered ∧
      w.Close sink = some (closed, none) ∧
      closed.out = w.out ++ buffered ∧
      closed.buf = some [] ∧
      rowsOf recMeta (recordsOf calls) = some rows ∧
      closed.out = out ++ headerLines recMeta ++ rows := by
  obtain ⟨rows, hrows⟩ := rowsOf_total recMeta (recordsOf calls) h
  obtain ⟨w, buffered, h1, h2, h3, h4⟩ := run_eq sink hsink calls
    ((NewRecordWriter out).Open recMeta) (headerLines recMeta) rows (Open_buf_eq out recMeta)
    hrows
  refine ⟨w, buffered, { w with out := w.out ++ buffered, buf := some [] }, rows, h1, h3, ?_,
    rfl, rfl, hrows, ?_⟩
  · rw [RecordWriter.Close, Flush_accepting sink hsink w buffered h3]
  · dsimp only
    rw [h4]
    rfl

/-- C8 (amended), on a stream that takes every write, with two records passed
in one batch with a flush after it, and the same records passed in two
batches with a flush between them: the stream holds the same bytes. -/
theorem Close_delivers_all_witness :
    (∀ rec ∈ recordsOf [.WriteRecords [[.int64 1], [.nil]], .Flush],
        rec.length ≤ [(⟨str "a", .Int⟩ : FieldMeta)].length) ∧
      (∃ closed, (((NewRecordWriter []).Open [⟨str "a", .Int⟩]).run
            ⟨fun _ p => (p.length, false)⟩
            [.WriteRecords [[.int64 1], [.nil]], .Flush]).bind
              (fun r => r.1.Close ⟨fun _ p => (p.length, false)⟩) = some (closed, none) ∧
          closed.out = str "| a |\n| --- |\n| 1 |\n|  |\n" ∧ closed.buf = some []) ∧
      (∃ closed, (((NewRecordWriter []).Open [⟨str "a", .Int⟩]).run
            ⟨fun _ p => (p.length, false)⟩
            [.WriteRecords [[.int64 1]], .Flush, .WriteRecords [[.nil]]]).bind
              (fun r => r.1.Close ⟨fun _ p => (p.length, false)⟩) = some (closed, none) ∧
          closed.out = str "| a |\n| --- |\n| 1 |\n|  |\n" ∧ closed.buf = some []) := by
  have hlen1 : ∀ rec ∈ recordsOf [.WriteRecords [[.int64 1], [.nil]], .Flush],
      rec.length ≤ [(⟨str "a", .Int⟩ : FieldMeta)].length := by
    intro rec hrec
    simp only [recordsOf, List.append_nil, List.mem_cons, List.mem_singleton,
      List.not_mem_nil, or_false] at hrec
    rcases hrec with rfl | rfl <;> decide
  have hlen2 : ∀ rec ∈ recordsOf [.WriteRecords [[.int64 1]], .Flush, .WriteRecords [[.nil]]],
      rec.length ≤ [(⟨str "a", .Int⟩ : FieldMeta)].length := by
    intro rec hrec
    simp only [recordsOf, List.append_nil, List.mem_cons, List.mem_singleton,
      List.not_mem_nil, or_false, List.singleton_append] at hrec
    rcases hrec with rfl | rfl <;> decide
  refine ⟨hlen1, ?_, ?_⟩
  · obtain ⟨w, buffered, closed, rows, h1, h2, h3, h4, h5, h6, h7⟩ :=
      Close_delivers_all [] [⟨str "a", .Int⟩] _ ⟨fun _ p => (p.length, false)⟩
        (fun _ _ => rfl) hlen1
    refine ⟨closed, by rw [h1]; exact h3, ?_, h5⟩
    have hr : rowsOf [⟨str "a", .Int⟩] (recordsOf [.WriteRecords [[.int64 1], [.nil]], .Flush])
        = some (str "| 1 |\n|  |\n") := by decide
    rw [hr] at h6
    simp only [Option.some.injEq] at h6
    rw [h7, ← h6]
    decide
  · obtain ⟨w, buffered, closed, rows, h1, h2, h3, h4, h5, h6, h7⟩ :=
      Close_delivers_all [] [⟨str "a", .Int⟩] _ ⟨fun _ p => (p.length, false)⟩
        (fun _ _ => rfl) hlen2
    refine ⟨closed, by rw [h1]; exact h3, ?_, h5⟩
    have hr : rowsOf [⟨str "a", .Int⟩]
        (recordsOf [.WriteRecords [[.int64 1]], .Flush, .WriteRecords [[.nil]]])
        = some (str "| 1 |\n|  |\n") := by decide
    rw [hr] at h6
    simp only [Option.some.injEq] at h6
    rw [h7, ← h6]
    decide

theorem dropWhile_append_last {α : Type} (p : α → Bool) (c : α) (hc : p c = false) :
    ∀ l : List α, ∃ x, (l ++ [c]).dropWhile p = x ++ [c]
  | [] => ⟨[], by simp [List.dropWhile, hc]⟩
  | a :: l => by
    obtain ⟨x, hx⟩ := dropWhile_append_last p c hc l
    rw [List.cons_append, List.dropWhile_cons]
    by_cases ha : p a = true
    · rw [if_pos ha]
      exact ⟨x, hx⟩
    · rw [if_neg ha]
      exact ⟨a :: l, rfl⟩

/-- The first character of a trimmed string is not white space. -/
theorem TrimSpace_head (s : List Char) (c : Char) (t : List Char) (h : TrimSpace s = c :: t) :
    IsSpace c = false := by
  unfold TrimSpace at h
  have h1 : ((s.dropWhile IsSpace).reverse.dropWhile IsSpace) = t.reverse ++ [c] := by
    have := congrArg List.reverse h
    rw [List.reverse_reverse] at this
    rw [this]
    simp
  obtain ⟨pre, hpre⟩ := List.dropWhile_suffix IsSpace (l := (s.dropWhile IsSpace).reverse)
  rw [h1] at hpre
  have h2 : s.dropWhile IsSpace = c :: (t ++ pre.reverse) := by
    have := congrArg List.reverse hpre
    rw [List.reverse_reverse] at this
    rw [← this]
    simp
  have hne : s.dropWhile IsSpace ≠ [] := by rw [h2]; simp
  have h3 := List.head_dropWhile_not IsSpace s hne
  simp only [h2, List.head_cons] at h3
  exact h3

theorem TrimSpace_of_trimmed (s : List Char) (c : Char) (t : List Char)
    (h : TrimSpace s = c :: t) : ∃ x, TrimSpace (c :: t) = c :: x := by
  have hc := TrimSpace_head s c t h
  unfold TrimSpace
  rw [List.dropWhile_cons, if_neg (by rw [hc]; simp), List.reverse_cons]
  obtain ⟨x, hx⟩ := dropWhile_append_last IsSpace c hc t.reverse
  rw [hx]
  exact ⟨x.reverse, by simp⟩

theorem Split_cons_ne (c sep : Char) (x : List Char) (h : c ≠ sep) :
    ∃ piece pieces, Split (c :: x) sep = (c :: piece) :: pieces := by
  rw [Split, if_neg h]
  cases Split x sep with
  | nil => exact ⟨[], [], rfl⟩
  | cons piece pieces => exact ⟨piece, pieces, rfl⟩

/-- The result of `preprocessUserSLQ` on arguments whose first one, trimmed,
starts with a character other than `@`. -/
theorem preprocessUserSLQ_no_handle (rc : RunContext) (arg0 : List Char)
    (rest : List (List Char)) (c : Char) (t : List Char) (h0 : TrimSpace arg0 = c :: t)
    (hc : c ≠ '@') :
    preprocessUserSLQ rc (arg0 :: rest) =
      match rc.Sources.Active with
      | none => .error .noActiveSource
      | some activeSrc =>
        .ok (activeSrc.Handle ++ " | ".toList ++ Join ((arg0 :: rest).map TrimSpace) " ".toList) := by
  have hsp := TrimSpace_head arg0 c t h0
  obtain ⟨x, hx⟩ := TrimSpace_of_trimmed arg0 c t h0
  have hcs : c ≠ ' ' := by
    intro h
    rw [h] at hsp
    exact absurd hsp (by decide)
  obtain ⟨piece, pieces, hsplit⟩ := Split_cons_ne c ' ' x hcs
  unfold preprocessUserSLQ
  simp only [List.length_cons, Nat.add_one_ne_zero, if_false, List.map_cons, h0, hx, hsplit,
    if_neg hc]

/-- C9 (as stated, refuted): the argument ` .x` gives a query text that is not
empty and does not start with `@`, and with the active source `@a` the result
is `@a | .x`, not `@a |  .x`: the argument is trimmed before it is joined. -/
theorem preprocessUserSLQ_trims :
    Join [" .x".toList] " ".toList = " .x".toList ∧
      preprocessUserSLQ ⟨⟨[⟨"@a".toList, "csv".toList⟩], some "@a".toList⟩,
          fun _ => .ok true, fun _ => .error .srcNoData⟩ [" .x".toList]
        = .ok "@a | .x".toList ∧
      preprocessUserSLQ ⟨⟨[⟨"@a".toList, "csv".toList⟩], some "@a".toList⟩,
          fun _ => .ok true, fun _ => .error .srcNoData⟩ [" .x".toList]
        ≠ .ok ("@a".toList ++ " | ".toList ++ Join [" .x".toList] " ".toList) := by
  decide

/-- C9 (amended): for every non-empty argument list whose first argument,
trimmed of white space, is not empty and does not start with `@`, and every
active source with handle `h`, `preprocessUserSLQ` succeeds and returns `h`,
then ` | `, then the arguments, each trimmed of white space, joined by single
spaces. -/
theorem preprocessUserSLQ_prepends (rc : RunContext) (arg0 : List Char)
    (rest : List (List Char)) (activeSrc : Source) (c : Char) (t : List Char)
    (hactive : rc.Sources.Active = some activeSrc) (h0 : TrimSpace arg0 = c :: t)
    (hc : c ≠ '@') :
    preprocessUserSLQ rc (arg0 :: rest)
      = .ok (activeSrc.Handle ++ " | ".toList
          ++ Join ((arg0 :: rest).map TrimSpace) " ".toList) := by
  rw [preprocessUserSLQ_no_handle rc arg0 rest c t h0 hc, hactive]

/-- C9 (amended), on the arguments ` .person ` and `| .name` with the active
source `@a`: the query is `@a | .person | .name`. -/
theorem preprocessUserSLQ_prepends_witness :
    SourceSet.Active ⟨[⟨"@a".toList, "csv".toList⟩], some "@a".toList⟩
        = some ⟨"@a".toList, "csv".toList⟩ ∧
      TrimSpace " .person ".toList = '.' :: "person".toList ∧ '.' ≠ '@' ∧
      preprocessUserSLQ ⟨⟨[⟨"@a".toList, "csv".toList⟩], some "@a".toList⟩,
          fun _ => .ok true, fun _ => .error .srcNoData⟩
          [" .person ".toList, "| .name".toList]
        = .ok "@a | .person | .name".toList :=
  ⟨by decide, by decide, by decide,
    preprocessUserSLQ_prepends ⟨⟨[⟨"@a".toList, "csv".toList⟩], some "@a".toList⟩,
      fun _ => .ok true, fun _ => .error .srcNoData⟩ " .person ".toList ["| .name".toList]
      ⟨"@a".toList, "csv".toList⟩ '.' "person".toList (by decide) (by decide) (by decide)⟩

/-- C10: for every non-empty argument list whose first argument, trimmed of
white space, is not empty and does not start with `@`, `preprocessUserSLQ`
returns an error, and no query, when the source set has no active source. -/
theorem preprocessUserSLQ_no_active (rc : RunContext) (arg0 : List Char)
    (rest : List (List Char)) (c : Char) (t : List Char)
    (hactive : rc.Sources.Active = none) (h0 : TrimSpace arg0 = c :: t) (hc : c ≠ '@') :
    preprocessUserSLQ rc (arg0 :: rest) = .error .noActiveSource ∧
      ∀ query, preprocessUserSLQ rc (arg0 :: rest) ≠ .ok query := by
  have h : preprocessUserSLQ rc (arg0 :: rest) = .error .noActiveSource := by
    rw [preprocessUserSLQ_no_handle rc arg0 rest c t h0 hc, hactive]
  refine ⟨h, ?_⟩
  intro query hq
  rw [h] at hq
  exact Outcome.noConfusion hq

/-- C10, on the argument ` .person` with a source set that holds `@a` but has
no active source. -/
theorem preprocessUserSLQ_no_active_witness :
    SourceSet.Active ⟨[⟨"@a".toList, "csv".toList⟩], none⟩ = none ∧
      TrimSpace " .person".toList = '.' :: "person".toList ∧ '.' ≠ '@' ∧
      preprocessUserSLQ ⟨⟨[⟨"@a".toList, "csv".toList⟩], none⟩,
          fun _ => .ok true, fun _ => .error .srcNoData⟩ [" .person".toList]
        = .error .noActiveSource :=
  ⟨by decide, by decide, by decide,
    (preprocessUserSLQ_no_active ⟨⟨[⟨"@a".toList, "csv".toList⟩], none⟩,
      fun _ => .ok true, fun _ => .error .srcNoData⟩ " .person".toList []
      '.' "person".toList (by decide) (by decide) (by decide)).1⟩

/-! ### The empty argument list -/

/-- C11: on an empty argument list `preprocessUserSLQ` returns the empty-query
error when there is no active source and when the handle of the active source
is not the stdin handle. When the active source is the stdin source and its
driver is monotable, the result is the stdin handle followed by `.data`, that
is `@stdin.data`, whatever opening a source would do: the source is not
opened and its metadata is not read. -/
theorem preprocessUserSLQ_empty_args (rc : RunContext) :
    (rc.Sources.Active = none → preprocessUserSLQ rc [] = .error .emptyQueryString) ∧
    (∀ a, rc.Sources.Active = some a → a.Handle ≠ StdinHandle →
      preprocessUserSLQ rc [] = .error .emptyQueryString) ∧
    (∀ a, rc.Sources.Active = some a → a.Handle = StdinHandle →
      rc.DriverFor a.Typ = .ok true →
      ∀ o : Source → Except Err Database,
        preprocessUserSLQ { rc with Open := o } []
          = .ok (StdinHandle ++ ".".toList ++ MonotableName) ∧
        preprocessUserSLQ { rc with Open := o } [] = .ok "@stdin.data".toList) := by
  refine ⟨?_, ?_, ?_⟩
  · intro h
    unfold preprocessUserSLQ
    simp only [List.length_nil, if_true, h]
  · intro a h hne
    unfold preprocessUserSLQ
    simp only [List.length_nil, if_true, h, if_pos hne]
  · intro a h heq hdrv o
    have hres : preprocessUserSLQ { rc with Open := o } []
        = .ok (StdinHandle ++ ".".toList ++ MonotableName) := by
      unfold preprocessUserSLQ
      simp only [List.length_nil, if_true, h, heq, ne_eq, not_true_eq_false, if_false, hdrv,
        Bool.not_true, Bool.false_eq_true]
    exact ⟨hres, by rw [hres]; rfl⟩

/-- C11, on three source sets: one without active source, one whose active
source is `@a`, and one whose active source is `@stdin` of the monotable type
`csv`, where opening a source fails. -/
theorem preprocessUserSLQ_empty_args_witness :
    preprocessUserSLQ ⟨⟨[⟨"@a".toList, "csv".toList⟩], none⟩,
        fun _ => .ok true, fun _ => .error .srcNoData⟩ [] = .error .emptyQueryString ∧
      preprocessUserSLQ ⟨⟨[⟨"@a".toList, "csv".toList⟩], some "@a".toList⟩,
        fun _ => .ok true, fun _ => .error .srcNoData⟩ [] = .error .emptyQueryString ∧
      preprocessUserSLQ ⟨⟨[⟨"@stdin".toList, "csv".toList⟩], some "@stdin".toList⟩,
        fun _ => .ok true, fun _ => .error .srcNoData⟩ [] = .ok "@stdin.data".toList :=
  ⟨(preprocessUserSLQ_empty_args ⟨⟨[⟨"@a".toList, "csv".toList⟩], none⟩,
        fun _ => .ok true, fun _ => .error .srcNoData⟩).1 (by decide),
    (preprocessUserSLQ_empty_args ⟨⟨[⟨"@a".toList, "csv".toList⟩], some "@a".toList⟩,
        fun _ => .ok true, fun _ => .error .srcNoData⟩).2.1 ⟨"@a".toList, "csv".toList⟩
        (by decide) (by decide),
    ((preprocessUserSLQ_empty_args
        ⟨⟨[⟨"@stdin".toList, "csv".toList⟩], some "@stdin".toList⟩,
        fun _ => .ok true, fun _ => .error .srcNoData⟩).2.2 ⟨"@stdin".toList, "csv".toList⟩
        (by decide) (by decide) rfl (fun _ => .error .srcNoData)).2⟩

/-- C12: on an empty argument list, when the active source is the stdin source,
its driver is not monotable, the source opens and its metadata is read:
`preprocessUserSLQ` returns the stdin handle, `.`, and the name of the first
table of the metadata when that name is not empty; the error for a source
without data when the metadata lists no table; the error for an empty table
name when the name of the first table is empty. -/
theorem preprocessUserSLQ_stdin_first_table (rc : RunContext) (a : Source) (dbase : Database)
    (hactive : rc.Sources.Active = some a) (hstdin : a.Handle = StdinHandle)
    (hdrv : rc.DriverFor a.Typ = .ok false) (hopen : rc.Open a = .ok dbase) :
    (∀ tblName rest, dbase.SourceMetadata = .ok (tblName :: rest) → tblName ≠ [] →
      preprocessUserSLQ rc [] = .ok (StdinHandle ++ ".".toList ++ tblName)) ∧
    (dbase.SourceMetadata = .ok [] → preprocessUserSLQ rc [] = .error .srcNoData) ∧
    (∀ rest, dbase.SourceMetadata = .ok ([] :: rest) →
      preprocessUserSLQ rc [] = .error .srcEmptyTableName) := by
  refine ⟨?_, ?_, ?_⟩
  · intro tblName rest hmeta hne
    unfold preprocessUserSLQ
    simp only [List.length_nil, if_true, hactive, hstdin, ne_eq, not_true_eq_false, if_false,
      hdrv, Bool.not_false, hopen, hmeta, if_neg hne]
  · intro hmeta
    unfold preprocessUserSLQ
    simp only [List.length_nil, if_true, hactive, hstdin, ne_eq, not_true_eq_false, if_false,
      hdrv, Bool.not_false, hopen, hmeta]
  · intro rest hmeta
    unfold preprocessUserSLQ
    simp only [List.length_nil, if_true, hactive, hstdin, ne_eq, not_true_eq_false, if_false,
      hdrv, Bool.not_false, hopen, hmeta]

/-- C12, on the stdin source of the type `xlsx`, not monotable, with the
tables `Sheet1` and `Sheet2`: the query is `@stdin.Sheet1`. -/
theorem preprocessUserSLQ_stdin_first_table_witness :
    preprocessUserSLQ ⟨⟨[⟨"@stdin".toList, "xlsx".toList⟩], some "@stdin".toList⟩,
        fun _ => .ok false, fun _ => .ok ⟨.ok ["Sheet1".toList, "Sheet2".toList]⟩⟩ []
      = .ok "@stdin.Sheet1".toList :=
  (preprocessUserSLQ_stdin_first_table
    ⟨⟨[⟨"@stdin".toList, "xlsx".toList⟩], some "@stdin".toList⟩,
      fun _ => .ok false, fun _ => .ok ⟨.ok ["Sheet1".toList, "Sheet2".toList]⟩⟩
    ⟨"@stdin".toList, "xlsx".toList⟩ ⟨.ok ["Sheet1".toList, "Sheet2".toList]⟩
    (by decide) (by decide) rfl rfl).1 "Sheet1".toList ["Sheet2".toList] rfl (by decide)

/-! ### Arguments that start with a handle -/

theorem TrimSpace_idempotent (s : List Char) : TrimSpace (TrimSpace s) = TrimSpace s := by
  have hd : (TrimSpace s).dropWhile IsSpace = TrimSpace s := by
    cases hT : TrimSpace s with
    | nil => rfl
    | cons c t =>
      have hc := TrimSpace_head s c t hT
      rw [List.dropWhile_cons, if_neg (by rw [hc]; simp)]
  have hr : (TrimSpace s).reverse = (s.dropWhile IsSpace).reverse.dropWhile IsSpace := by
    unfold TrimSpace
    rw [List.reverse_reverse]
  have hu : TrimSpace (TrimSpace s)
      = (((TrimSpace s).dropWhile IsSpace).reverse.dropWhile IsSpace).reverse := rfl
  rw [hu, hd, hr, List.dropWhile_idempotent, ← hr, List.reverse_reverse]

theorem Split_head (sep : Char) : ∀ s : List Char,
    ∃ pieces, Split s sep = s.takeWhile (fun c => c ≠ sep) :: pieces
  | [] => ⟨[], rfl⟩
  | c :: rest => by
    obtain ⟨pieces, hp⟩ := Split_head sep rest
    by_cases h : c = sep
    · refine ⟨Split rest sep, ?_⟩
      rw [Split, if_pos h, List.takeWhile_cons, if_neg (by simp [h])]
    · refine ⟨pieces, ?_⟩
      rw [Split, if_neg h, hp, List.takeWhile_cons, if_pos (by simp [h])]

theorem len_lt_two (t : List Char) : len ('@' :: t) < 2 ↔ ('@' :: t).length < 2 := by
  have h1 : len ('@' :: t) = 1 + len t := by
    unfold len
    rw [List.map_cons, List.sum_cons]
    rfl
  rw [h1, List.length_cons]
  cases t with
  | nil => simp [len]
  | cons c t =>
    have hc := Char.utf8Size_pos c
    have h2 : len (c :: t) = c.utf8Size + len t := by
      unfold len
      rw [List.map_cons, List.sum_cons]
    rw [h2, List.length_cons]
    omega

/-- The result of `preprocessUserSLQ` on arguments whose first one, trimmed,
starts with `@`. -/
theorem preprocessUserSLQ_at_handle (rc : RunContext) (arg0 : List Char)
    (rest : List (List Char)) (t : List Char) (h0 : TrimSpace arg0 = '@' :: t) :
    preprocessUserSLQ rc (arg0 :: rest) =
      if (leadingHandle (TrimSpace arg0)).length < 2 then
        .error (.invalidDataSource (leadingHandle (TrimSpace arg0)))
      else
        match rc.Sources.Get (leadingHandle (TrimSpace arg0)) with
        | .error err => .error err
        | .ok _ => .ok (Join ((arg0 :: rest).map TrimSpace) " ".toList) := by
  obtain ⟨pieces, hp⟩ := Split_head ' ' ('@' :: t)
  have htw : ('@' :: t).takeWhile (fun c => c ≠ ' ')
      = '@' :: t.takeWhile (fun c => c ≠ ' ') := by
    rw [List.takeWhile_cons, if_pos (by decide)]
  obtain ⟨pieces2, hp2⟩ := Split_head '.' ('@' :: t.takeWhile (fun c => c ≠ ' '))
  have htw2 : ('@' :: t.takeWhile (fun c => c ≠ ' ')).takeWhile (fun c => c ≠ '.')
      = '@' :: (t.takeWhile (fun c => c ≠ ' ')).takeWhile (fun c => c ≠ '.') := by
    rw [List.takeWhile_cons, if_pos (by decide)]
  have hl : leadingHandle (TrimSpace arg0)
      = '@' :: (t.takeWhile (fun c => c ≠ ' ')).takeWhile (fun c => c ≠ '.') := by
    unfold leadingHandle
    rw [h0, htw, htw2]
  rw [hl]
  have hlen := len_lt_two ((t.takeWhile (fun c => c ≠ ' ')).takeWhile (fun c => c ≠ '.'))
  rw [List.length_cons] at hlen
  have hidem := TrimSpace_idempotent arg0
  rw [h0] at hidem
  rw [htw] at hp
  rw [htw2] at hp2
  unfold preprocessUserSLQ
  simp only [List.length_cons, Nat.add_one_ne_zero, if_false, List.map_cons, h0, hidem, hp,
    if_true, hp2]
  by_cases hlt : len ('@' :: (t.takeWhile (fun c => c ≠ ' ')).takeWhile (fun c => c ≠ '.')) < 2
  · rw [if_pos hlt, if_pos (hlen.mp hlt)]
  · rw [if_neg hlt, if_neg (fun h => hlt (hlen.mpr h))]

theorem Get_unknown (srcs : SourceSet) (handle : List Char)
    (h : ∀ src ∈ srcs.items, src.Handle ≠ handle) :
    srcs.Get handle = .error (.unknownHandle handle) := by
  have hf : srcs.items.find? (fun src => src.Handle = handle) = none := by
    rw [List.find?_eq_none]
    intro x hx
    simpa using h x hx
  unfold SourceSet.Get
  rw [hf]

theorem Get_known (items : List Source) (active : Option (List Char)) (handle : List Char)
    (h : ∃ src ∈ items, src.Handle = handle) :
    ∃ src, SourceSet.Get ⟨items, active⟩ handle = .ok src := by
  cases hf : items.find? (fun src => src.Handle = handle) with
  | none =>
    rw [List.find?_eq_none] at hf
    obtain ⟨src, hmem, heq⟩ := h
    exact absurd heq (by simpa using hf src hmem)
  | some src =>
    refine ⟨src, ?_⟩
    unfold SourceSet.Get
    simp only [hf]

/-- C13: for every non-empty argument list whose first argument, trimmed of
white space, begins with `@`, with `handle` the first space-delimited token of
that text up to and not including the first `.`: `preprocessUserSLQ` returns
an error when `handle` has fewer than 2 characters, and when no source of the
set has the handle `handle`; when `handle` has at least 2 characters and is
the handle of a source of the set, it returns the arguments, each trimmed,
joined by single spaces, with nothing before them, whatever the active source
is and also when there is none. -/
theorem preprocessUserSLQ_handle_arg (rc : RunContext) (arg0 : List Char)
    (rest : List (List Char)) (t : List Char) (h0 : TrimSpace arg0 = '@' :: t) :
    ((leadingHandle (TrimSpace arg0)).length < 2 →
      preprocessUserSLQ rc (arg0 :: rest)
        = .error (.invalidDataSource (leadingHandle (TrimSpace arg0)))) ∧
    ((∀ src ∈ rc.Sources.items, src.Handle ≠ leadingHandle (TrimSpace arg0)) →
      ∃ err, preprocessUserSLQ rc (arg0 :: rest) = .error err) ∧
    (2 ≤ (leadingHandle (TrimSpace arg0)).length →
      (∃ src ∈ rc.Sources.items, src.Handle = leadingHandle (TrimSpace arg0)) →
      ∀ active : Option (List Char),
        preprocessUserSLQ { rc with Sources := ⟨rc.Sources.items, active⟩ } (arg0 :: rest)
          = .ok (Join ((arg0 :: rest).map TrimSpace) " ".toList)) := by
  refine ⟨?_, ?_, ?_⟩
  · intro hlt
    rw [preprocessUserSLQ_at_handle rc arg0 rest t h0, if_pos hlt]
  · intro hnot
    rw [preprocessUserSLQ_at_handle rc arg0 rest t h0]
    by_cases hlt : (leadingHandle (TrimSpace arg0)).length < 2
    · rw [if_pos hlt]
      exact ⟨_, rfl⟩
    · rw [if_neg hlt, Get_unknown rc.Sources _ hnot]
      exact ⟨_, rfl⟩
  · intro hlen hmem active
    obtain ⟨src, hsrc⟩ := Get_known rc.Sources.items active _ hmem
    rw [preprocessUserSLQ_at_handle _ arg0 rest t h0, if_neg (by omega)]
    simp only [hsrc]

/-- C13, on a set that holds `@a` and has no active source: the arguments
` @a.person ` and `| .name` give `@a.person | .name`, the argument `@` gives
an error, and so does `@b.person`. -/
theorem preprocessUserSLQ_handle_arg_witness :
    preprocessUserSLQ ⟨⟨[⟨"@a".toList, "csv".toList⟩], none⟩,
        fun _ => .ok true, fun _ => .error .srcNoData⟩ [" @a.person ".toList, "| .name".toList]
      = .ok "@a.person | .name".toList ∧
    preprocessUserSLQ ⟨⟨[⟨"@a".toList, "csv".toList⟩], none⟩,
        fun _ => .ok true, fun _ => .error .srcNoData⟩ ["@ .x".toList]
      = .error (.invalidDataSource "@".toList) ∧
    ∃ err, preprocessUserSLQ ⟨⟨[⟨"@a".toList, "csv".toList⟩], none⟩,
        fun _ => .ok true, fun _ => .error .srcNoData⟩ ["@b.person".toList] = .error err :=
  ⟨(preprocessUserSLQ_handle_arg ⟨⟨[⟨"@a".toList, "csv".toList⟩], none⟩,
        fun _ => .ok true, fun _ => .error .srcNoData⟩ " @a.person ".toList ["| .name".toList]
        "a.person".toList (by decide)).2.2 (by decide)
        ⟨⟨"@a".toList, "csv".toList⟩, by decide, by decide⟩ none,
    (preprocessUserSLQ_handle_arg ⟨⟨[⟨"@a".toList, "csv".toList⟩], none⟩,
        fun _ => .ok true, fun _ => .error .srcNoData⟩ "@ .x".toList []
        " .x".toList (by decide)).1 (by decide),
    (preprocessUserSLQ_handle_arg ⟨⟨[⟨"@a".toList, "csv".toList⟩], none⟩,
        fun _ => .ok true, fun _ => .error .srcNoData⟩ "@b.person".toList []
        "b.person".toList (by decide)).2.1 (by decide)⟩

/-! ### The source on stdin -/

theorem Active_after_add (items : List Source) (src : Source)
    (h : ∀ s ∈ items, s.Handle ≠ src.Handle) :
    SourceSet.Active ⟨items ++ [src], some src.Handle⟩ = some src := by
  have hf : items.find? (fun s => s.Handle = src.Handle) = none := by
    rw [List.find?_eq_none]
    intro x hx
    simpa using h x hx
  unfold SourceSet.Active
  simp only [List.find?_append, hf, Option.none_or, List.find?_cons, decide_True,
    List.find?_nil]

theorem Add_fresh (srcs : SourceSet) (src : Source)
    (h : ∀ s ∈ srcs.items, s.Handle ≠ src.Handle) :
    srcs.Add src = .ok ⟨srcs.items ++ [src], srcs.active⟩ := by
  have hany : srcs.items.any (fun s => s.Handle = src.Handle) = false := by
    rw [List.any_eq_false]
    intro x hx
    simpa using h x hx
  unfold SourceSet.Add
  rw [hany]
  rfl

theorem Add_duplicate (srcs : SourceSet) (src : Source)
    (h : ∃ s ∈ srcs.items, s.Handle = src.Handle) :
    srcs.Add src = .error (.duplicateHandle src.Handle) := by
  have hany : srcs.items.any (fun s => s.Handle = src.Handle) = true := by
    rw [List.any_eq_true]
    obtain ⟨s, hs, heq⟩ := h
    exact ⟨s, hs, by simpa using heq⟩
  unfold SourceSet.Add
  rw [hany]
  rfl

theorem SetActive_added (items : List Source) (active : Option (List Char)) (src : Source)
    (h : ∀ s ∈ items, s.Handle ≠ src.Handle) :
    SourceSet.SetActive ⟨items ++ [src], active⟩ src.Handle
      = .ok (⟨items ++ [src], some src.Handle⟩, src) := by
  have hf : items.find? (fun s => s.Handle = src.Handle) = none := by
    rw [List.find?_eq_none]
    intro x hx
    simpa using h x hx
  unfold SourceSet.SetActive
  simp only [List.find?_append, hf, Option.none_or, List.find?_cons, decide_True]

/-- C14: when `checkStdinSource` yields a source, for any implementation of the
source set: an error of `Add` is what `execSLQ` returns, with the set
untouched and no query run; an error of `SetActive` is what `execSLQ`
returns, and no query is run; and when both succeed, the query is handed over
with the set that `SetActive` left. With the source set of the specification:
when the handle is already in the set, `execSLQ` returns the duplicate-handle
error and runs no query; otherwise the source is put last in the set, `Active`
returns it in the set that the query is preprocessed against and that
`execSLQ` leaves, and without the flag `--insert` the query is printed. -/
theorem execSLQ_stdin_source {σ : Type} (m : SetMethods σ) (srcs : σ) (set : SourceSet)
    (src : Source) (inv : Invocation) (hstdin : inv.checkStdinSource = .ok (some src)) :
    (∀ err, m.Add srcs src = .error err → execSLQ m srcs inv = (srcs, .failed err)) ∧
    (∀ srcs1 err, m.Add srcs src = .ok srcs1 → m.SetActive srcs1 src.Handle = .error err →
      (execSLQ m srcs inv).2 = .failed err) ∧
    (∀ srcs1 srcs2 s, m.Add srcs src = .ok srcs1 →
      m.SetActive srcs1 src.Handle = .ok (srcs2, s) →
      execSLQ m srcs inv = (srcs2, execSLQ.handover m srcs2 inv)) ∧
    ((∃ s ∈ set.items, s.Handle = src.Handle) →
      execSLQ SourceSet.methods set inv = (set, .failed (.duplicateHandle src.Handle))) ∧
    ((∀ s ∈ set.items, s.Handle ≠ src.Handle) →
      (execSLQ SourceSet.methods set inv).1.items = set.items ++ [src] ∧
      (execSLQ SourceSet.methods set inv).1.Active = some src ∧
      (execSLQ SourceSet.methods set inv).2
        = execSLQ.handover SourceSet.methods (execSLQ SourceSet.methods set inv).1 inv ∧
      (inv.insertChanged = false → (execSLQ SourceSet.methods set inv).2 = .execSLQPrint)) := by
  refine ⟨?_, ?_, ?_, ?_, ?_⟩
  · intro err hadd
    unfold execSLQ
    simp only [hstdin, hadd]
  · intro srcs1 err hadd hset
    unfold execSLQ
    simp only [hstdin, hadd, hset]
  · intro srcs1 srcs2 s hadd hset
    unfold execSLQ
    simp only [hstdin, hadd, hset]
  · intro hdup
    have hadd : SourceSet.methods.Add set src = .error (.duplicateHandle src.Handle) :=
      Add_duplicate set src hdup
    unfold execSLQ
    simp only [hstdin, hadd]
  · intro hfresh
    have hadd : SourceSet.methods.Add set src = .ok ⟨set.items ++ [src], set.active⟩ :=
      Add_fresh set src hfresh
    have hset : SourceSet.methods.SetActive ⟨set.items ++ [src], set.active⟩ src.Handle
        = .ok (⟨set.items ++ [src], some src.Handle⟩, src) :=
      SetActive_added set.items set.active src hfresh
    have hexec : execSLQ SourceSet.methods set inv
        = (⟨set.items ++ [src], some src.Handle⟩,
            execSLQ.handover SourceSet.methods ⟨set.items ++ [src], some src.Handle⟩ inv) := by
      unfold execSLQ
      simp only [hstdin, hadd, hset]
    rw [hexec]
    refine ⟨rfl, Active_after_add set.items src hfresh, rfl, ?_⟩
    intro hins
    unfold execSLQ.handover
    simp only [hins, Bool.not_false, if_true]

/-- C14, with the source `@stdin` on stdin and no flag `--insert`: on the
empty set, the set afterwards holds `@stdin` as its active source and the
query is printed; on a set that already holds `@stdin`, `execSLQ` returns the
duplicate-handle error; and with a set implementation whose `SetActive`
fails, `execSLQ` returns that error. -/
theorem execSLQ_stdin_source_witness :
    execSLQ SourceSet.methods ⟨[], none⟩
        ⟨.ok (some ⟨"@stdin".toList, "csv".toList⟩), false, [], fun _ => .error .srcNoData⟩
      = (⟨[⟨"@stdin".toList, "csv".toList⟩], some "@stdin".toList⟩, .execSLQPrint) ∧
    execSLQ SourceSet.methods ⟨[⟨"@stdin".toList, "xlsx".toList⟩], none⟩
        ⟨.ok (some ⟨"@stdin".toList, "csv".toList⟩), false, [], fun _ => .error .srcNoData⟩
      = (⟨[⟨"@stdin".toList, "xlsx".toList⟩], none⟩,
          .failed (.duplicateHandle "@stdin".toList)) ∧
    (execSLQ { SourceSet.methods with SetActive := fun _ h => .error (.unknownHandle h) }
        ⟨[], none⟩
        ⟨.ok (some ⟨"@stdin".toList, "csv".toList⟩), false, [],
          fun _ => .error .srcNoData⟩).2
      = .failed (.unknownHandle "@stdin".toList) :=
  ⟨by
      have h := (execSLQ_stdin_source SourceSet.methods ⟨[], none⟩ ⟨[], none⟩
        ⟨"@stdin".toList, "csv".toList⟩
        ⟨.ok (some ⟨"@stdin".toList, "csv".toList⟩), false, [], fun _ => .error .srcNoData⟩
        rfl).2.2.1 ⟨[⟨"@stdin".toList, "csv".toList⟩], none⟩
        ⟨[⟨"@stdin".toList, "csv".toList⟩], some "@stdin".toList⟩
        ⟨"@stdin".toList, "csv".toList⟩ (by decide) (by decide)
      exact h,
    (execSLQ_stdin_source SourceSet.methods ⟨[], none⟩
        ⟨[⟨"@stdin".toList, "xlsx".toList⟩], none⟩ ⟨"@stdin".toList, "csv".toList⟩
        ⟨.ok (some ⟨"@stdin".toList, "csv".toList⟩), false, [], fun _ => .error .srcNoData⟩
        rfl).2.2.2.1 ⟨⟨"@stdin".toList, "xlsx".toList⟩, by decide, by decide⟩,
    (execSLQ_stdin_source
        { SourceSet.methods with SetActive := fun _ h => .error (.unknownHandle h) }
        ⟨[], none⟩ ⟨[], none⟩ ⟨"@stdin".toList, "csv".toList⟩
        ⟨.ok (some ⟨"@stdin".toList, "csv".toList⟩), false, [], fun _ => .error .srcNoData⟩
        rfl).2.1 ⟨[⟨"@stdin".toList, "csv".toList⟩], none⟩ (.unknownHandle "@stdin".toList)
        (by decide) rfl⟩

/-! ### The configuration -/

/-- C15: `config.New()` returns a config whose defaults are `PingTimeout` = 10
seconds (10 000 000 000 ns), `ShellCompletionTimeout` = 500 milliseconds
(500 000 000 ns), `Format` = `table` and `Header` = true, and whose `Sources`
is not nil and is a source set without items and without active source. -/
theorem New_defaults :
    New.Defaults.PingTimeout = 10 * Second ∧ New.Defaults.PingTimeout = 10000000000 ∧
    New.Defaults.ShellCompletionTimeout = 500 * Millisecond ∧
    New.Defaults.ShellCompletionTimeout = 500000000 ∧
    New.Defaults.Format = str "table" ∧ New.Defaults.Header = true ∧
    New.Sources = some ⟨[], none⟩ ∧ New.Sources ≠ none := by
  decide

/-- C16: `Format.UnmarshalText` returns no error exactly when the text is one
of the eleven names `json`, `jsona`, `jsonl`, `table`, `raw`, `html`,
`markdown`, `xlsx`, `xml`, `csv`, `tsv`, compared byte by byte; the format is
then the text. For every other text, such as `JSON`, it returns an error and
the format keeps its value. -/
theorem UnmarshalText_spec (f : Format) (text : List Nat) :
    ((Format.UnmarshalText f text).1 = none ↔
      text ∈ [str "json", str "jsona", str "jsonl", str "table", str "raw", str "html",
        str "markdown", str "xlsx", str "xml", str "csv", str "tsv"]) ∧
    Format.UnmarshalText f text =
      (if text ∈ [str "json", str "jsona", str "jsonl", str "table", str "raw", str "html",
          str "markdown", str "xlsx", str "xml", str "csv", str "tsv"]
        then (none, text) else (some (.unknownOutputFormat text), f)) ∧
    Format.UnmarshalText f (str "JSON") = (some (.unknownOutputFormat (str "JSON")), f) := by
  have hmem : text ∈ [str "json", str "jsona", str "jsonl", str "table", str "raw",
      str "html", str "markdown", str "xlsx", str "xml", str "csv", str "tsv"] ↔
      (text = FormatJSON ∨ text = FormatJSONA ∨ text = FormatJSONL ∨ text = FormatTable ∨
      text = FormatRaw ∨ text = FormatHTML ∨ text = FormatMarkdown ∨ text = FormatXLSX ∨
      text = FormatXML ∨ text = FormatCSV ∨ text = FormatTSV) := by
    simp only [List.mem_cons, List.mem_singleton, FormatJSON, FormatJSONA, FormatJSONL,
      FormatTable, FormatRaw, FormatHTML, FormatMarkdown, FormatXLSX, FormatXML, FormatCSV,
      FormatTSV, List.mem_nil_iff, or_false]
  by_cases h : text = FormatJSON ∨ text = FormatJSONA ∨ text = FormatJSONL ∨
      text = FormatTable ∨ text = FormatRaw ∨ text = FormatHTML ∨ text = FormatMarkdown ∨
      text = FormatXLSX ∨ text = FormatXML ∨ text = FormatCSV ∨ text = FormatTSV
  · have hm := hmem.mpr h
    refine ⟨?_, ?_, rfl⟩
    · unfold Format.UnmarshalText
      rw [if_pos h]
      exact ⟨fun _ => hm, fun _ => rfl⟩
    · unfold Format.UnmarshalText
      rw [if_pos h, if_pos hm]
  · have hm : ¬ text ∈ [str "json", str "jsona", str "jsonl", str "table", str "raw",
        str "html", str "markdown", str "xlsx", str "xml", str "csv", str "tsv"] :=
      fun hx => h (hmem.mp hx)
    refine ⟨?_, ?_, rfl⟩
    · unfold Format.UnmarshalText
      rw [if_neg h]
      exact ⟨fun hx => absurd hx (by simp), fun hx => absurd hx hm⟩
    · unfold Format.UnmarshalText
      rw [if_neg h, if_neg hm]

/-! ### Sheets -/

theorem foldl_max_uniform (n : Nat) : ∀ rows : List Row,
    (∀ row ∈ rows, row.Cells.length = n) →
    rows.foldl
      (fun max row => if row.Cells.length > max then row.Cells.length else max) n = n
  | [], _ => rfl
  | row :: rest, h => by
    have hrow : row.Cells.length = n := h row (List.mem_cons_self _ _)
    rw [List.foldl_cons, hrow, if_neg (by omega)]
    exact foldl_max_uniform n rest fun r hr => h r (List.mem_cons_of_mem _ hr)

/-- A sheet whose rows all have no cells has the largest cell count 0. -/
theorem getRowsMaxCellCount_no_cells (sheet : Sheet)
    (h : ∀ row ∈ sheet.Rows, row.Cells = []) : getRowsMaxCellCount sheet = 0 := by
  unfold getRowsMaxCellCount
  exact foldl_max_uniform 0 sheet.Rows fun row hrow => by rw [h row hrow]; rfl

/-- A sheet with a row, whose rows all have `n` cells, has the largest cell
count `n`. -/
theorem getRowsMaxCellCount_uniform (sheet : Sheet) (n : Nat) (row0 : Row) (rest : List Row)
    (hrows : sheet.Rows = row0 :: rest) (h : ∀ row ∈ sheet.Rows, row.Cells.length = n) :
    getRowsMaxCellCount sheet = n := by
  unfold getRowsMaxCellCount
  rw [hrows] at h ⊢
  have hrow : row0.Cells.length = n := h row0 (List.mem_cons_self _ _)
  rw [List.foldl_cons, hrow]
  by_cases hn : n > 0
  · rw [if_pos hn]
    exact foldl_max_uniform n rest fun r hr => h r (List.mem_cons_of_mem _ hr)
  · rw [if_neg hn]
    have h0 : n = 0 := by omega
    rw [h0] at h ⊢
    exact foldl_max_uniform 0 rest fun r hr => h r (List.mem_cons_of_mem _ hr)

theorem fillLoop_total {α : Type} (g : Nat → α) : ∀ (count i : Nat),
    fillLoop (fun i => some (g i)) i count = some ((List.range' i count).map g)
  | 0, _ => rfl
  | count + 1, i => by
    rw [fillLoop, fillLoop_total g count (i + 1)]
    rfl

theorem fillLoop_cells : ∀ (cells pre : List Cell),
    fillLoop (fun i => (pre ++ cells)[i]?.map fun c => c.Value) pre.length cells.length
      = some (cells.map fun c => c.Value)
  | [], _ => rfl
  | cell :: rest, pre => by
    have hget : (pre ++ cell :: rest)[pre.length]? = some cell := by
      rw [List.getElem?_append_right (Nat.le_refl _), Nat.sub_self, List.getElem?_cons_zero]
    have hih := fillLoop_cells rest (pre ++ [cell])
    rw [List.append_assoc, List.length_append, List.length_singleton] at hih
    rw [List.length_cons, fillLoop]
    simp only [hget, Option.map_some']
    rw [List.singleton_append] at hih
    rw [hih]
    rfl

theorem colsLoop_total : ∀ (colNames : List (List Char)) (pre colKinds : List Kind),
    colNames.length ≤ colKinds.length →
    colsLoop (pre ++ colKinds) pre.length colNames
      = some (List.zipWith ColDef.mk colNames colKinds)
  | [], _, _, _ => rfl
  | colName :: rest, pre, [], h => by simp at h
  | colName :: rest, pre, k :: ks, h => by
    have hget : (pre ++ k :: ks)[pre.length]? = some k := by
      rw [List.getElem?_append_right (Nat.le_refl _), Nat.sub_self, List.getElem?_cons_zero]
    have hih := colsLoop_total rest (pre ++ [k]) ks
      (by simp only [List.length_cons] at h; omega)
    rw [List.append_assoc, List.length_append, List.length_singleton,
      List.singleton_append] at hih
    rw [colsLoop]
    simp only [hget]
    rw [hih]
    rfl

theorem zipWith_names : ∀ (colNames : List (List Char)) (colKinds : List Kind),
    colNames.length ≤ colKinds.length →
    (List.zipWith ColDef.mk colNames colKinds).map (fun col => col.Name) = colNames
  | [], _, _ => rfl
  | colName :: rest, [], h => by simp at h
  | colName :: rest, k :: ks, h => by
    rw [List.zipWith_cons_cons, List.map_cons,
      zipWith_names rest ks (by simp only [List.length_cons] at h; omega)]

theorem zipWith_kinds : ∀ (colNames : List (List Char)) (colKinds : List Kind),
    colNames.length = colKinds.length →
    (List.zipWith ColDef.mk colNames colKinds).map (fun col => col.Kind) = colKinds
  | [], [], _ => rfl
  | [], k :: ks, h => by simp at h
  | colName :: rest, [], h => by simp at h
  | colName :: rest, k :: ks, h => by
    rw [List.zipWith_cons_cons, List.map_cons,
      zipWith_kinds rest ks (by simp only [List.length_cons] at h; omega)]

/-- What `buildTblDefForSheet` returns once the column names are computed and
there are as many column kinds as column names. -/
theorem buildTblDefForSheet_ok (sheet : Sheet) (hasHeader : Bool) (row0 : Row)
    (rest : List Row) (colNames : List (List Char))
    (hrows : sheet.Rows = row0 :: rest) (hpos : getRowsMaxCellCount sheet ≠ 0)
    (hnames : (if hasHeader then
        fillLoop (fun i => row0.Cells[i]?.map fun c => c.Value) 0 (getRowsMaxCellCount sheet)
      else fillLoop (fun i => some (GenerateAlphaColName i)) 0 (getRowsMaxCellCount sheet))
      = some colNames)
    (hlen : ∀ row ∈ sheet.Rows, colNames.length ≤ row.Cells.length)
    (hmax : colNames.length = getRowsMaxCellCount sheet) :
    ∃ colKinds : List Kind, colNames.length ≤ colKinds.length ∧
      buildTblDefForSheet sheet hasHeader
        = .ok ⟨sheet.Name, List.zipWith ColDef.mk colNames colKinds⟩ ∧
      colKinds = match sheet.Rows[if hasHeader then 1 else 0]? with
        | none => List.replicate (getRowsMaxCellCount sheet) .Text
        | some row => getKindsFromCells row.Cells := by
  refine ⟨_, ?_, ?_, rfl⟩
  · cases hrow : sheet.Rows[if hasHeader then 1 else 0]? with
    | none => simp only [List.length_replicate]; omega
    | some row =>
      simp only [getKindsFromCells, List.length_map]
      exact hlen row (List.getElem?_mem hrow)
  · have hk : colNames.length ≤ (match sheet.Rows[if hasHeader then 1 else 0]? with
        | none => List.replicate (getRowsMaxCellCount sheet) Kind.Text
        | some row => getKindsFromCells row.Cells).length := by
      cases hrow : sheet.Rows[if hasHeader then 1 else 0]? with
      | none => simp only [List.length_replicate]; omega
      | some row =>
        simp only [getKindsFromCells, List.length_map]
        exact hlen row (List.getElem?_mem hrow)
    have hcols := colsLoop_total colNames [] _ hk
    rw [List.nil_append, List.length_nil] at hcols
    unfold buildTblDefForSheet
    simp only [if_neg hpos, hrows]
    rw [hrows] at hcols
    simp only [hnames, hcols]

/-- C17 (code bug): on a sheet whose first row has one cell and whose second
row has two, the largest cell count is 2 and `buildTblDefForSheet` fails at
run time with an index out of range, with a header (`headerCells[1]`) and
without one (`colKinds[1]`, the kinds being those of the first row); and so
it does with a header row of two cells followed by a first data row of one
cell. -/
theorem buildTblDefForSheet_ragged :
    getRowsMaxCellCount ⟨"Sheet1".toList, [⟨[textCell "a"]⟩, ⟨[textCell "b", textCell "c"]⟩]⟩
      = 2 ∧
    buildTblDefForSheet
      ⟨"Sheet1".toList, [⟨[textCell "a"]⟩, ⟨[textCell "b", textCell "c"]⟩]⟩ true = .crash ∧
    buildTblDefForSheet
      ⟨"Sheet1".toList, [⟨[textCell "a"]⟩, ⟨[textCell "b", textCell "c"]⟩]⟩ false = .crash ∧
    buildTblDefForSheet
      ⟨"Sheet1".toList, [⟨[textCell "h", textCell "k"]⟩, ⟨[textCell "a"]⟩]⟩ true = .crash := by
  decide

/-- C18 (code bug): for a table of two columns and a row of one cell,
`rowToRecord` returns a record of one value: it has `len(row.Cells)` values,
not `len(destColKinds)`, and no nil stands for the missing cell. -/
theorem rowToRecord_short_row :
    rowToRecord [.Text, .Text] ⟨[textCell "a"]⟩ = some [.string "a".toList] ∧
    (rowToRecord [.Text, .Text] ⟨[textCell "a"]⟩).map List.length = some 1 ∧
    rowToRecord [.Text, .Text] ⟨[textCell "a"]⟩ ≠ some [.string "a".toList, .nil] := by
  decide

/-- C19 (as stated, refuted): for the sheet `Sheet1` without rows, and for the
sheet `Sheet1` with one row without cells, `buildTblDefForSheet` returns the
error `sheet "Sheet1" has no columns` and no table definition. -/
theorem buildTblDefForSheet_empty_sheet :
    buildTblDefForSheet ⟨"Sheet1".toList, []⟩ true = .error (.sheetNoColumns "Sheet1".toList) ∧
    buildTblDefForSheet ⟨"Sheet1".toList, [⟨[]⟩]⟩ false
      = .error (.sheetNoColumns "Sheet1".toList) ∧
    ¬ ∃ tblDef, buildTblDefForSheet ⟨"Sheet1".toList, []⟩ true = .ok tblDef ∧
      tblDef.Cols.map (fun col => col.Kind) = [.Text] := by
  refine ⟨by decide, by decide, ?_⟩
  rintro ⟨tblDef, h, _⟩
  have he : buildTblDefForSheet ⟨"Sheet1".toList, []⟩ true
      = .error (.sheetNoColumns "Sheet1".toList) := by decide
  rw [he] at h
  exact Outcome.noConfusion h

/-- C19 (amended): for a sheet with no rows, or whose rows all have no cells,
and either value of `hasHeader`, `buildTblDefForSheet` fails with the error
`sheet %q has no columns` for the name of the sheet, and returns no table
definition. -/
theorem buildTblDefForSheet_no_columns (sheet : Sheet) (hasHeader : Bool)
    (h : ∀ row ∈ sheet.Rows, row.Cells = []) :
    buildTblDefForSheet sheet hasHeader = .error (.sheetNoColumns sheet.Name) ∧
      ∀ tblDef, buildTblDefForSheet sheet hasHeader ≠ .ok tblDef := by
  have he : buildTblDefForSheet sheet hasHeader = .error (.sheetNoColumns sheet.Name) := by
    unfold buildTblDefForSheet
    simp only [getRowsMaxCellCount_no_cells sheet h, if_true]
  refine ⟨he, ?_⟩
  intro tblDef ht
  rw [he] at ht
  exact Outcome.noConfusion ht

/-- C19 (amended), on the sheet `Sheet1` with two rows without cells. -/
theorem buildTblDefForSheet_no_columns_witness :
    (∀ row ∈ [(⟨[]⟩ : Row), ⟨[]⟩], row.Cells = []) ∧
    buildTblDefForSheet ⟨"Sheet1".toList, [⟨[]⟩, ⟨[]⟩]⟩ true
      = .error (.sheetNoColumns "Sheet1".toList) :=
  ⟨by decide,
    (buildTblDefForSheet_no_columns ⟨"Sheet1".toList, [⟨[]⟩, ⟨[]⟩]⟩ true (by decide)).1⟩

/-- C20: for every sheet with at least one row in which all rows have the same
number `n ≥ 1` of cells, `buildTblDefForSheet` returns a table definition of
`n` columns. With `hasHeader` true, column `i` is named by the value of cell
`i` of row 0; with `hasHeader` false, column `i` is named
`GenerateAlphaColName(i)` (`A`, `B`, ...). In both cases the names are those
returned by `getColNames(sheet, hasHeader)`. -/
theorem buildTblDefForSheet_col_names (sheet : Sheet) (hasHeader : Bool) (n : Nat)
    (row0 : Row) (rest : List Row) (hrows : sheet.Rows = row0 :: rest) (hn : 1 ≤ n)
    (huniform : ∀ row ∈ sheet.Rows, row.Cells.length = n) :
    ∃ tblDef, buildTblDefForSheet sheet hasHeader = .ok tblDef ∧
      tblDef.Cols.length = n ∧
      tblDef.Cols.map (fun col => col.Name)
        = (if hasHeader then row0.Cells.map fun c => c.Value
            else (List.range n).map GenerateAlphaColName) ∧
      (∀ i, i < n → tblDef.Cols[i]?.map (fun col => col.Name)
        = if hasHeader then row0.Cells[i]?.map fun c => c.Value
          else some (GenerateAlphaColName i)) ∧
      getColNames sheet hasHeader = some (tblDef.Cols.map fun col => col.Name) ∧
      GenerateAlphaColName 0 = "A".toList ∧ GenerateAlphaColName 1 = "B".toList := by
  have hmax := getRowsMaxCellCount_uniform sheet n row0 rest hrows huniform
  have hrow0 : row0.Cells.length = n := huniform row0 (by rw [hrows]; exact List.mem_cons_self _ _)
  have hfill : (if hasHeader then
        fillLoop (fun i => row0.Cells[i]?.map fun c => c.Value) 0 (getRowsMaxCellCount sheet)
      else fillLoop (fun i => some (GenerateAlphaColName i)) 0 (getRowsMaxCellCount sheet))
      = some (if hasHeader then row0.Cells.map fun c => c.Value
          else (List.range n).map GenerateAlphaColName) := by
    rw [hmax]
    cases hasHeader with
    | true =>
      have := fillLoop_cells row0.Cells []
      rw [List.nil_append, List.length_nil, hrow0] at this
      simp only [if_true, this]
    | false =>
      simp only [Bool.false_eq_true, if_false, fillLoop_total, List.range_eq_range']
  have hlenNames : (if hasHeader then row0.Cells.map fun c => c.Value
      else (List.range n).map GenerateAlphaColName).length = n := by
    cases hasHeader with
    | true => simp only [if_true, List.length_map, hrow0]
    | false => simp only [Bool.false_eq_true, if_false, List.length_map, List.length_range]
  obtain ⟨colKinds, hk, hok, _⟩ := buildTblDefForSheet_ok sheet hasHeader row0 rest _ hrows
    (by omega) hfill (fun row hrow => by rw [hlenNames, huniform row hrow])
    (by rw [hlenNames, hmax])
  have hnames := zipWith_names _ colKinds hk
  refine ⟨_, hok, ?_, hnames, ?_, ?_, by decide, by decide⟩
  · have := congrArg List.length hnames
    rw [List.length_map, hlenNames] at this
    exact this
  · intro i hi
    rw [← List.getElem?_map, hnames]
    cases hasHeader with
    | true => simp only [if_true, List.getElem?_map]
    | false =>
      simp only [Bool.false_eq_true, if_false, List.getElem?_map, List.getElem?_range hi,
        Option.map_some']
  · rw [hnames]
    unfold getColNames
    simp only [hrows]
    exact hfill

/-- C20, on a sheet of two rows of two cells: with a header the columns are
named `id` and `name` after the cells of row 0, without one `A` and `B`. -/
theorem buildTblDefForSheet_col_names_witness :
    (∃ tblDef, buildTblDefForSheet ⟨"Sheet1".toList,
          [⟨[textCell "id", textCell "name"]⟩, ⟨[textCell "1", textCell "x"]⟩]⟩ true
        = .ok tblDef ∧
      tblDef.Cols.map (fun col => col.Name) = ["id".toList, "name".toList]) ∧
    (∃ tblDef, buildTblDefForSheet ⟨"Sheet1".toList,
          [⟨[textCell "id", textCell "name"]⟩, ⟨[textCell "1", textCell "x"]⟩]⟩ false
        = .ok tblDef ∧
      tblDef.Cols.map (fun col => col.Name) = ["A".toList, "B".toList]) := by
  obtain ⟨t1, h1, _, h2, _⟩ := buildTblDefForSheet_col_names ⟨"Sheet1".toList,
    [⟨[textCell "id", textCell "name"]⟩, ⟨[textCell "1", textCell "x"]⟩]⟩ true 2
    ⟨[textCell "id", textCell "name"]⟩ [⟨[textCell "1", textCell "x"]⟩] rfl (by decide)
    (by decide)
  obtain ⟨t2, h3, _, h4, _⟩ := buildTblDefForSheet_col_names ⟨"Sheet1".toList,
    [⟨[textCell "id", textCell "name"]⟩, ⟨[textCell "1", textCell "x"]⟩]⟩ false 2
    ⟨[textCell "id", textCell "name"]⟩ [⟨[textCell "1", textCell "x"]⟩] rfl (by decide)
    (by decide)
  exact ⟨⟨t1, h1, h2⟩, ⟨t2, h3, h4⟩⟩

/-! ### The kinds of the columns -/

theorem foldl_max_ge : ∀ (rows : List Row) (acc : Nat),
    acc ≤ rows.foldl
        (fun max row => if row.Cells.length > max then row.Cells.length else max) acc ∧
      ∀ row ∈ rows, row.Cells.length ≤ rows.foldl
        (fun max row => if row.Cells.length > max then row.Cells.length else max) acc
  | [], acc => ⟨Nat.le_refl _, fun _ h => absurd h (List.not_mem_nil _)⟩
  | r :: rest, acc => by
    obtain ⟨h1, h2⟩ := foldl_max_ge rest (if r.Cells.length > acc then r.Cells.length else acc)
    rw [List.foldl_cons]
    refine ⟨?_, ?_⟩
    · refine Nat.le_trans ?_ h1
      by_cases h : r.Cells.length > acc
      · rw [if_pos h]; omega
      · rw [if_neg h]
    · intro row hrow
      rcases List.mem_cons.mp hrow with heq | hmem
      · rw [heq]
        refine Nat.le_trans ?_ h1
        by_cases h : r.Cells.length > acc
        · rw [if_pos h]
        · rw [if_neg h]; omega
      · exact h2 row hmem

/-- No row has more cells than the largest cell count. -/
theorem le_getRowsMaxCellCount (sheet : Sheet) (row : Row) (h : row ∈ sheet.Rows) :
    row.Cells.length ≤ getRowsMaxCellCount sheet :=
  (foldl_max_ge sheet.Rows 0).2 row h

theorem fillLoop_length {α : Type} (f : Nat → Option α) : ∀ (count i : Nat) (l : List α),
    fillLoop f i count = some l → l.length = count
  | 0, _, l, h => by
    rw [fillLoop] at h
    rw [← Option.some.inj h]
    rfl
  | count + 1, i, l, h => by
    rw [fillLoop] at h
    cases hf : f i with
    | none => rw [hf] at h; exact Option.noConfusion h
    | some x =>
      rw [hf] at h
      cases hrest : fillLoop f (i + 1) count with
      | none => rw [hrest] at h; exact Option.noConfusion h
      | some xs =>
        rw [hrest] at h
        rw [← Option.some.inj h, List.length_cons, fillLoop_length f count (i + 1) xs hrest]

theorem colsLoop_kinds (colKinds : List Kind) : ∀ (colNames : List (List Char)) (i : Nat)
    (cols : List ColDef), colsLoop colKinds i colNames = some cols →
    cols.map (fun col => col.Kind) = (colKinds.drop i).take colNames.length ∧
      i + colNames.length ≤ colKinds.length ∨ (colNames = [] ∧ cols = [])
  | [], i, cols, h => by
    rw [colsLoop] at h
    exact Or.inr ⟨rfl, (Option.some.inj h).symm⟩
  | colName :: rest, i, cols, h => by
    rw [colsLoop] at h
    cases hk : colKinds[i]? with
    | none => rw [hk] at h; exact Option.noConfusion h
    | some k =>
      rw [hk] at h
      cases hrest : colsLoop colKinds (i + 1) rest with
      | none => rw [hrest] at h; exact Option.noConfusion h
      | some cols1 =>
        rw [hrest] at h
        obtain ⟨hi, hki⟩ := List.getElem?_eq_some.mp hk
        have hdrop : colKinds.drop i = k :: colKinds.drop (i + 1) := by
          rw [List.drop_eq_getElem_cons hi, hki]
        left
        rw [← Option.some.inj h, List.map_cons, hdrop, List.length_cons, List.take_succ_cons]
        rcases colsLoop_kinds colKinds rest (i + 1) cols1 hrest with ⟨h1, h2⟩ | ⟨h1, h2⟩
        · exact ⟨by rw [h1], by omega⟩
        · rw [h1, h2]
          exact ⟨rfl, by simp only [List.length_nil]; omega⟩

/-- What `buildTblDefForSheet` returns on a sheet with a row, whose rows all
have `n ≥ 1` cells. -/
theorem buildTblDefForSheet_uniform (sheet : Sheet) (hasHeader : Bool) (n : Nat)
    (row0 : Row) (rest : List Row) (hrows : sheet.Rows = row0 :: rest) (hn : 1 ≤ n)
    (huniform : ∀ row ∈ sheet.Rows, row.Cells.length = n) :
    buildTblDefForSheet sheet hasHeader
      = .ok ⟨sheet.Name, List.zipWith ColDef.mk
          (if hasHeader then row0.Cells.map fun c => c.Value
            else (List.range n).map GenerateAlphaColName)
          (match sheet.Rows[if hasHeader then 1 else 0]? with
            | none => List.replicate n .Text
            | some row => getKindsFromCells row.Cells)⟩ := by
  have hmax := getRowsMaxCellCount_uniform sheet n row0 rest hrows huniform
  have hrow0 : row0.Cells.length = n :=
    huniform row0 (by rw [hrows]; exact List.mem_cons_self _ _)
  have hfill : (if hasHeader then
        fillLoop (fun i => row0.Cells[i]?.map fun c => c.Value) 0 (getRowsMaxCellCount sheet)
      else fillLoop (fun i => some (GenerateAlphaColName i)) 0 (getRowsMaxCellCount sheet))
      = some (if hasHeader then row0.Cells.map fun c => c.Value
          else (List.range n).map GenerateAlphaColName) := by
    rw [hmax]
    cases hasHeader with
    | true =>
      have := fillLoop_cells row0.Cells []
      rw [List.nil_append, List.length_nil, hrow0] at this
      simp only [if_true, this]
    | false =>
      simp only [Bool.false_eq_true, if_false, fillLoop_total, List.range_eq_range']
  have hlenNames : (if hasHeader then row0.Cells.map fun c => c.Value
      else (List.range n).map GenerateAlphaColName).length = n := by
    cases hasHeader with
    | true => simp only [if_true, List.length_map, hrow0]
    | false => simp only [Bool.false_eq_true, if_false, List.length_map, List.length_range]
  obtain ⟨colKinds, _, hok, hkinds⟩ := buildTblDefForSheet_ok sheet hasHeader row0 rest _ hrows
    (by omega) hfill (fun row hrow => by rw [hlenNames, huniform row hrow])
    (by rw [hlenNames, hmax])
  rw [hok, hkinds, hmax]

/-- The kinds of the columns of a table definition that `buildTblDefForSheet`
returns: those of the cells of the first data row, or `Text` when there is
no data row. -/
theorem buildTblDefForSheet_kinds (sheet : Sheet) (hasHeader : Bool) (tblDef : TableDef)
    (h : buildTblDefForSheet sheet hasHeader = .ok tblDef) :
    tblDef.Cols.map (fun col => col.Kind)
      = (match sheet.Rows[if hasHeader then 1 else 0]? with
        | none => List.replicate (getRowsMaxCellCount sheet) .Text
        | some row => getKindsFromCells row.Cells) ∧
    tblDef.Cols.length = getRowsMaxCellCount sheet := by
  by_cases hz : getRowsMaxCellCount sheet = 0
  · unfold buildTblDefForSheet at h
    simp only [hz, if_true] at h
    exact Outcome.noConfusion h
  · cases hrows : sheet.Rows with
    | nil =>
      exfalso
      apply hz
      unfold getRowsMaxCellCount
      rw [hrows]
      rfl
    | cons row0 rest =>
      have hklen : (match sheet.Rows[if hasHeader then 1 else 0]? with
          | none => List.replicate (getRowsMaxCellCount sheet) Kind.Text
          | some row => getKindsFromCells row.Cells).length ≤ getRowsMaxCellCount sheet := by
        cases hrow : sheet.Rows[if hasHeader then 1 else 0]? with
        | none => simp only [List.length_replicate]; exact Nat.le_refl _
        | some row =>
          simp only [getKindsFromCells, List.length_map]
          exact le_getRowsMaxCellCount sheet row (List.getElem?_mem hrow)
      rw [hrows] at hklen
      unfold buildTblDefForSheet at h
      simp only [if_neg hz, hrows] at h
      cases hnames : (if hasHeader = true then
          fillLoop (fun i => row0.Cells[i]?.map fun c => c.Value) 0 (getRowsMaxCellCount sheet)
        else fillLoop (fun i => some (GenerateAlphaColName i)) 0 (getRowsMaxCellCount sheet)) with
      | none =>
        rw [hnames] at h
        exact Outcome.noConfusion h
      | some colNames =>
        rw [hnames] at h
        have hnlen : colNames.length = getRowsMaxCellCount sheet := by
          cases hasHeader with
          | true =>
            simp only [if_true] at hnames
            exact fillLoop_length _ _ _ _ hnames
          | false =>
            simp only [Bool.false_eq_true, if_false] at hnames
            exact fillLoop_length _ _ _ _ hnames
        cases hcols : colsLoop (match (row0 :: rest)[if hasHeader = true then 1 else 0]? with
            | none => List.replicate (getRowsMaxCellCount sheet) Kind.Text
            | some row => getKindsFromCells row.Cells) 0 colNames with
        | none =>
          simp only [hcols] at h
          exact Outcome.noConfusion h
        | some cols =>
          simp only [hcols, Outcome.ok.injEq] at h
          rw [← h]
          rcases colsLoop_kinds _ colNames 0 cols hcols with ⟨h1, h2⟩ | ⟨h1, _⟩
          · have hlen := congrArg List.length h1
            rw [List.length_map, List.drop_zero, List.length_take] at hlen
            refine ⟨?_, by simp only; omega⟩
            simp only
            rw [h1, List.drop_zero, List.take_of_length_le (by omega)]
          · exfalso
            rw [h1] at hnlen
            exact hz hnlen.symm

/-- C21: `getKindsFromCells` gives one kind for each cell, and for the cell of
column `i`: `Bool` for a bool cell; for a numeric cell `Datetime` if the cell
is a time, else `Int` if `Int64()` succeeds, else `Float` if `Float()`
succeeds, else `Decimal`; `Datetime` for a date cell; `Text` for a cell of
any other type. Every table definition that `buildTblDefForSheet` returns
carries exactly the kinds of the cells of the first data row when the sheet
has one, and only `Text` when it has a header row and no other row; and on a
sheet with a row, whose rows all have the same number `n ≥ 1` of cells,
`buildTblDefForSheet` does return a table definition. -/
theorem getKindsFromCells_spec (cells : List Cell) (sheet : Sheet) (hasHeader : Bool) :
    (getKindsFromCells cells).length = cells.length ∧
    (∀ (i : Nat) (cell : Cell), cells[i]? = some cell →
      ∃ k : Kind, (getKindsFromCells cells)[i]? = some k ∧
        (cell.Typ = .Bool → k = .Bool) ∧
        (cell.Typ = .Numeric → cell.IsTime = true → k = .Datetime) ∧
        (cell.Typ = .Numeric → cell.IsTime = false → cell.Int64.isSome = true → k = .Int) ∧
        (cell.Typ = .Numeric → cell.IsTime = false → cell.Int64 = none →
          cell.Float.isSome = true → k = .Float) ∧
        (cell.Typ = .Numeric → cell.IsTime = false → cell.Int64 = none →
          cell.Float = none → k = .Decimal) ∧
        (cell.Typ = .Date → k = .Datetime) ∧
        (cell.Typ ≠ .Bool → cell.Typ ≠ .Numeric → cell.Typ ≠ .Date → k = .Text)) ∧
    (∀ tblDef : TableDef, buildTblDefForSheet sheet hasHeader = .ok tblDef →
      (∀ row : Row, sheet.Rows[if hasHeader then 1 else 0]? = some row →
        tblDef.Cols.map (fun col => col.Kind) = getKindsFromCells row.Cells) ∧
      (sheet.Rows[if hasHeader then 1 else 0]? = none →
        tblDef.Cols.map (fun col => col.Kind) = List.replicate tblDef.Cols.length .Text)) ∧
    (∀ (n : Nat) (row0 : Row) (rest : List Row), sheet.Rows = row0 :: rest → 1 ≤ n →
      (∀ row ∈ sheet.Rows, row.Cells.length = n) →
      ∃ tblDef, buildTblDefForSheet sheet hasHeader = .ok tblDef) := by
  refine ⟨by simp only [getKindsFromCells, List.length_map], ?_, ?_, ?_⟩
  · intro i cell hcell
    refine ⟨kindOfCell cell, by simp only [getKindsFromCells, List.getElem?_map, hcell,
      Option.map_some'], ?_, ?_, ?_, ?_, ?_, ?_, ?_⟩
    · intro h; simp only [kindOfCell, h]
    · intro h ht; simp only [kindOfCell, h, ht, if_true]
    · intro h ht hi; simp only [kindOfCell, h, ht, hi, Bool.false_eq_true, if_false, if_true]
    · intro h ht hi hf
      simp only [kindOfCell, h, ht, hi, hf, Bool.false_eq_true, if_false, if_true,
        Option.isSome_none]
    · intro h ht hi hf
      simp only [kindOfCell, h, ht, hi, hf, Bool.false_eq_true, if_false,
        Option.isSome_none]
    · intro h; simp only [kindOfCell, h]
    · intro h1 h2 h3
      unfold kindOfCell
      cases hT : cell.Typ with
      | Bool => exact absurd hT h1
      | Numeric => exact absurd hT h2
      | Date => exact absurd hT h3
      | String => rfl
      | StringFormula => rfl
      | Inline => rfl
      | Error => rfl
  · intro tblDef hok
    obtain ⟨hk, hl⟩ := buildTblDefForSheet_kinds sheet hasHeader tblDef hok
    refine ⟨?_, ?_⟩
    · intro row hrow
      rw [hk]
      simp only [hrow]
    · intro hnone
      rw [hk, hl]
      simp only [hnone]
  · intro n row0 rest hrows hn huniform
    exact ⟨_, buildTblDefForSheet_uniform sheet hasHeader n row0 rest hrows hn huniform⟩

/-- C21, on a sheet with a header row and a data row that holds a bool cell,
a numeric cell that is a time, one that is an integer, one that is a float,
one that is neither, a date cell and a string cell: the kinds are `Bool`,
`Datetime`, `Int`, `Float`, `Decimal`, `Datetime`, `Text`; with the header
row alone the kinds are all `Text`. -/
theorem getKindsFromCells_spec_witness :
    (∃ tblDef, buildTblDefForSheet ⟨"Sheet1".toList,
        [⟨[textCell "a", textCell "b", textCell "c", textCell "d", textCell "e",
            textCell "f", textCell "g"]⟩,
          ⟨[⟨.Bool, "1".toList, false, none, none, none, "1".toList, true⟩,
            ⟨.Numeric, "42000".toList, true, some ⟨0⟩, some 42000, some ⟨0⟩, [], false⟩,
            ⟨.Numeric, "7".toList, false, none, some 7, some ⟨0⟩, "7".toList, false⟩,
            ⟨.Numeric, "7.5".toList, false, none, none, some ⟨0⟩, "7.5".toList, false⟩,
            ⟨.Numeric, "x".toList, false, none, none, none, "x".toList, false⟩,
            ⟨.Date, "2020".toList, false, none, none, none, "2020".toList, false⟩,
            textCell "z"]⟩]⟩ true = .ok tblDef ∧
      tblDef.Cols.map (fun col => col.Kind)
        = [.Bool, .Datetime, .Int, .Float, .Decimal, .Datetime, .Text]) ∧
    (∃ tblDef, buildTblDefForSheet ⟨"Sheet1".toList, [⟨[textCell "a", textCell "b"]⟩]⟩ true
        = .ok tblDef ∧
      tblDef.Cols.map (fun col => col.Kind) = [.Text, .Text]) := by
  refine ⟨?_, ?_⟩
  · obtain ⟨_, _, h3, h4⟩ := getKindsFromCells_spec [] ⟨"Sheet1".toList,
        [⟨[textCell "a", textCell "b", textCell "c", textCell "d", textCell "e",
            textCell "f", textCell "g"]⟩,
          ⟨[⟨.Bool, "1".toList, false, none, none, none, "1".toList, true⟩,
            ⟨.Numeric, "42000".toList, true, some ⟨0⟩, some 42000, some ⟨0⟩, [], false⟩,
            ⟨.Numeric, "7".toList, false, none, some 7, some ⟨0⟩, "7".toList, false⟩,
            ⟨.Numeric, "7.5".toList, false, none, none, some ⟨0⟩, "7.5".toList, false⟩,
            ⟨.Numeric, "x".toList, false, none, none, none, "x".toList, false⟩,
            ⟨.Date, "2020".toList, false, none, none, none, "2020".toList, false⟩,
            textCell "z"]⟩]⟩ true
    obtain ⟨tblDef, hok⟩ := h4 7 _ _ rfl (by decide) (by decide)
    exact ⟨tblDef, hok, (h3 tblDef hok).1 _ rfl⟩
  · obtain ⟨_, _, h3, h4⟩ := getKindsFromCells_spec []
      ⟨"Sheet1".toList, [⟨[textCell "a", textCell "b"]⟩]⟩ true
    obtain ⟨tblDef, hok⟩ := h4 2 _ _ rfl (by decide) (by decide)
    have hlen : tblDef.Cols.length = 2 := by
      have hd : buildTblDefForSheet ⟨"Sheet1".toList, [⟨[textCell "a", textCell "b"]⟩]⟩ true
          = .ok ⟨"Sheet1".toList, [⟨"a".toList, .Text⟩, ⟨"b".toList, .Text⟩]⟩ := by decide
      rw [hd] at hok
      rw [← Outcome.ok.inj hok]
      rfl
    have := (h3 tblDef hok).2 rfl
    rw [hlen] at this
    exact ⟨tblDef, hok, this⟩

/-- C22 (as stated, refuted): on a sheet without header whose first row holds
the numeric cell `7` and whose second row holds the string cell `x`, the kind
inferred for the second cell (`Text`) differs from the kind inferred from the
first data row (`Int`), and the column of the table definition that
`buildTblDefForSheet` returns has the kind `Int`, not `Text`. -/
theorem buildTblDefForSheet_no_widening :
    kindOfCell (textCell "x") = .Text ∧
    kindOfCell ⟨.Numeric, "7".toList, false, none, some 7, some ⟨0⟩, "7".toList, false⟩
      = .Int ∧
    buildTblDefForSheet ⟨"Sheet1".toList,
        [⟨[⟨.Numeric, "7".toList, false, none, some 7, some ⟨0⟩, "7".toList, false⟩]⟩,
          ⟨[textCell "x"]⟩]⟩ false
      = .ok ⟨"Sheet1".toList, [⟨"A".toList, .Int⟩]⟩ ∧
    buildTblDefForSheet ⟨"Sheet1".toList,
        [⟨[⟨.Numeric, "7".toList, false, none, some 7, some ⟨0⟩, "7".toList, false⟩]⟩,
          ⟨[textCell "x"]⟩]⟩ false
      ≠ .ok ⟨"Sheet1".toList, [⟨"A".toList, .Text⟩]⟩ := by
  decide

/-- C22 (amended): let the rows of a sheet be `head ++ later`, where `head`
holds the rows up to and including the first data row (two rows with a
header, one without). In every table definition that `buildTblDefForSheet`
returns, the kind of column `i` is the kind inferred from cell `i` of the
first data row, whatever cells the rows of `later` hold: replacing `later` by
any other rows `other` leaves the kinds of the columns as they are. -/
theorem buildTblDefForSheet_first_data_row (name : List Char) (hasHeader : Bool)
    (head later other : List Row) (row : Row) (tblDef : TableDef)
    (hrow : head[if hasHeader then 1 else 0]? = some row)
    (hok : buildTblDefForSheet ⟨name, head ++ later⟩ hasHeader = .ok tblDef) :
    tblDef.Cols.map (fun col => col.Kind) = getKindsFromCells row.Cells ∧
    (∀ i : Nat, tblDef.Cols[i]?.map (fun col => col.Kind) = row.Cells[i]?.map kindOfCell) ∧
    (∀ tblDef2 : TableDef, buildTblDefForSheet ⟨name, head ++ other⟩ hasHeader = .ok tblDef2 →
      tblDef2.Cols.map (fun col => col.Kind) = tblDef.Cols.map fun col => col.Kind) := by
  have hget : ∀ rows : List Row, (head ++ rows)[if hasHeader then 1 else 0]? = some row := by
    intro rows
    obtain ⟨hlt, _⟩ := List.getElem?_eq_some.mp hrow
    rw [List.getElem?_append_left hlt]
    exact hrow
  have hk : ∀ (rows : List Row) (t : TableDef),
      buildTblDefForSheet ⟨name, head ++ rows⟩ hasHeader = .ok t →
      t.Cols.map (fun col => col.Kind) = getKindsFromCells row.Cells := by
    intro rows t ht
    have h := (buildTblDefForSheet_kinds _ hasHeader t ht).1
    simp only [hget rows] at h
    exact h
  have h1 := hk later tblDef hok
  refine ⟨h1, ?_, ?_⟩
  · intro i
    rw [← List.getElem?_map, h1]
    simp only [getKindsFromCells, List.getElem?_map]
  · intro tblDef2 h2
    rw [hk other tblDef2 h2, h1]

/-- C22 (amended), on the sheet without header with the rows `7` (numeric)
and `x` (string): the kind of the column is `Int`, as it is without the
second row. -/
theorem buildTblDefForSheet_first_data_row_witness :
    (∃ tblDef, buildTblDefForSheet ⟨"Sheet1".toList,
        [⟨[⟨.Numeric, "7".toList, false, none, some 7, some ⟨0⟩, "7".toList, false⟩]⟩,
          ⟨[textCell "x"]⟩]⟩ false = .ok tblDef ∧
      tblDef.Cols.map (fun col => col.Kind) = [.Int]) :=
  ⟨⟨"Sheet1".toList, [⟨"A".toList, .Int⟩]⟩, by decide,
    (buildTblDefForSheet_first_data_row "Sheet1".toList false
      [⟨[⟨.Numeric, "7".toList, false, none, some 7, some ⟨0⟩, "7".toList, false⟩]⟩]
      [⟨[textCell "x"]⟩] []
      ⟨[⟨.Numeric, "7".toList, false, none, some 7, some ⟨0⟩, "7".toList, false⟩]⟩
      ⟨"Sheet1".toList, [⟨"A".toList, .Int⟩]⟩ rfl (by decide)).1⟩

/-! ### The types of the columns -/

/-- One round of the loop of `getColTypes` over the cells of a row. -/
theorem colTypesCells_cons (i : Nat) (cell : Cell) (rest : List Cell)
    (types : List (Option CellType)) :
    colTypesCells i (cell :: rest) types =
      match types[i]? with
      | none => none
      | some none => colTypesCells (i + 1) rest (types.set i (some cell.Typ))
      | some (some typ) =>
        if typ = cell.Typ then colTypesCells (i + 1) rest types
        else colTypesCells (i + 1) rest (types.set i (some .String)) := by
  rw [colTypesCells]

/-- A column that has the string type keeps it through the cells of a row. -/
theorem colTypesCells_string (i : Nat) : ∀ (cells : List Cell) (j : Nat)
    (types out : List (Option CellType)), colTypesCells j cells types = some out →
    types[i]? = some (some .String) → out[i]? = some (some .String)
  | [], j, types, out, h, hs => by
    rw [colTypesCells] at h
    rw [← Option.some.inj h]
    exact hs
  | cell :: rest, j, types, out, h, hs => by
    rw [colTypesCells_cons] at h
    cases hj : types[j]? with
    | none => rw [hj] at h; exact Option.noConfusion h
    | some t =>
      rw [hj] at h
      have hne : t = none → j ≠ i := by
        intro ht hji
        rw [hji, hs, ht] at hj
        exact Option.noConfusion (Option.some.inj hj)
      cases t with
      | none =>
        refine colTypesCells_string i rest (j + 1) _ out h ?_
        rw [List.getElem?_set_ne (hne rfl)]
        exact hs
      | some typ =>
        by_cases heq : typ = cell.Typ
        · simp only [heq, if_true] at h
          exact colTypesCells_string i rest (j + 1) _ out h hs
        · simp only [heq, if_false] at h
          refine colTypesCells_string i rest (j + 1) _ out h ?_
          by_cases hji : j = i
          · obtain ⟨hlt, _⟩ := List.getElem?_eq_some.mp hs
            rw [hji, List.getElem?_set_self hlt]
          · rw [List.getElem?_set_ne hji]
            exact hs

/-- A column that has the string type keeps it through the rows. -/
theorem colTypesRows_string (i : Nat) : ∀ (rows : List Row) (types out : List (Option CellType)),
    colTypesRows rows types = some out →
    types[i]? = some (some .String) → out[i]? = some (some .String)
  | [], types, out, h, hs => by
    rw [colTypesRows] at h
    rw [← Option.some.inj h]
    exact hs
  | row :: rest, types, out, h, hs => by
    rw [colTypesRows] at h
    cases hrow : colTypesCells 0 row.Cells types with
    | none => rw [hrow] at h; exact Option.noConfusion h
    | some types1 =>
      rw [hrow] at h
      exact colTypesRows_string i rest types1 out h
        (colTypesCells_string i row.Cells 0 types types1 hrow hs)

theorem colTypesRows_append : ∀ (pre post : List Row) (types : List (Option CellType)),
    colTypesRows (pre ++ post) types =
      match colTypesRows pre types with
      | none => none
      | some types1 => colTypesRows post types1
  | [], post, types => rfl
  | row :: rest, post, types => by
    rw [List.cons_append, colTypesRows, colTypesRows]
    cases colTypesCells 0 row.Cells types with
    | none => rfl
    | some types1 => exact colTypesRows_append rest post types1

theorem derefTypes_getElem : ∀ (types : List (Option CellType)) (ret : List CellType) (i : Nat)
    (typ : CellType), derefTypes types = some ret → types[i]? = some (some typ) →
    ret[i]? = some typ
  | [], _, i, _, _, hs => by simp at hs
  | none :: _, _, _, _, h, _ => by rw [derefTypes] at h; exact Option.noConfusion h
  | some t :: rest, ret, i, typ, h, hs => by
    rw [derefTypes] at h
    cases hrest : derefTypes rest with
    | none => rw [hrest] at h; exact Option.noConfusion h
    | some ret1 =>
      rw [hrest] at h
      rw [← Option.some.inj h]
      cases i with
      | zero =>
        rw [List.getElem?_cons_zero] at hs ⊢
        rw [Option.some.inj hs]
      | succ i =>
        rw [List.getElem?_cons_succ] at hs ⊢
        exact derefTypes_getElem rest ret1 i typ hrest hs

/-- The loop over the cells of a row ends when the row has no more cells than
the array has columns; it gives every column of the row a type and takes no
type away. -/
theorem colTypesCells_total : ∀ (cells : List Cell) (j : Nat) (types : List (Option CellType)),
    j + cells.length ≤ types.length →
    ∃ out, colTypesCells j cells types = some out ∧ out.length = types.length ∧
      (∀ i, HasType types i → HasType out i) ∧
      (∀ i, j ≤ i → i < j + cells.length → HasType out i)
  | [], j, types, _ =>
    ⟨types, by rw [colTypesCells], rfl, fun _ h => h, fun i h1 h2 => by
      simp only [List.length_nil] at h2; omega⟩
  | cell :: rest, j, types, hlen => by
    rw [List.length_cons] at hlen
    have hj : j < types.length := by omega
    have hset : ∀ (x : CellType), ∃ out,
        colTypesCells (j + 1) rest (types.set j (some x)) = some out ∧
        out.length = types.length ∧ (∀ i, HasType types i → HasType out i) ∧
        (∀ i, j ≤ i → i < j + (cell :: rest).length → HasType out i) := by
      intro x
      obtain ⟨out, h1, h2, h3, h4⟩ := colTypesCells_total rest (j + 1) (types.set j (some x))
        (by rw [List.length_set]; omega)
      have hjset : HasType (types.set j (some x)) j := ⟨x, List.getElem?_set_self hj⟩
      refine ⟨out, h1, by rw [h2, List.length_set], ?_, ?_⟩
      · intro i hi
        by_cases hji : j = i
        · rw [← hji]; exact h3 j hjset
        · apply h3
          obtain ⟨t, ht⟩ := hi
          exact ⟨t, by rw [List.getElem?_set_ne hji]; exact ht⟩
      · intro i h5 h6
        rw [List.length_cons] at h6
        by_cases hji : j = i
        · rw [← hji]; exact h3 j hjset
        · exact h4 i (by omega) (by omega)
    rw [colTypesCells_cons]
    cases hget : types[j]? with
    | none =>
      rw [List.getElem?_eq_none_iff] at hget
      omega
    | some t =>
      cases t with
      | none => exact hset cell.Typ
      | some typ =>
        by_cases heq : typ = cell.Typ
        · simp only [heq, if_true]
          obtain ⟨out, h1, h2, h3, h4⟩ := colTypesCells_total rest (j + 1) types (by omega)
          refine ⟨out, h1, h2, h3, ?_⟩
          intro i h5 h6
          rw [List.length_cons] at h6
          by_cases hji : j = i
          · rw [← hji]; exact h3 j ⟨typ, hget⟩
          · exact h4 i (by omega) (by omega)
        · simp only [heq, if_false]
          exact hset .String

/-- The loop over the rows ends on rows that have as many cells as the array
has columns, and after a first row every column has a type. -/
theorem colTypesRows_total (n : Nat) : ∀ (rows : List Row) (types : List (Option CellType)),
    types.length = n → (∀ row ∈ rows, row.Cells.length = n) →
    ∃ out, colTypesRows rows types = some out ∧ out.length = n ∧
      (∀ i, HasType types i → HasType out i) ∧
      (rows ≠ [] → ∀ i, i < n → HasType out i)
  | [], types, hlen, _ =>
    ⟨types, by rw [colTypesRows], hlen, fun _ h => h, fun h => absurd rfl h⟩
  | row :: rest, types, hlen, hrows => by
    have hrow : row.Cells.length = n := hrows row (List.mem_cons_self _ _)
    obtain ⟨t1, h1, h2, h3, h4⟩ := colTypesCells_total row.Cells 0 types (by omega)
    obtain ⟨out, g1, g2, g3, _⟩ := colTypesRows_total n rest t1 (by rw [h2, hlen])
      fun r hr => hrows r (List.mem_cons_of_mem _ hr)
    refine ⟨out, by rw [colTypesRows, h1]; exact g1, g2, fun i hi => g3 i (h3 i hi), ?_⟩
    intro _ i hi
    exact g3 i (h4 i (Nat.zero_le _) (by omega))

theorem derefTypes_total : ∀ (types : List (Option CellType)),
    (∀ i, i < types.length → HasType types i) → ∃ ret, derefTypes types = some ret
  | [], _ => ⟨[], rfl⟩
  | none :: rest, h => by
    obtain ⟨t, ht⟩ := h 0 (by simp)
    rw [List.getElem?_cons_zero] at ht
    exact Option.noConfusion (Option.some.inj ht)
  | some typ :: rest, h => by
    obtain ⟨ret, hret⟩ := derefTypes_total rest fun i hi => by
      obtain ⟨t, ht⟩ := h (i + 1) (by simp only [List.length_cons]; omega)
      rw [List.getElem?_cons_succ] at ht
      exact ⟨t, ht⟩
    exact ⟨typ :: ret, by rw [derefTypes, hret]⟩

/-- C23: in `getColTypes`, if after the first `k` data rows column `i` has the
string type (as it has once two of its cells disagreed), then it has the
string type after any `j ≥ k` data rows, and in every result that
`getColTypes` returns, whatever cells follow in that column. On a sheet whose
rows all have the same number of cells `getColTypes` does return a result,
in which column `i` has the string type. -/
theorem getColTypes_never_narrows (sheet : Sheet) (hasHeader : Bool) (k i : Nat)
    (typesK : List (Option CellType))
    (hscan : colTypesRows ((sheet.Rows.drop (if hasHeader then 1 else 0)).take k)
      (List.replicate (getRowsMaxCellCount sheet) none) = some typesK)
    (hdeg : typesK[i]? = some (some .String)) :
    (∀ (j : Nat) (typesJ : List (Option CellType)), k ≤ j →
      colTypesRows ((sheet.Rows.drop (if hasHeader then 1 else 0)).take j)
        (List.replicate (getRowsMaxCellCount sheet) none) = some typesJ →
      typesJ[i]? = some (some .String)) ∧
    (∀ ret : List CellType, getColTypes sheet hasHeader = some ret →
      ret[i]? = some .String) ∧
    (∀ n : Nat, (∀ row ∈ sheet.Rows, row.Cells.length = n) →
      ∃ ret, getColTypes sheet hasHeader = some ret ∧ ret[i]? = some .String) := by
  have hret : ∀ ret : List CellType, getColTypes sheet hasHeader = some ret →
      ret[i]? = some .String := by
    intro ret h
    unfold getColTypes at h
    simp only at h
    rw [← List.take_append_drop k (sheet.Rows.drop (if hasHeader then 1 else 0)),
      colTypesRows_append, hscan] at h
    cases hpost : colTypesRows ((sheet.Rows.drop (if hasHeader then 1 else 0)).drop k)
        typesK with
    | none => simp only [hpost] at h; exact Option.noConfusion h
    | some types =>
      simp only [hpost] at h
      exact derefTypes_getElem types ret i .String h
        (colTypesRows_string i _ typesK types hpost hdeg)
  refine ⟨?_, hret, ?_⟩
  · intro j typesJ hkj hj
    have hsplit : (sheet.Rows.drop (if hasHeader then 1 else 0)).take j
        = (sheet.Rows.drop (if hasHeader then 1 else 0)).take k
          ++ ((sheet.Rows.drop (if hasHeader then 1 else 0)).drop k).take (j - k) := by
      have hjk : j = k + (j - k) := by omega
      conv_lhs => rw [hjk]
      exact List.take_add _ k (j - k)
    rw [hsplit, colTypesRows_append, hscan] at hj
    exact colTypesRows_string i _ typesK typesJ hj hdeg
  · intro n huniform
    have hdata : sheet.Rows.drop (if hasHeader then 1 else 0) ≠ [] := by
      intro hnil
      rw [hnil, List.take_nil, colTypesRows] at hscan
      rw [← Option.some.inj hscan, List.getElem?_replicate] at hdeg
      by_cases hi : i < getRowsMaxCellCount sheet
      · rw [if_pos hi] at hdeg
        exact Option.noConfusion (Option.some.inj hdeg)
      · rw [if_neg hi] at hdeg
        exact Option.noConfusion hdeg
    have hmax : getRowsMaxCellCount sheet = n := by
      cases hrows : sheet.Rows with
      | nil => rw [hrows] at hdata; simp at hdata
      | cons row0 rest => exact getRowsMaxCellCount_uniform sheet n row0 rest hrows huniform
    obtain ⟨out, h1, h2, _, h4⟩ := colTypesRows_total n
      (sheet.Rows.drop (if hasHeader then 1 else 0))
      (List.replicate (getRowsMaxCellCount sheet) none)
      (by rw [List.length_replicate, hmax])
      (fun row hrow => huniform row (List.mem_of_mem_drop hrow))
    obtain ⟨ret, hd⟩ := derefTypes_total out fun x hx => h4 hdata x (by omega)
    have hget : getColTypes sheet hasHeader = some ret := by
      unfold getColTypes
      simp only [h1, hd]
    exact ⟨ret, hget, hret ret hget⟩

/-- C23, on a sheet without header whose only column holds a numeric cell,
then a string cell, then two numeric cells: after two rows the type of the
column is the string type, and `getColTypes` returns a result in which the
column has the string type. -/
theorem getColTypes_never_narrows_witness :
    colTypesRows [⟨[⟨.Numeric, "7".toList, false, none, some 7, none, "7".toList, false⟩]⟩,
        ⟨[textCell "x"]⟩] [none] = some [some .String] ∧
    ∃ ret, getColTypes ⟨"Sheet1".toList,
      [⟨[⟨.Numeric, "7".toList, false, none, some 7, none, "7".toList, false⟩]⟩,
        ⟨[textCell "x"]⟩,
        ⟨[⟨.Numeric, "8".toList, false, none, some 8, none, "8".toList, false⟩]⟩,
        ⟨[⟨.Numeric, "9".toList, false, none, some 9, none, "9".toList, false⟩]⟩]⟩ false
      = some ret ∧ ret[0]? = some .String :=
  ⟨by decide,
    (getColTypes_never_narrows ⟨"Sheet1".toList,
      [⟨[⟨.Numeric, "7".toList, false, none, some 7, none, "7".toList, false⟩]⟩,
        ⟨[textCell "x"]⟩,
        ⟨[⟨.Numeric, "8".toList, false, none, some 8, none, "8".toList, false⟩]⟩,
        ⟨[⟨.Numeric, "9".toList, false, none, some 9, none, "9".toList, false⟩]⟩]⟩ false 2 0
      [some .String] (by decide) (by decide)).2.2 1 (by decide)⟩

/-! ### The names of the columns -/

theorem colsLoop_names (colKinds : List Kind) : ∀ (colNames : List (List Char)) (i : Nat)
    (cols : List ColDef), colsLoop colKinds i colNames = some cols →
    cols.map (fun col => col.Name) = colNames
  | [], i, cols, h => by
    rw [colsLoop] at h
    rw [← Option.some.inj h]
    rfl
  | colName :: rest, i, cols, h => by
    rw [colsLoop] at h
    cases hk : colKinds[i]? with
    | none => rw [hk] at h; exact Option.noConfusion h
    | some k =>
      rw [hk] at h
      cases hrest : colsLoop colKinds (i + 1) rest with
      | none => rw [hrest] at h; exact Option.noConfusion h
      | some cols1 =>
        rw [hrest] at h
        rw [← Option.some.inj h, List.map_cons, colsLoop_names colKinds rest (i + 1) cols1 hrest]

theorem fillLoop_cells_inv (cells : List Cell) : ∀ (count i : Nat) (l : List (List Char)),
    fillLoop (fun i => cells[i]?.map fun c => c.Value) i count = some l →
    l = ((cells.drop i).take count).map (fun c => c.Value) ∧
      (0 < count → i + count ≤ cells.length)
  | 0, i, l, h => by
    rw [fillLoop] at h
    rw [← Option.some.inj h]
    exact ⟨by rw [List.take_zero]; rfl, fun h0 => absurd h0 (Nat.lt_irrefl 0)⟩
  | count + 1, i, l, h => by
    rw [fillLoop] at h
    cases hc : cells[i]? with
    | none => simp only [hc, Option.map_none'] at h; exact Option.noConfusion h
    | some cell =>
      simp only [hc, Option.map_some'] at h
      cases hrest : fillLoop (fun i => cells[i]?.map fun c => c.Value) (i + 1) count with
      | none => simp only [hrest] at h; exact Option.noConfusion h
      | some xs =>
        simp only [hrest, Option.some.injEq] at h
        obtain ⟨hi, hci⟩ := List.getElem?_eq_some.mp hc
        obtain ⟨h1, h2⟩ := fillLoop_cells_inv cells count (i + 1) xs hrest
        refine ⟨?_, fun _ => ?_⟩
        · rw [← h, List.drop_eq_getElem_cons hi, List.take_succ_cons, List.map_cons, hci, h1]
        · by_cases hcount : 0 < count
          · have := h2 hcount
            omega
          · omega

/-- The names of the columns of a table definition that `buildTblDefForSheet`
returns: the values of the cells of row 0 with a header, the generated names
without one. -/
theorem buildTblDefForSheet_names_eq (sheet : Sheet) (hasHeader : Bool) (tblDef : TableDef)
    (h : buildTblDefForSheet sheet hasHeader = .ok tblDef) :
    ∃ row0 rest, sheet.Rows = row0 :: rest ∧
      tblDef.Cols.map (fun col => col.Name)
        = if hasHeader then row0.Cells.map fun c => c.Value
          else (List.range (getRowsMaxCellCount sheet)).map GenerateAlphaColName := by
  by_cases hz : getRowsMaxCellCount sheet = 0
  · unfold buildTblDefForSheet at h
    simp only [hz, if_true] at h
    exact Outcome.noConfusion h
  · cases hrows : sheet.Rows with
    | nil =>
      exfalso
      apply hz
      unfold getRowsMaxCellCount
      rw [hrows]
      rfl
    | cons row0 rest =>
      refine ⟨row0, rest, rfl, ?_⟩
      have hle : row0.Cells.length ≤ getRowsMaxCellCount sheet :=
        le_getRowsMaxCellCount sheet row0 (by rw [hrows]; exact List.mem_cons_self _ _)
      unfold buildTblDefForSheet at h
      simp only [if_neg hz, hrows] at h
      cases hnames : (if hasHeader = true then
          fillLoop (fun i => row0.Cells[i]?.map fun c => c.Value) 0 (getRowsMaxCellCount sheet)
        else fillLoop (fun i => some (GenerateAlphaColName i)) 0 (getRowsMaxCellCount sheet)) with
      | none =>
        rw [hnames] at h
        exact Outcome.noConfusion h
      | some colNames =>
        rw [hnames] at h
        cases hcols : colsLoop (match (row0 :: rest)[if hasHeader = true then 1 else 0]? with
            | none => List.replicate (getRowsMaxCellCount sheet) Kind.Text
            | some row => getKindsFromCells row.Cells) 0 colNames with
        | none =>
          simp only [hcols] at h
          exact Outcome.noConfusion h
        | some cols =>
          simp only [hcols, Outcome.ok.injEq] at h
          rw [← h]
          simp only
          rw [colsLoop_names _ colNames 0 cols hcols]
          cases hasHeader with
          | true =>
            simp only [if_true] at hnames ⊢
            obtain ⟨h1, h2⟩ := fillLoop_cells_inv row0.Cells _ 0 colNames hnames
            have := h2 (by omega)
            rw [h1, List.drop_zero, List.take_of_length_le (by omega)]
          | false =>
            simp only [Bool.false_eq_true, if_false, fillLoop_total, Option.some.injEq]
              at hnames ⊢
            rw [← hnames, List.range_eq_range']

theorem alphaColLetters_ne_nil (fuel n : Nat) : alphaColLetters (fuel + 1) n ≠ [] := by
  rw [alphaColLetters]
  exact List.cons_ne_nil _ _

theorem letter_injective : ∀ a : Fin 26, ∀ b : Fin 26,
    Char.ofNat (a.val + 65) = Char.ofNat (b.val + 65) → a = b := by
  decide

theorem alphaColLetters_injective : ∀ (fuel fuel2 n m : Nat), n < fuel → m < fuel2 →
    alphaColLetters fuel n = alphaColLetters fuel2 m → n = m
  | 0, _, _, _, hn, _, _ => absurd hn (Nat.not_lt_zero _)
  | _ + 1, 0, _, _, _, hm, _ => absurd hm (Nat.not_lt_zero _)
  | fuel + 1, fuel2 + 1, n, m, hn, hm, h => by
    rw [alphaColLetters, alphaColLetters] at h
    have hhead := List.head_eq_of_cons_eq h
    have htail := List.tail_eq_of_cons_eq h
    have hmod : n % 26 = m % 26 := by
      have := letter_injective ⟨n % 26, Nat.mod_lt _ (by decide)⟩
        ⟨m % 26, Nat.mod_lt _ (by decide)⟩ hhead
      exact congrArg Fin.val this
    by_cases h1 : n / 26 = 0
    · by_cases h2 : m / 26 = 0
      · omega
      · rw [if_pos h1, if_neg h2] at htail
        cases fuel2 with
        | zero => omega
        | succ f => exact absurd htail.symm (alphaColLetters_ne_nil f _)
    · by_cases h2 : m / 26 = 0
      · rw [if_neg h1, if_pos h2] at htail
        cases fuel with
        | zero => omega
        | succ f => exact absurd htail (alphaColLetters_ne_nil f _)
      · rw [if_neg h1, if_neg h2] at htail
        have := alphaColLetters_injective fuel fuel2 (n / 26 - 1) (m / 26 - 1)
          (by omega) (by omega) htail
        omega

/-- The generated names are not empty and differ from one another. -/
theorem GenerateAlphaColName_injective :
    (∀ n, GenerateAlphaColName n ≠ []) ∧ Function.Injective GenerateAlphaColName := by
  refine ⟨?_, ?_⟩
  · intro n h
    unfold GenerateAlphaColName at h
    rw [List.reverse_eq_nil_iff] at h
    exact alphaColLetters_ne_nil n n h
  · intro n m h
    unfold GenerateAlphaColName at h
    exact alphaColLetters_injective (n + 1) (m + 1) n m (by omega) (by omega)
      (List.reverse_injective h)

/-- C24 (as stated, refuted): with a header row whose two cells both hold `a`,
`buildTblDefForSheet` returns two columns named `a`; with a header row whose
cell is empty, it returns a column with the empty name. No generated name
takes the place of the repeated or of the empty header cell. -/
theorem buildTblDefForSheet_header_names_kept :
    buildTblDefForSheet ⟨"Sheet1".toList,
        [⟨[textCell "a", textCell "a"]⟩, ⟨[textCell "1", textCell "2"]⟩]⟩ true
      = .ok ⟨"Sheet1".toList, [⟨"a".toList, .Text⟩, ⟨"a".toList, .Text⟩]⟩ ∧
    buildTblDefForSheet ⟨"Sheet1".toList, [⟨[textCell ""]⟩, ⟨[textCell "1"]⟩]⟩ true
      = .ok ⟨"Sheet1".toList, [⟨[], .Text⟩]⟩ ∧
    ¬ (["a".toList, "a".toList] : List (List Char)).Nodup := by
  decide

/-- C24 (amended): in every table definition that `buildTblDefForSheet`
returns without a header, the column names are the generated names `A`, `B`,
..., which are not empty and pairwise distinct. With a header the column
names are the values of the cells of row 0 as they are: an empty or repeated
header cell gives an empty or repeated column name. -/
theorem buildTblDefForSheet_names (sheet : Sheet) (hasHeader : Bool) (tblDef : TableDef)
    (hok : buildTblDefForSheet sheet hasHeader = .ok tblDef) :
    (hasHeader = false →
      tblDef.Cols.map (fun col => col.Name)
        = (List.range tblDef.Cols.length).map GenerateAlphaColName ∧
      (∀ name ∈ tblDef.Cols.map (fun col => col.Name), name ≠ []) ∧
      (tblDef.Cols.map fun col => col.Name).Nodup) ∧
    (hasHeader = true → ∀ row0 : Row, sheet.Rows[0]? = some row0 →
      tblDef.Cols.map (fun col => col.Name) = row0.Cells.map fun c => c.Value) := by
  obtain ⟨row0, rest, hrows, hnames⟩ := buildTblDefForSheet_names_eq sheet hasHeader tblDef hok
  refine ⟨?_, ?_⟩
  · intro hh
    rw [hh] at hnames
    simp only [Bool.false_eq_true, if_false] at hnames
    have hlen : tblDef.Cols.length = getRowsMaxCellCount sheet := by
      have := congrArg List.length hnames
      rw [List.length_map, List.length_map, List.length_range] at this
      exact this
    rw [hlen, hnames]
    refine ⟨rfl, ?_, ?_⟩
    · intro name hname
      obtain ⟨n, _, hn⟩ := List.mem_map.mp hname
      rw [← hn]
      exact GenerateAlphaColName_injective.1 n
    · exact List.Nodup.map GenerateAlphaColName_injective.2 (List.nodup_range _)
  · intro hh r hr
    rw [hrows, List.getElem?_cons_zero] at hr
    rw [hh] at hnames
    simp only [if_true] at hnames
    rw [hnames, Option.some.inj hr]

/-- C24 (amended), on a sheet of two rows of two cells: without a header the
columns are named `A` and `B`; with the header cells `a` and `a` they are
both named `a`. -/
theorem buildTblDefForSheet_names_witness :
    (TableDef.mk "Sheet1".toList [⟨"A".toList, .Text⟩, ⟨"B".toList, .Text⟩]).Cols.map
        (fun col => col.Name)
      = (List.range 2).map GenerateAlphaColName ∧
    (TableDef.mk "Sheet1".toList [⟨"a".toList, .Text⟩, ⟨"a".toList, .Text⟩]).Cols.map
        (fun col => col.Name)
      = ["a".toList, "a".toList] :=
  ⟨((buildTblDefForSheet_names ⟨"Sheet1".toList,
        [⟨[textCell "a", textCell "a"]⟩, ⟨[textCell "1", textCell "2"]⟩]⟩ false
      ⟨"Sheet1".toList, [⟨"A".toList, .Text⟩, ⟨"B".toList, .Text⟩]⟩ (by decide)).1 rfl).1,
    (buildTblDefForSheet_names ⟨"Sheet1".toList,
        [⟨[textCell "a", textCell "a"]⟩, ⟨[textCell "1", textCell "2"]⟩]⟩ true
      ⟨"Sheet1".toList, [⟨"a".toList, .Text⟩, ⟨"a".toList, .Text⟩]⟩ (by decide)).2 rfl
      ⟨[textCell "a", textCell "a"]⟩ rfl⟩

/-! ### Row ranges -/

theorem FindRowRanges_Build : ∀ query : List (List Element),
    FindRowRanges (Build query) = query.flatten.filterMap rowRangeOf
  | [] => rfl
  | segment :: rest => by
    have ih := FindRowRanges_Build rest
    unfold FindRowRanges Build at ih ⊢
    simp only [List.map_cons, List.flatten_cons, List.filterMap_append] at ih ⊢
    rw [ih, List.filterMap_filterMap]
    congr 1
    apply List.filterMap_congr
    intro e _
    unfold rowRangeOf
    cases buildElement e with
    | none => rfl
    | some node => cases node <;> rfl

theorem rowRangeOf_none_of_all : ∀ elements : List Element,
    elements.all (fun e => !isRowRange e) = true → elements.filterMap rowRangeOf = []
  | [], _ => rfl
  | e :: rest, h => by
    rw [List.all_cons, Bool.and_eq_true] at h
    have he : rowRangeOf e = none := by
      cases e with
      | rowRange r => simp [isRowRange] at h
      | selector text => rfl
      | func name => rfl
      | expr text => rfl
    rw [List.filterMap_cons, he]
    exact rowRangeOf_none_of_all rest h.2

/-- The row range nodes of the AST of a query that holds the row range `r`
and no other. -/
theorem FindRowRanges_single (r : RowRangeExpr) (pre post : List (List Element))
    (before after : List Element)
    (hpre : pre.flatten.all (fun e => !isRowRange e) = true)
    (hbefore : before.all (fun e => !isRowRange e) = true)
    (hafter : after.all (fun e => !isRowRange e) = true)
    (hpost : post.flatten.all (fun e => !isRowRange e) = true) :
    FindRowRanges (Build (pre ++ [before ++ [.rowRange r] ++ after] ++ post))
      = (rowRangeOf (.rowRange r)).toList := by
  rw [FindRowRanges_Build]
  simp only [List.flatten_append, List.flatten_cons, List.flatten_nil, List.append_nil,
    List.filterMap_append, rowRangeOf_none_of_all _ hpre, rowRangeOf_none_of_all _ hbefore,
    rowRangeOf_none_of_all _ hafter, rowRangeOf_none_of_all _ hpost, List.nil_append]
  cases hr : rowRangeOf (.rowRange r) with
  | none => simp only [List.filterMap_cons, hr, List.filterMap_nil, Option.toList]
  | some rr => simp only [List.filterMap_cons, hr, List.filterMap_nil, Option.toList]

/-- C25: for all natural numbers `n` and `m`, and every query that holds one
row range and no other, the AST holds exactly one `RowRange` node, with
(Offset, Limit) = (n, 1) for `[n]`, (n, max(0, m - n)) for `[n:m]`, (0, m)
for `[:m]` and (n, -1) for `[n:]`; for `[]` the AST holds no `RowRange`
node. -/
theorem Build_row_range (n m : Nat) (pre post : List (List Element))
    (before after : List Element)
    (hpre : pre.flatten.all (fun e => !isRowRange e) = true)
    (hbefore : before.all (fun e => !isRowRange e) = true)
    (hafter : after.all (fun e => !isRowRange e) = true)
    (hpost : post.flatten.all (fun e => !isRowRange e) = true) :
    FindRowRanges (Build (pre ++ [before ++ [.rowRange (.index n)] ++ after] ++ post))
      = [⟨n, 1⟩] ∧
    FindRowRanges (Build (pre ++ [before ++ [.rowRange (.span n m)] ++ after] ++ post))
      = [⟨n, max 0 ((m : Int) - (n : Int))⟩] ∧
    FindRowRanges (Build (pre ++ [before ++ [.rowRange (.upTo m)] ++ after] ++ post))
      = [⟨0, m⟩] ∧
    FindRowRanges (Build (pre ++ [before ++ [.rowRange (.startingAt n)] ++ after] ++ post))
      = [⟨n, -1⟩] ∧
    FindRowRanges (Build (pre ++ [before ++ [.rowRange .all] ++ after] ++ post)) = [] ∧
    CountRowRanges (Build (pre ++ [before ++ [.rowRange (.span n m)] ++ after] ++ post))
      = 1 ∧
    CountRowRanges (Build (pre ++ [before ++ [.rowRange .all] ++ after] ++ post)) = 0 := by
  have h := fun r => FindRowRanges_single r pre post before after hpre hbefore hafter hpost
  refine ⟨?_, ?_, ?_, ?_, ?_, ?_, ?_⟩
  · rw [h]; rfl
  · rw [h]; rfl
  · rw [h]; rfl
  · rw [h]; rfl
  · rw [h]; rfl
  · unfold CountRowRanges; rw [h]; rfl
  · unfold CountRowRanges; rw [h]; rfl

/-- C25, on the queries `@a | .t | [2]`, `@a | .t | [1:3]`, `@a | .t | [3:1]`,
`@a | .t | [:3]`, `@a | .t | [2:]` and `@a | .t | []`. -/
theorem Build_row_range_witness :
    FindRowRanges (Build [[.selector "@a".toList], [.selector ".t".toList],
      [.rowRange (.index 2)]]) = [⟨2, 1⟩] ∧
    FindRowRanges (Build [[.selector "@a".toList], [.selector ".t".toList],
      [.rowRange (.span 1 3)]]) = [⟨1, 2⟩] ∧
    FindRowRanges (Build [[.selector "@a".toList], [.selector ".t".toList],
      [.rowRange (.span 3 1)]]) = [⟨3, 0⟩] ∧
    FindRowRanges (Build [[.selector "@a".toList], [.selector ".t".toList],
      [.rowRange (.upTo 3)]]) = [⟨0, 3⟩] ∧
    FindRowRanges (Build [[.selector "@a".toList], [.selector ".t".toList],
      [.rowRange (.startingAt 2)]]) = [⟨2, -1⟩] ∧
    CountRowRanges (Build [[.selector "@a".toList], [.selector ".t".toList],
      [.rowRange .all]]) = 0 :=
  ⟨(Build_row_range 2 0 [[.selector "@a".toList], [.selector ".t".toList]] [] [] []
      (by decide) (by decide) (by decide) (by decide)).1,
    (Build_row_range 1 3 [[.selector "@a".toList], [.selector ".t".toList]] [] [] []
      (by decide) (by decide) (by decide) (by decide)).2.1,
    (Build_row_range 3 1 [[.selector "@a".toList], [.selector ".t".toList]] [] [] []
      (by decide) (by decide) (by decide) (by decide)).2.1,
    (Build_row_range 0 3 [[.selector "@a".toList], [.selector ".t".toList]] [] [] []
      (by decide) (by decide) (by decide) (by decide)).2.2.1,
    (Build_row_range 2 0 [[.selector "@a".toList], [.selector ".t".toList]] [] [] []
      (by decide) (by decide) (by decide) (by decide)).2.2.2.1,
    (Build_row_range 0 0 [[.selector "@a".toList], [.selector ".t".toList]] [] [] []
      (by decide) (by decide) (by decide) (by decide)).2.2.2.2.2.2⟩

/-! ### The source set -/

theorem indexOfLoop_absent (handle : List Char) : ∀ (items : List Source) (k : Nat),
    (∀ x ∈ items, x.Handle ≠ handle) → indexOfLoop handle k items = (-1, none)
  | [], _, _ => rfl
  | x :: rest, k, h => by
    rw [indexOfLoop, if_neg (h x (List.mem_cons_self _ _))]
    exact indexOfLoop_absent handle rest (k + 1) fun y hy => h y (List.mem_cons_of_mem _ hy)

theorem indexOfLoop_getElem : ∀ (items : List Source) (k i : Nat) (s : Source),
    (items.map fun x => x.Handle).Nodup → items[i]? = some s →
    indexOfLoop s.Handle k items = (Int.ofNat (k + i), some s)
  | [], _, _, _, _, h => by simp at h
  | x :: rest, k, 0, s, _, h => by
    rw [List.getElem?_cons_zero] at h
    rw [indexOfLoop, Option.some.inj h, if_pos rfl]
    rfl
  | x :: rest, k, i + 1, s, hn, h => by
    rw [List.getElem?_cons_succ] at h
    rw [List.map_cons, List.nodup_cons] at hn
    have hne : x.Handle ≠ s.Handle := by
      intro heq
      apply hn.1
      rw [heq]
      exact List.mem_map.mpr ⟨s, List.getElem?_mem h, rfl⟩
    rw [indexOfLoop, if_neg hne, indexOfLoop_getElem rest (k + 1) i s hn.2 h]
    congr 2
    omega

theorem indexOfLoop_append (handle : List Char) (more : List Source) :
    ∀ (items : List Source) (k : Nat), (∃ x ∈ items, x.Handle = handle) →
    indexOfLoop handle k (items ++ more) = indexOfLoop handle k items
  | [], _, h => by
    obtain ⟨x, hx, _⟩ := h
    exact absurd hx (List.not_mem_nil _)
  | y :: rest, k, h => by
    rw [List.cons_append, indexOfLoop, indexOfLoop]
    by_cases hy : y.Handle = handle
    · rw [if_pos hy, if_pos hy]
    · rw [if_neg hy, if_neg hy]
      obtain ⟨x, hx, hxh⟩ := h
      rcases List.mem_cons.mp hx with heq | hmem
      · rw [heq] at hxh
        exact absurd hxh hy
      · exact indexOfLoop_append handle more rest (k + 1) ⟨x, hmem, hxh⟩

theorem eraseP_handle (handle : List Char) : ∀ items : List Source,
    (items.map fun x => x.Handle).Nodup → (∃ x ∈ items, x.Handle = handle) →
    (∀ x ∈ items.eraseP (fun s => s.Handle = handle), x.Handle ≠ handle) ∧
      (items.eraseP fun s => s.Handle = handle).length + 1 = items.length
  | [], _, h => by
    obtain ⟨x, hx, _⟩ := h
    exact absurd hx (List.not_mem_nil _)
  | y :: rest, hn, h => by
    rw [List.map_cons, List.nodup_cons] at hn
    rw [List.eraseP_cons]
    by_cases hy : y.Handle = handle
    · have hd : decide (y.Handle = handle) = true := by simpa using hy
      rw [hd, cond_true]
      refine ⟨?_, rfl⟩
      intro x hx hxh
      apply hn.1
      rw [hy, ← hxh]
      exact List.mem_map.mpr ⟨x, hx, rfl⟩
    · have hd : decide (y.Handle = handle) = false := by simpa using hy
      rw [hd, cond_false]
      obtain ⟨x, hx, hxh⟩ := h
      have hmem : x ∈ rest := by
        rcases List.mem_cons.mp hx with heq | hmem
        · rw [heq] at hxh
          exact absurd hxh hy
        · exact hmem
      obtain ⟨h1, h2⟩ := eraseP_handle handle rest hn.2 ⟨x, hmem, hxh⟩
      refine ⟨?_, by rw [List.length_cons, List.length_cons, h2]⟩
      intro z hz
      rcases List.mem_cons.mp hz with heq | hmem
      · rw [heq]; exact hy
      · exact h1 z hmem

theorem Get_added (items : List Source) (active : Option (List Char)) (src : Source)
    (h : ∀ s ∈ items, s.Handle ≠ src.Handle) :
    SourceSet.Get ⟨items ++ [src], active⟩ src.Handle = .ok src := by
  have hf : items.find? (fun s => s.Handle = src.Handle) = none := by
    rw [List.find?_eq_none]
    intro x hx
    simpa using h x hx
  unfold SourceSet.Get
  simp only [List.find?_append, hf, Option.none_or, List.find?_cons, decide_True]

theorem Remove_present (srcs : SourceSet) (handle : List Char)
    (h : ∃ x ∈ srcs.items, x.Handle = handle) :
    srcs.Remove handle = .ok ⟨srcs.items.eraseP (fun s => s.Handle = handle),
      if srcs.active = some handle then none else srcs.active⟩ := by
  have hany : srcs.items.any (fun s => s.Handle = handle) = true := by
    rw [List.any_eq_true]
    obtain ⟨s, hs, heq⟩ := h
    exact ⟨s, hs, by simpa using heq⟩
  unfold SourceSet.Remove
  rw [hany]
  rfl

theorem Remove_absent (srcs : SourceSet) (handle : List Char)
    (h : ∀ x ∈ srcs.items, x.Handle ≠ handle) :
    srcs.Remove handle = .error (.unknownHandle handle) := by
  have hany : srcs.items.any (fun s => s.Handle = handle) = false := by
    rw [List.any_eq_false]
    intro x hx
    simpa using h x hx
  unfold SourceSet.Remove
  rw [hany]
  rfl

/-- C26: for every source set with unique handles. For a source `s` whose
handle is not yet in the set, `Add(s)` succeeds and afterwards `Get` of the
handle returns `s`, `IndexOf` of the handle returns the last position, and
`IndexOf` of the handles that were present returns what it did. For a handle
`h` that is present, `Remove(h)` succeeds and afterwards `Get(h)` fails,
`IndexOf(h)` returns -1 and no source, and the number of items is one less.
For every source of the set, `IndexOf` of its handle returns its position in
the order of insertion. -/
theorem SourceSet_add_get_remove (srcs : SourceSet)
    (hunique : (srcs.items.map fun x => x.Handle).Nodup) :
    (∀ s : Source, (∀ x ∈ srcs.items, x.Handle ≠ s.Handle) →
      ∃ after, srcs.Add s = .ok after ∧ after.Get s.Handle = .ok s ∧
        after.items = srcs.items ++ [s] ∧
        after.IndexOf s.Handle = (Int.ofNat srcs.items.length, some s) ∧
        ∀ x ∈ srcs.items, after.IndexOf x.Handle = srcs.IndexOf x.Handle) ∧
    (∀ h : List Char, (∃ x ∈ srcs.items, x.Handle = h) →
      ∃ after, srcs.Remove h = .ok after ∧ after.Get h = .error (.unknownHandle h) ∧
        after.IndexOf h = (-1, none) ∧ after.items.length + 1 = srcs.items.length) ∧
    (∀ (i : Nat) (s : Source), srcs.items[i]? = some s →
      srcs.IndexOf s.Handle = (Int.ofNat i, some s) ∧ srcs.Get s.Handle = .ok s) := by
  have hindex : ∀ (i : Nat) (s : Source), srcs.items[i]? = some s →
      srcs.IndexOf s.Handle = (Int.ofNat i, some s) := by
    intro i s hs
    unfold SourceSet.IndexOf
    rw [indexOfLoop_getElem srcs.items 0 i s hunique hs, Nat.zero_add]
  refine ⟨?_, ?_, ?_⟩
  · intro s hfresh
    refine ⟨⟨srcs.items ++ [s], srcs.active⟩, Add_fresh srcs s hfresh,
      Get_added srcs.items srcs.active s hfresh, rfl, ?_, ?_⟩
    · unfold SourceSet.IndexOf
      have hn : ((srcs.items ++ [s]).map fun x => x.Handle).Nodup := by
        rw [List.map_append, List.nodup_append]
        refine ⟨hunique, List.nodup_singleton _, ?_⟩
        intro a ha hb
        rw [List.map_singleton, List.mem_singleton] at hb
        obtain ⟨x, hx, hxa⟩ := List.mem_map.mp ha
        exact hfresh x hx (by rw [hxa, hb])
      have hget : (srcs.items ++ [s])[srcs.items.length]? = some s :=
        List.getElem?_concat_length _ _
      rw [indexOfLoop_getElem _ 0 _ s hn hget, Nat.zero_add]
    · intro x hx
      unfold SourceSet.IndexOf
      exact indexOfLoop_append x.Handle [s] srcs.items 0 ⟨x, hx, rfl⟩
  · intro h hpresent
    obtain ⟨h1, h2⟩ := eraseP_handle h srcs.items hunique hpresent
    refine ⟨_, Remove_present srcs h hpresent, Get_unknown _ h h1, ?_, h2⟩
    unfold SourceSet.IndexOf
    exact indexOfLoop_absent h _ 0 h1
  · intro i s hs
    refine ⟨hindex i s hs, ?_⟩
    have hidx := hindex i s hs
    cases hf : srcs.items.find? (fun x => x.Handle = s.Handle) with
    | none =>
      rw [List.find?_eq_none] at hf
      have hfs := hf s (List.getElem?_mem hs)
      simp at hfs
    | some s2 =>
      have hmem := List.mem_of_find?_eq_some hf
      have hh : s2.Handle = s.Handle := by simpa using List.find?_some hf
      obtain ⟨j, hj⟩ := List.getElem?_of_mem hmem
      have hidx2 := hindex j s2 hj
      rw [hh, hidx] at hidx2
      have : s = s2 := Option.some.inj (congrArg Prod.snd hidx2)
      unfold SourceSet.Get
      rw [hf, this]

/-- C26, on the set that holds `@mydb1` and `@pg1`, in this order: adding
`@xl1` puts it at position 2, and removing `@pg1` leaves one item. -/
theorem SourceSet_add_get_remove_witness :
    (∃ after, SourceSet.Add ⟨[⟨"@mydb1".toList, "mysql".toList⟩,
          ⟨"@pg1".toList, "postgres".toList⟩], none⟩ ⟨"@xl1".toList, "xlsx".toList⟩
        = .ok after ∧
      after.Get "@xl1".toList = .ok ⟨"@xl1".toList, "xlsx".toList⟩ ∧
      after.IndexOf "@xl1".toList = (2, some ⟨"@xl1".toList, "xlsx".toList⟩)) ∧
    (∃ after, SourceSet.Remove ⟨[⟨"@mydb1".toList, "mysql".toList⟩,
          ⟨"@pg1".toList, "postgres".toList⟩], none⟩ "@pg1".toList = .ok after ∧
      after.Get "@pg1".toList = .error (.unknownHandle "@pg1".toList) ∧
      after.IndexOf "@pg1".toList = (-1, none) ∧ after.items.length + 1 = 2) := by
  have h := SourceSet_add_get_remove ⟨[⟨"@mydb1".toList, "mysql".toList⟩,
    ⟨"@pg1".toList, "postgres".toList⟩], none⟩ (by decide)
  obtain ⟨a1, h1, h2, _, h4, _⟩ := h.1 ⟨"@xl1".toList, "xlsx".toList⟩ (by decide)
  obtain ⟨a2, g1, g2, g3, g4⟩ := h.2.1 "@pg1".toList
    ⟨⟨"@pg1".toList, "postgres".toList⟩, by decide, rfl⟩
  exact ⟨⟨a1, h1, h2, h4⟩, ⟨a2, g1, g2, g3, g4⟩⟩

theorem runOps_append (ops : List SetOp) (op : SetOp) :
    runOps (ops ++ [op]) = (runOps ops).apply op := by
  unfold runOps
  rw [List.foldl_append]
  rfl

theorem SetActive_known (srcs : SourceSet) (handle : List Char)
    (h : ∃ x ∈ srcs.items, x.Handle = handle) :
    ∃ src, src ∈ srcs.items ∧ src.Handle = handle ∧ srcs.Get handle = .ok src ∧
      srcs.SetActive handle = .ok (⟨srcs.items, some handle⟩, src) ∧
      SourceSet.Active ⟨srcs.items, some handle⟩ = some src := by
  cases hf : srcs.items.find? (fun s => s.Handle = handle) with
  | none =>
    rw [List.find?_eq_none] at hf
    obtain ⟨x, hx, hxh⟩ := h
    have := hf x hx
    simp [hxh] at this
  | some src =>
    refine ⟨src, List.mem_of_find?_eq_some hf, by simpa using List.find?_some hf, ?_, ?_, ?_⟩
    · unfold SourceSet.Get
      rw [hf]
    · unfold SourceSet.SetActive
      rw [hf]
    · unfold SourceSet.Active
      simp only [hf]

theorem SetActive_unknown (srcs : SourceSet) (handle : List Char)
    (h : ∀ x ∈ srcs.items, x.Handle ≠ handle) :
    srcs.SetActive handle = .error (.unknownHandle handle) := by
  have hf : srcs.items.find? (fun s => s.Handle = handle) = none := by
    rw [List.find?_eq_none]
    intro x hx
    simpa using h x hx
  unfold SourceSet.SetActive
  rw [hf]

theorem Active_none_of_absent (items : List Source) (active : Option (List Char))
    (h : ∀ handle, active = some handle → ∀ x ∈ items, x.Handle ≠ handle) :
    SourceSet.Active ⟨items, active⟩ = none := by
  unfold SourceSet.Active
  cases active with
  | none => rfl
  | some handle =>
    simp only
    rw [List.find?_eq_none]
    intro x hx
    simpa using h handle rfl x hx

/-- Every call keeps the invariants of the source set. -/
theorem Valid_apply (srcs : SourceSet) (hv : srcs.Valid) (op : SetOp) : (srcs.apply op).Valid := by
  cases op with
  | Add src =>
    by_cases hfresh : ∀ x ∈ srcs.items, x.Handle ≠ src.Handle
    · have hadd := Add_fresh srcs src hfresh
      unfold SourceSet.apply
      simp only [hadd]
      refine ⟨?_, ?_⟩
      · rw [List.map_append, List.nodup_append]
        refine ⟨hv.1, List.nodup_singleton _, ?_⟩
        intro a ha hb
        rw [List.map_singleton, List.mem_singleton] at hb
        obtain ⟨x, hx, hxa⟩ := List.mem_map.mp ha
        exact hfresh x hx (by rw [hxa, hb])
      · intro handle hactive
        obtain ⟨s, hs, hsh⟩ := hv.2 handle hactive
        exact ⟨s, List.mem_append_left _ hs, hsh⟩
    · have hdup : ∃ x ∈ srcs.items, x.Handle = src.Handle := by
        by_contra hcon
        apply hfresh
        intro x hx hxh
        exact hcon ⟨x, hx, hxh⟩
      have hadd := Add_duplicate srcs src hdup
      unfold SourceSet.apply
      simp only [hadd]
      exact hv
  | Remove handle =>
    by_cases hpresent : ∃ x ∈ srcs.items, x.Handle = handle
    · have hrem := Remove_present srcs handle hpresent
      unfold SourceSet.apply
      simp only [hrem]
      refine ⟨?_, ?_⟩
      · exact List.Nodup.sublist (List.Sublist.map _ (List.eraseP_sublist _)) hv.1
      · intro h2 hactive
        simp only at hactive
        by_cases ha : srcs.active = some handle
        · rw [if_pos ha] at hactive
          exact Option.noConfusion hactive
        · rw [if_neg ha] at hactive
          obtain ⟨s, hs, hsh⟩ := hv.2 h2 hactive
          refine ⟨s, ?_, hsh⟩
          simp only
          rw [List.mem_eraseP_of_neg]
          · exact hs
          · intro hp
            apply ha
            rw [hactive, ← hsh]
            simpa using hp
    · have habsent : ∀ x ∈ srcs.items, x.Handle ≠ handle := by
        intro x hx hxh
        exact hpresent ⟨x, hx, hxh⟩
      have hrem := Remove_absent srcs handle habsent
      unfold SourceSet.apply
      simp only [hrem]
      exact hv
  | SetActive handle =>
    by_cases hpresent : ∃ x ∈ srcs.items, x.Handle = handle
    · obtain ⟨src, hmem, hh, _, hset, _⟩ := SetActive_known srcs handle hpresent
      unfold SourceSet.apply
      simp only [hset]
      refine ⟨hv.1, ?_⟩
      intro h2 hactive
      simp only [Option.some.injEq] at hactive
      exact ⟨src, hmem, by rw [hh, hactive]⟩
    · have habsent : ∀ x ∈ srcs.items, x.Handle ≠ handle := by
        intro x hx hxh
        exact hpresent ⟨x, hx, hxh⟩
      have hset := SetActive_unknown srcs handle habsent
      unfold SourceSet.apply
      simp only [hset]
      exact hv

theorem Valid_foldl : ∀ (ops : List SetOp) (srcs : SourceSet), srcs.Valid →
    (ops.foldl SourceSet.apply srcs).Valid
  | [], _, hv => hv
  | op :: rest, srcs, hv => by
    rw [List.foldl_cons]
    exact Valid_foldl rest _ (Valid_apply srcs hv op)

/-- Every set reached from the empty set has the invariants of the source
set. -/
theorem Valid_runOps (ops : List SetOp) : (runOps ops).Valid :=
  Valid_foldl ops ⟨[], none⟩ ⟨List.nodup_nil, fun _ h => Option.noConfusion h⟩

/-- C27: in every source set reached from the empty set by calls of `Add`,
`Remove` and `SetActive`, the handles are unique and the active handle, if
set, is the handle of a source of the set, which `Active()` returns.
`SetActive(h)` of a handle of the set makes `Active()` return the source with
the handle `h`; `SetActive` of an unknown handle fails and leaves the set,
and so the active source, as it was; `Remove(h)` of the active source
succeeds and leaves no active source. In `execSrc`, an unknown handle gives
the error of `SetActive` and nothing is saved, and a handle of the set is
made active and the set is saved when the store accepts it. -/
theorem runOps_active_present (ops : List SetOp) :
    (runOps ops).Valid ∧
    (∀ h : List Char, (runOps ops).active = some h →
      ∃ src ∈ (runOps ops).items, src.Handle = h ∧ (runOps ops).Active = some src) ∧
    (∀ h : List Char, (∃ x ∈ (runOps ops).items, x.Handle = h) →
      ∃ src, (runOps ops).Get h = .ok src ∧ src.Handle = h ∧
        (runOps (ops ++ [.SetActive h])).Active = some src) ∧
    (∀ h : List Char, (∀ x ∈ (runOps ops).items, x.Handle ≠ h) →
      (runOps ops).SetActive h = .error (.unknownHandle h) ∧
        runOps (ops ++ [.SetActive h]) = runOps ops) ∧
    (∀ h : List Char, (runOps ops).active = some h →
      (∃ after, (runOps ops).Remove h = .ok after) ∧
        (runOps (ops ++ [.Remove h])).active = none ∧
        (runOps (ops ++ [.Remove h])).Active = none) ∧
    (∀ (h : List Char) (Save : SourceSet → Option Err),
      (∀ x ∈ (runOps ops).items, x.Handle ≠ h) →
      execSrc SourceSet.methods Save (runOps ops) [h]
        = ⟨runOps ops, none, .failed (.unknownHandle h)⟩) ∧
    (∀ (h : List Char) (Save : SourceSet → Option Err),
      (∃ x ∈ (runOps ops).items, x.Handle = h) → (∀ srcs, Save srcs = none) →
      ∃ src, src.Handle = h ∧
        execSrc SourceSet.methods Save (runOps ops) [h]
          = ⟨runOps (ops ++ [.SetActive h]), some (runOps (ops ++ [.SetActive h])),
              .written src⟩ ∧
        (runOps (ops ++ [.SetActive h])).Active = some src) := by
  have hv := Valid_runOps ops
  have hknown : ∀ h : List Char, (∃ x ∈ (runOps ops).items, x.Handle = h) →
      ∃ src, (runOps ops).Get h = .ok src ∧ src.Handle = h ∧
        (runOps ops).SetActive h = .ok (⟨(runOps ops).items, some h⟩, src) ∧
        runOps (ops ++ [.SetActive h]) = ⟨(runOps ops).items, some h⟩ ∧
        (runOps (ops ++ [.SetActive h])).Active = some src := by
    intro h hpresent
    obtain ⟨src, _, hh, hget, hset, hactive⟩ := SetActive_known (runOps ops) h hpresent
    have happ : runOps (ops ++ [.SetActive h]) = ⟨(runOps ops).items, some h⟩ := by
      rw [runOps_append]
      unfold SourceSet.apply
      simp only [hset]
    exact ⟨src, hget, hh, hset, happ, by rw [happ]; exact hactive⟩
  refine ⟨hv, ?_, ?_, ?_, ?_, ?_, ?_⟩
  · intro h hactive
    obtain ⟨src, hmem, hh, _, _, ha⟩ := SetActive_known (runOps ops) h (hv.2 h hactive)
    refine ⟨src, hmem, hh, ?_⟩
    have hs : runOps ops = ⟨(runOps ops).items, some h⟩ := by
      rw [← hactive]
    rw [hs]
    exact ha
  · intro h hpresent
    obtain ⟨src, hget, hh, _, _, ha⟩ := hknown h hpresent
    exact ⟨src, hget, hh, ha⟩
  · intro h habsent
    have hset := SetActive_unknown (runOps ops) h habsent
    refine ⟨hset, ?_⟩
    rw [runOps_append]
    unfold SourceSet.apply
    simp only [hset]
  · intro h hactive
    have hpresent := hv.2 h hactive
    have hrem := Remove_present (runOps ops) h hpresent
    have happ : runOps (ops ++ [.Remove h])
        = ⟨(runOps ops).items.eraseP (fun s => s.Handle = h), none⟩ := by
      rw [runOps_append]
      unfold SourceSet.apply
      simp only [hrem, hactive, if_true]
    refine ⟨⟨_, hrem⟩, by rw [happ], ?_⟩
    rw [happ]
    rfl
  · intro h Save habsent
    have hset : SourceSet.methods.SetActive (runOps ops) h = .error (.unknownHandle h) :=
      SetActive_unknown (runOps ops) h habsent
    unfold execSrc
    simp only [hset]
  · intro h Save hpresent hsave
    obtain ⟨src, _, hh, hset, happ, ha⟩ := hknown h hpresent
    have hset2 : SourceSet.methods.SetActive (runOps ops) h
        = .ok (⟨(runOps ops).items, some h⟩, src) := hset
    refine ⟨src, hh, ?_, ha⟩
    unfold execSrc
    simp only [hset2, hsave, happ]

/-- C27, on the calls of the test `TestDataSources`: after adding `@mydb1`
and `@pg1` and making `@pg1` active, `Active()` returns `@pg1`; making the
unknown `@xl1` active changes nothing; removing `@pg1` leaves no active
source. -/
theorem runOps_active_present_witness :
    (runOps [.Add ⟨"@mydb1".toList, "mysql".toList⟩, .Add ⟨"@pg1".toList, "postgres".toList⟩,
      .SetActive "@pg1".toList]).Active = some ⟨"@pg1".toList, "postgres".toList⟩ ∧
    runOps ([.Add ⟨"@mydb1".toList, "mysql".toList⟩,
        .Add ⟨"@pg1".toList, "postgres".toList⟩, .SetActive "@pg1".toList]
        ++ [.SetActive "@xl1".toList])
      = runOps [.Add ⟨"@mydb1".toList, "mysql".toList⟩,
        .Add ⟨"@pg1".toList, "postgres".toList⟩, .SetActive "@pg1".toList] ∧
    (runOps ([.Add ⟨"@mydb1".toList, "mysql".toList⟩,
        .Add ⟨"@pg1".toList, "postgres".toList⟩, .SetActive "@pg1".toList]
        ++ [.Remove "@pg1".toList])).Active = none := by
  have h := runOps_active_present [.Add ⟨"@mydb1".toList, "mysql".toList⟩,
    .Add ⟨"@pg1".toList, "postgres".toList⟩, .SetActive "@pg1".toList]
  obtain ⟨src, hmem, h1, h2⟩ := h.2.1 "@pg1".toList (by decide)
  refine ⟨?_, (h.2.2.2.1 "@xl1".toList (by decide)).2, (h.2.2.2.2.1 "@pg1".toList
    (by decide)).2.2⟩
  rw [h2]
  have hitems : (runOps [.Add ⟨"@mydb1".toList, "mysql".toList⟩,
      .Add ⟨"@pg1".toList, "postgres".toList⟩, .SetActive "@pg1".toList]).items
      = [⟨"@mydb1".toList, "mysql".toList⟩, ⟨"@pg1".toList, "postgres".toList⟩] := by decide
  rw [hitems] at hmem
  rcases List.mem_cons.mp hmem with heq | hmem2
  · rw [heq] at h1
    exact absurd h1 (by decide)
  · rw [List.mem_singleton.mp hmem2]

/-! ### Arguments without text, and no active source -/

/-- The result of `preprocessUserSLQ` on arguments whose first one, trimmed,
is empty: the index expression `parts[0][0]` fails. -/
theorem preprocessUserSLQ_blank (rc : RunContext) (arg0 : List Char)
    (rest : List (List Char)) (h0 : TrimSpace arg0 = []) :
    preprocessUserSLQ rc (arg0 :: rest) = .crash := by
  have h1 : TrimSpace ([] : List Char) = [] := rfl
  have h2 : Split [] ' ' = [[]] := rfl
  unfold preprocessUserSLQ
  simp only [List.length_cons, Nat.add_one_ne_zero, if_false, List.map_cons, h0, h1, h2]

/-- C28 (code bug): for every run context and whatever arguments follow, a
first argument that is the empty string, or two spaces, or a space, a tab and
a line feed, makes `preprocessUserSLQ` fail at run time: `parts[0]` is the
empty string and the index `parts[0][0]` is out of range. Neither a query
nor an error is returned. -/
theorem preprocessUserSLQ_blank_first_arg (rc : RunContext) (rest : List (List Char)) :
    preprocessUserSLQ rc ([] :: rest) = .crash ∧
    preprocessUserSLQ rc ("  ".toList :: rest) = .crash ∧
    preprocessUserSLQ rc (" \t\n".toList :: rest) = .crash ∧
    (∀ query, preprocessUserSLQ rc ([] :: rest) ≠ .ok query) ∧
    (∀ err, preprocessUserSLQ rc ([] :: rest) ≠ .error err) := by
  have h1 := preprocessUserSLQ_blank rc [] rest rfl
  refine ⟨h1, preprocessUserSLQ_blank rc _ rest (by decide),
    preprocessUserSLQ_blank rc _ rest (by decide), ?_, ?_⟩
  · intro query hq
    rw [h1] at hq
    exact Outcome.noConfusion hq
  · intro err he
    rw [h1] at he
    exact Outcome.noConfusion he

/-- C29: with no source on stdin and no active source in the set, `execSLQ`
returns the no-active-source error and leaves the set as it is, for any
implementation of the source set and for the source set of the
specification. It ends with this error and hands the query neither to
`execSLQPrint` nor to `execSLQInsert`, which are the callers of
`preprocessUserSLQ`; the argument list, which `execSLQ` does not read, has no
part in it. -/
theorem execSLQ_no_active {σ : Type} (m : SetMethods σ) (srcs : σ) (set : SourceSet)
    (inv : Invocation) (hstdin : inv.checkStdinSource = .ok none) :
    (m.Active srcs = none →
      execSLQ m srcs inv = (srcs, .failed .noActiveSrc) ∧
      (execSLQ m srcs inv).2 ≠ .execSLQPrint ∧
      ∀ destSrc destTbl, (execSLQ m srcs inv).2 ≠ .execSLQInsert destSrc destTbl) ∧
    (set.active = none → execSLQ SourceSet.methods set inv = (set, .failed .noActiveSrc)) := by
  have hgen : ∀ {τ : Type} (mm : SetMethods τ) (s : τ), mm.Active s = none →
      execSLQ mm s inv = (s, .failed .noActiveSrc) := by
    intro τ mm s hactive
    unfold execSLQ
    simp only [hstdin, hactive]
  refine ⟨?_, ?_⟩
  · intro hactive
    have h := hgen m srcs hactive
    refine ⟨h, ?_, ?_⟩
    · rw [h]
      exact fun hc => Handover.noConfusion hc
    · intro destSrc destTbl
      rw [h]
      exact fun hc => Handover.noConfusion hc
  · intro hactive
    apply hgen
    show SourceSet.Active set = none
    unfold SourceSet.Active
    rw [hactive]

/-- C29, on a set that holds `@a` and has no active source: the query
`@a.person` starts with a handle of the set and `preprocessUserSLQ` would
accept it, yet `execSLQ` returns the no-active-source error, with and
without the flag `--insert`. -/
theorem execSLQ_no_active_witness :
    preprocessUserSLQ ⟨⟨[⟨"@a".toList, "csv".toList⟩], none⟩,
        fun _ => .ok true, fun _ => .error .srcNoData⟩ ["@a.person".toList]
      = .ok "@a.person".toList ∧
    execSLQ SourceSet.methods ⟨[⟨"@a".toList, "csv".toList⟩], none⟩
        ⟨.ok none, false, [], fun _ => .error .srcNoData⟩
      = (⟨[⟨"@a".toList, "csv".toList⟩], none⟩, .failed .noActiveSrc) ∧
    execSLQ SourceSet.methods ⟨[⟨"@a".toList, "csv".toList⟩], none⟩
        ⟨.ok none, true, "@a.t".toList, fun _ => .ok ("@a".toList, "t".toList)⟩
      = (⟨[⟨"@a".toList, "csv".toList⟩], none⟩, .failed .noActiveSrc) :=
  ⟨by decide,
    (execSLQ_no_active SourceSet.methods ⟨[], none⟩ ⟨[⟨"@a".toList, "csv".toList⟩], none⟩
      ⟨.ok none, false, [], fun _ => .error .srcNoData⟩ rfl).2 rfl,
    (execSLQ_no_active SourceSet.methods ⟨[], none⟩ ⟨[⟨"@a".toList, "csv".toList⟩], none⟩
      ⟨.ok none, true, "@a.t".toList, fun _ => .ok ("@a".toList, "t".toList)⟩ rfl).2 rfl⟩

/-! ### The import of a sheet -/

/-- The records sent by the loop of `importSheetToTable` when it ends without
returning an error and the error channel has delivered no nil. -/
theorem importRows_sent (env : ImportEnv) (destColKinds : List Kind) (hasHeader : Bool)
    (hsel : ∀ i, env.select i ≠ .errCh none) :
    ∀ (rows : List Row) (i : Nat) (sent out : List (List CellValue)),
    importRows env destColKinds hasHeader i rows sent = some (out, none) →
    ∃ recs, out = sent ++ recs ∧
      List.Forall₂
        (fun row rec => ∃ r, rowToRecord destColKinds row = some r ∧ env.Munge r = .ok rec)
        (if hasHeader ∧ i = 0 then rows.drop 1 else rows) recs
  | [], i, sent, out, h => by
    rw [importRows] at h
    refine ⟨[], ?_, ?_⟩
    · rw [List.append_nil]
      exact (congrArg Prod.fst (Option.some.inj h)).symm
    · by_cases hc : hasHeader = true ∧ i = 0
      · rw [if_pos hc]; exact List.Forall₂.nil
      · rw [if_neg hc]; exact List.Forall₂.nil
  | row :: rest, i, sent, out, h => by
    rw [importRows] at h
    by_cases hc : hasHeader = true ∧ i = 0
    · rw [if_pos hc] at h
      obtain ⟨recs, h1, h2⟩ := importRows_sent env destColKinds hasHeader hsel rest (i + 1)
        sent out h
      rw [if_neg (by omega)] at h2
      refine ⟨recs, h1, ?_⟩
      rw [if_pos hc, List.drop_succ_cons, List.drop_zero]
      exact h2
    · rw [if_neg hc] at h
      cases hrec : rowToRecord destColKinds row with
      | none => simp only [hrec] at h; exact Option.noConfusion h
      | some r =>
        simp only [hrec] at h
        cases hm : env.Munge r with
        | error err =>
          simp only [hm, Option.some.injEq, Prod.mk.injEq] at h
          exact Option.noConfusion h.2
        | ok rec =>
          simp only [hm] at h
          cases hs : env.select i with
          | ctxDone err =>
            simp only [hs, Option.some.injEq, Prod.mk.injEq] at h
            exact Option.noConfusion h.2
          | errCh e =>
            cases e with
            | none => exact absurd hs (hsel i)
            | some err =>
              simp only [hs, Option.some.injEq, Prod.mk.injEq] at h
              exact Option.noConfusion h.2
          | send =>
            simp only [hs] at h
            obtain ⟨recs, h1, h2⟩ := importRows_sent env destColKinds hasHeader hsel rest
              (i + 1) (sent ++ [rec]) out h
            rw [if_neg (by omega)] at h2
            refine ⟨rec :: recs, ?_, ?_⟩
            · rw [h1, List.append_assoc, List.singleton_append]
            · rw [if_neg hc]
              exact List.Forall₂.cons ⟨r, hrec, hm⟩ h2

/-- C30 (as stated, refuted): on a sheet with a header row and the data rows
`a` and `b`, when the error channel delivers nil at each `select`,
`importSheetToTable` returns without error and has sent no record; when it
delivers nil only at the row `a`, `importSheetToTable` returns without error
and has sent the record of the row `b` alone. -/
theorem importSheetToTable_skips_rows :
    importSheetToTable ⟨none, none, fun rec => .ok rec, fun _ => .errCh none, none⟩
        ⟨"Sheet1".toList, [⟨[textCell "h"]⟩, ⟨[textCell "a"]⟩, ⟨[textCell "b"]⟩]⟩ true
        ⟨"Sheet1".toList, [⟨"h".toList, .Text⟩]⟩
      = some ([], none) ∧
    importSheetToTable
        ⟨none, none, fun rec => .ok rec, fun i => if i = 1 then .errCh none else .send, none⟩
        ⟨"Sheet1".toList, [⟨[textCell "h"]⟩, ⟨[textCell "a"]⟩, ⟨[textCell "b"]⟩]⟩ true
        ⟨"Sheet1".toList, [⟨"h".toList, .Text⟩]⟩
      = some ([[.string "b".toList]], none) := by
  decide

/-- C30 (amended): when `importSheetToTable` returns without error and the
error channel of the batch inserter has delivered no nil at a `select` of the
loop, it has sent on the record channel exactly one record for each row of
the sheet other than the header row (row 0 when `hasHeader`), in row order:
the record that `rowToRecord` builds for the row, after `Munge`. -/
theorem importSheetToTable_sent (env : ImportEnv) (sheet : Sheet) (hasHeader : Bool)
    (tblDef : TableDef) (sent : List (List CellValue))
    (hsel : ∀ i, env.select i ≠ .errCh none)
    (hret : importSheetToTable env sheet hasHeader tblDef = some (sent, none)) :
    List.Forall₂
      (fun row rec => ∃ r, rowToRecord (tblDef.Cols.map fun col => col.Kind) row = some r ∧
        env.Munge r = .ok rec)
      (if hasHeader then sheet.Rows.drop 1 else sheet.Rows) sent ∧
    sent.length = (if hasHeader then sheet.Rows.drop 1 else sheet.Rows).length := by
  have hfa : List.Forall₂
      (fun row rec => ∃ r, rowToRecord (tblDef.Cols.map fun col => col.Kind) row = some r ∧
        env.Munge r = .ok rec)
      (if hasHeader then sheet.Rows.drop 1 else sheet.Rows) sent := by
    unfold importSheetToTable at hret
    cases hconn : env.Conn with
    | some err =>
      simp only [hconn, Option.some.injEq, Prod.mk.injEq] at hret
      exact Option.noConfusion hret.2
    | none =>
      simp only [hconn] at hret
      cases hbi : env.NewBatchInsert with
      | some err =>
        simp only [hbi, Option.some.injEq, Prod.mk.injEq] at hret
        exact Option.noConfusion hret.2
      | none =>
        simp only [hbi] at hret
        cases hloop : importRows env (tblDef.Cols.map fun col => col.Kind) hasHeader 0
            sheet.Rows [] with
        | none => simp only [hloop] at hret; exact Option.noConfusion hret
        | some res =>
          obtain ⟨out, e⟩ := res
          cases e with
          | some err =>
            simp only [hloop, Option.some.injEq, Prod.mk.injEq] at hret
            exact Option.noConfusion hret.2
          | none =>
            simp only [hloop, Option.some.injEq, Prod.mk.injEq] at hret
            obtain ⟨recs, h1, h2⟩ := importRows_sent env _ hasHeader hsel sheet.Rows 0 [] out
              hloop
            rw [List.nil_append] at h1
            rw [← hret.1, h1]
            cases hasHeader with
            | true => simpa using h2
            | false => simpa using h2
  exact ⟨hfa, hfa.length_eq.symm⟩

/-- C30 (amended), on a sheet with a header row and the data rows `a` and
`b`, when each `select` sends its record: the records sent are those of `a`
and `b`, in this order. -/
theorem importSheetToTable_sent_witness :
    importSheetToTable ⟨none, none, fun rec => .ok rec, fun _ => .send, none⟩
        ⟨"Sheet1".toList, [⟨[textCell "h"]⟩, ⟨[textCell "a"]⟩, ⟨[textCell "b"]⟩]⟩ true
        ⟨"Sheet1".toList, [⟨"h".toList, .Text⟩]⟩
      = some ([[.string "a".toList], [.string "b".toList]], none) ∧
    [[CellValue.string "a".toList], [CellValue.string "b".toList]].length
      = (if true then [(⟨[textCell "h"]⟩ : Row), ⟨[textCell "a"]⟩, ⟨[textCell "b"]⟩].drop 1
          else [⟨[textCell "h"]⟩, ⟨[textCell "a"]⟩, ⟨[textCell "b"]⟩]).length :=
  ⟨by decide,
    (importSheetToTable_sent ⟨none, none, fun rec => .ok rec, fun _ => .send, none⟩
      ⟨"Sheet1".toList, [⟨[textCell "h"]⟩, ⟨[textCell "a"]⟩, ⟨[textCell "b"]⟩]⟩ true
      ⟨"Sheet1".toList, [⟨"h".toList, .Text⟩]⟩
      [[.string "a".toList], [.string "b".toList]]
      (fun _ h => SelectCase.noConfusion h) (by decide)).2⟩

/-! ### The defaults of the configuration -/

/-- What `initCfg` returns, field by field. -/
theorem initCfg_eq (cfg : Config) :
    initCfg cfg =
      { Version := cfg.Version,
        Defaults :=
          { Format := if cfg.Defaults.Format = [] then FormatTable else cfg.Defaults.Format,
            Header := cfg.Defaults.Header,
            PingTimeout :=
              if cfg.Defaults.PingTimeout = 0 then 10 * Second else cfg.Defaults.PingTimeout,
            ShellCompletionTimeout :=
              if cfg.Defaults.ShellCompletionTimeout = 0 then Millisecond * 500
              else cfg.Defaults.ShellCompletionTimeout },
        Sources := if cfg.Sources = none then some ⟨[], none⟩ else cfg.Sources,
        Ext := cfg.Ext } := by
  obtain ⟨v, ⟨f, h, p, t⟩, s, e⟩ := cfg
  unfold initCfg
  by_cases h1 : s = none <;> by_cases h2 : f = [] <;> by_cases h3 : p = 0 <;>
    by_cases h4 : t = 0 <;> simp [h1, h2, h3, h4]

/-- C31: `initCfg` changes only fields that hold their zero value. Afterwards
`Sources` is not nil, `Format` is not empty, and `PingTimeout` and
`ShellCompletionTimeout` are not zero; a field among these four that was
already set keeps its value, and one that was not gets its default (the
empty set, `table`, 10 s, 500 ms); `Header`, `Version` and `Ext` are never
touched; and applying `initCfg` twice gives the same config as applying it
once. -/
theorem initCfg_spec (cfg : Config) :
    (initCfg cfg).Sources ≠ none ∧ (initCfg cfg).Defaults.Format ≠ [] ∧
    (initCfg cfg).Defaults.PingTimeout ≠ 0 ∧
    (initCfg cfg).Defaults.ShellCompletionTimeout ≠ 0 ∧
    (initCfg cfg).Sources = (if cfg.Sources = none then some ⟨[], none⟩ else cfg.Sources) ∧
    (initCfg cfg).Defaults.Format
      = (if cfg.Defaults.Format = [] then str "table" else cfg.Defaults.Format) ∧
    (initCfg cfg).Defaults.PingTimeout
      = (if cfg.Defaults.PingTimeout = 0 then 10000000000 else cfg.Defaults.PingTimeout) ∧
    (initCfg cfg).Defaults.ShellCompletionTimeout
      = (if cfg.Defaults.ShellCompletionTimeout = 0 then 500000000
          else cfg.Defaults.ShellCompletionTimeout) ∧
    (initCfg cfg).Defaults.Header = cfg.Defaults.Header ∧
    (initCfg cfg).Version = cfg.Version ∧ (initCfg cfg).Ext = cfg.Ext ∧
    initCfg (initCfg cfg) = initCfg cfg := by
  have hs : (initCfg cfg).Sources ≠ none := by
    rw [initCfg_eq]
    by_cases h : cfg.Sources = none
    · simp only [h, if_true]
      exact fun hc => Option.noConfusion hc
    · simp only [h, if_false]
      exact h
  have hf : (initCfg cfg).Defaults.Format ≠ [] := by
    rw [initCfg_eq]
    by_cases h : cfg.Defaults.Format = []
    · simp only [h, if_true]
      decide
    · simp only [h, if_false]
      exact h
  have hp : (initCfg cfg).Defaults.PingTimeout ≠ 0 := by
    rw [initCfg_eq]
    by_cases h : cfg.Defaults.PingTimeout = 0
    · simp only [h, if_true]
      decide
    · simp only [h, if_false]
      exact h
  have ht : (initCfg cfg).Defaults.ShellCompletionTimeout ≠ 0 := by
    rw [initCfg_eq]
    by_cases h : cfg.Defaults.ShellCompletionTimeout = 0
    · simp only [h, if_true]
      decide
    · simp only [h, if_false]
      exact h
  refine ⟨hs, hf, hp, ht, ?_, ?_, ?_, ?_, ?_, ?_, ?_, ?_⟩
  · rw [initCfg_eq]
  · rw [initCfg_eq]; rfl
  · rw [initCfg_eq]; rfl
  · rw [initCfg_eq]; rfl
  · rw [initCfg_eq]
  · rw [initCfg_eq]
  · rw [initCfg_eq]
  · rw [initCfg_eq (initCfg cfg), if_neg hs, if_neg hf, if_neg hp, if_neg ht]

/-! ### Cells without `|` and without line feed -/

/-- A byte of the result of a replacement is a byte of the text or of the
replacement. -/
theorem replaceScan_mem (old new : List Nat) (x : Nat) : ∀ (l : List Nat) (skip : Nat),
    x ∈ replaceScan old new skip l → x ∈ l ∨ x ∈ new
  | [], _, h => by
    rw [replaceScan] at h
    exact absurd h (List.not_mem_nil _)
  | c :: rest, skip + 1, h => by
    rw [replaceScan] at h
    rcases replaceScan_mem old new x rest skip h with h1 | h1
    · exact Or.inl (List.mem_cons_of_mem _ h1)
    · exact Or.inr h1
  | c :: rest, 0, h => by
    rw [replaceScan] at h
    by_cases hp : old.isPrefixOf (c :: rest) = true
    · rw [if_pos hp, List.mem_append] at h
      rcases h with h1 | h1
      · exact Or.inr h1
      · rcases replaceScan_mem old new x rest (old.length - 1) h1 with h2 | h2
        · exact Or.inl (List.mem_cons_of_mem _ h2)
        · exact Or.inr h2
    · rw [if_neg hp, List.mem_cons] at h
      rcases h with h1 | h1
      · exact Or.inl (by rw [h1]; exact List.mem_cons_self _ _)
      · rcases replaceScan_mem old new x rest 0 h1 with h2 | h2
        · exact Or.inl (List.mem_cons_of_mem _ h2)
        · exact Or.inr h2

/-- Replacing every occurrence of one byte by a text without this byte leaves
no occurrence of it. -/
theorem replaceScan_single (c : Nat) (new : List Nat) (hnew : c ∉ new) : ∀ l : List Nat,
    c ∉ replaceScan [c] new 0 l
  | [] => by
    rw [replaceScan]
    exact List.not_mem_nil _
  | d :: rest => by
    rw [replaceScan]
    by_cases hd : c = d
    · have hp : [c].isPrefixOf (d :: rest) = true := by
        simp [List.isPrefixOf, hd]
      rw [if_pos hp, List.mem_append]
      rintro (h | h)
      · exact hnew h
      · exact replaceScan_single c new hnew rest h
    · have hp : ¬ [c].isPrefixOf (d :: rest) = true := by
        simp [List.isPrefixOf, hd]
      rw [if_neg hp, List.mem_cons]
      rintro (h | h)
      · exact hd h
      · exact replaceScan_single c new hnew rest h

/-- The text that `escapeMarkdown` returns has no `|` and no line feed. -/
theorem escapeMarkdown_clean (s : List Nat) :
    0x7c ∉ escapeMarkdown s ∧ 0x0a ∉ escapeMarkdown s := by
  unfold escapeMarkdown Replace
  refine ⟨?_, ?_⟩
  · intro h
    rcases replaceScan_mem _ _ _ _ _ h with h1 | h1
    · rcases replaceScan_mem _ _ _ _ _ h1 with h2 | h2
      · exact replaceScan_single 0x7c (str "&vert;") (by decide) _ h2
      · exact absurd h2 (by decide)
    · exact absurd h1 (by decide)
  · exact replaceScan_single 0x0a (str "<br/>") (by decide) _

/-- The cells that the loop of `writeRecord` writes for fields that are nil
or strings: one `|` for each field and no line feed, when the text carried
into the loop has neither. -/
theorem writeRecordLoop_cells (recMeta : List FieldMeta) : ∀ (rec : List Value) (i : Nat)
    (s : List Nat), (∀ field ∈ rec, field = .nil ∨ ∃ v, field = .string v) →
    0x7c ∉ s → 0x0a ∉ s →
    ∃ cells, writeRecordLoop recMeta rec i s [] = some cells ∧
      cells.count 0x7c = rec.length ∧ 0x0a ∉ cells
  | [], i, s, _, _, _ => ⟨[], rfl, rfl, List.not_mem_nil _⟩
  | field :: rest, i, s, hrec, hp, hn => by
    have hcell : ∃ t, cellText recMeta i s field = some t ∧ 0x7c ∉ t ∧ 0x0a ∉ t := by
      rcases hrec field (List.mem_cons_self _ _) with h | ⟨v, h⟩
      · rw [h]
        exact ⟨s, rfl, hp, hn⟩
      · rw [h]
        exact ⟨escapeMarkdown v, rfl, (escapeMarkdown_clean v).1, (escapeMarkdown_clean v).2⟩
    obtain ⟨t, ht, htp, htn⟩ := hcell
    obtain ⟨cells, hc, hcount, hnl⟩ := writeRecordLoop_cells recMeta rest (i + 1) t
      (fun f hf => hrec f (List.mem_cons_of_mem _ hf)) htp htn
    refine ⟨str "| " ++ (t ++ str " ") ++ cells, ?_, ?_, ?_⟩
    · rw [writeRecordLoop_cons, ht]
      simp only
      rw [writeRecordLoop_append, hc, List.nil_append]
      rfl
    · rw [List.count_append, List.count_append, List.count_append, hcount,
        List.count_eq_zero.mpr htp, List.length_cons]
      have h1 : List.count 0x7c (str "| ") = 1 := by decide
      have h2 : List.count 0x7c (str " ") = 0 := by decide
      rw [h1, h2]
      omega
    · intro h
      rw [List.mem_append, List.mem_append, List.mem_append] at h
      rcases h with (h | h | h) | h
      · exact absurd h (by decide)
      · exact htn h
      · exact absurd h (by decide)
      · exact hnl h

/-- C32: for every string `s`, `escapeMarkdown(s)` contains no `|` and no line
feed. So for a record of `n` fields that are each nil or a string,
`writeRecord` succeeds and appends to the buffer a single line: a text
without line feed that contains exactly `n + 1` characters `|`, followed by
one line feed. -/
theorem escapeMarkdown_single_line (s : List Nat) (w : RecordWriter) (buf : List Nat)
    (rec : List Value) (hbuf : w.buf = some buf)
    (hrec : ∀ field ∈ rec, field = .nil ∨ ∃ v, field = .string v) :
    0x7c ∉ escapeMarkdown s ∧ 0x0a ∉ escapeMarkdown s ∧
    ∃ line, w.writeRecord rec = some { w with buf := some (buf ++ (line ++ [0x0a])) } ∧
      0x0a ∉ line ∧ line.count 0x7c = rec.length + 1 ∧
      (line ++ [0x0a]).count 0x7c = rec.length + 1 ∧ (line ++ [0x0a]).count 0x0a = 1 := by
  obtain ⟨cells, hc, hcount, hnl⟩ := writeRecordLoop_cells w.recMeta rec 0 [] hrec
    (List.not_mem_nil _) (List.not_mem_nil _)
  refine ⟨(escapeMarkdown_clean s).1, (escapeMarkdown_clean s).2, cells ++ [0x7c], ?_, ?_, ?_,
    ?_, ?_⟩
  · unfold RecordWriter.writeRecord
    rw [hbuf]
    simp only
    rw [writeRecordLoop_append, hc]
    simp only [Option.map_some']
    have : str "|\n" = [0x7c] ++ [0x0a] := by decide
    rw [this, List.append_assoc, List.append_assoc]
  · intro h
    rcases List.mem_append.mp h with h1 | h1
    · exact hnl h1
    · exact absurd h1 (by decide)
  · rw [List.count_append, hcount]
    rfl
  · rw [List.count_append, List.count_append, hcount]
    rfl
  · rw [List.count_append, List.count_append, List.count_eq_zero.mpr hnl]
    rfl

/-- C32, on the record of the string `a|b`, a line feed, `c`, then nil, then
the string `d`, written to an opened writer: the line written has four
characters `|` and ends in its only line feed. -/
theorem escapeMarkdown_single_line_witness :
    escapeMarkdown (str "a|b\nc") = str "a&vert;b<br/>c" ∧
    ∃ line, RecordWriter.writeRecord ⟨[], [], some []⟩
        [.string (str "a|b\nc"), .nil, .string (str "d")]
        = some ⟨[], [], some ([] ++ (line ++ [0x0a]))⟩ ∧
      0x0a ∉ line ∧ line.count 0x7c = 3 + 1 :=
  ⟨by decide, by
    obtain ⟨_, _, line, h1, h2, h3, _⟩ := escapeMarkdown_single_line [] ⟨[], [], some []⟩ []
      [.string (str "a|b\nc"), .nil, .string (str "d")] rfl (by
        intro field hfield
        simp only [List.mem_cons, List.mem_singleton, List.not_mem_nil, or_false] at hfield
        rcases hfield with h | h | h
        · exact Or.inr ⟨_, h⟩
        · exact Or.inl h
        · exact Or.inr ⟨_, h⟩)
    exact ⟨line, h1, h2, h3⟩⟩

end Sq
